import Mathlib

/-!
# gfx: circle rasterizer, color blender and canvas wrappers

A shallow embedding of `src/include/gfx.h` and `src/src/gfx.cpp`.

* `int32_t` values are integers; every `int32_t` operation of the source is
  followed by `wrap32`, the two's complement reduction to 32 bits.
* `uint8_t` color channels are `Fin 256`.
* The canvas (an SDL renderer behind `void* handle`) is explicit state: the
  current draw color and the log of the drawing commands issued so far, each
  logged together with the draw color that was current when it was issued.
* The `float` arithmetic of the r, g, b channels of the color blender (polynomial
  decode, square-root encode, truncation) is modelled by exact real arithmetic
  (no rounding, the `float` literals read as the decimal numbers written in the
  source). The alpha channel is computed in binary32: every operation is rounded
  to nearest, ties to even (`round_binary32`). A `float` to `uint8_t` conversion
  whose truncated value does not fit a byte has no defined result and is
  modelled by `none`.
* The scalar type `S` of `vector / S` is read as `int32_t`; the built-in division
  truncates toward zero (`Int.tdiv`) and division by zero has no defined result.
* The loop of `draw_circle` is run on fuel; `circle_loop_fuel` and
  `circle_loop_fuel_irrelevant` show that for every `int32_t` radius the loop
  leaves by its own condition before the fuel is used up.
-/

namespace gfx

/-! ## Machine integers -/

/-- Two's complement reduction of an integer to the range of `int32_t`. -/
def wrap32 (n : Int) : Int := (n + 2147483648) % 4294967296 - 2147483648

/-- The value fits `int32_t`. -/
def int32 (n : Int) : Prop := -2147483648 ≤ n ∧ n ≤ 2147483647

instance (n : Int) : Decidable (int32 n) := by
  unfold int32; infer_instance

/-! ## Data model (`gfx.h`) -/

/-- The `struct point` of gfx.h: two `int32_t` coordinates. -/
structure point where
  x : Int
  y : Int
deriving DecidableEq, Repr

/-- The `struct vector` of gfx.h: two `int32_t` components. -/
structure vector where
  x : Int
  y : Int
deriving DecidableEq, Repr

/-- The `struct color` of gfx.h: four `uint8_t` channels. -/
structure color where
  r : Fin 256
  g : Fin 256
  b : Fin 256
  a : Fin 256
deriving DecidableEq, Repr

/-- The `enum class fill`. -/
inductive fill where
  | on
  | off
deriving DecidableEq, Repr

/-- The palette entry `black{0, 0, 0}`; the omitted alpha is value-initialised to 0. -/
def black : color := ⟨0, 0, 0, 0⟩

/-- The palette entry `white{255, 255, 255}`; the omitted alpha is value-initialised to 0. -/
def white : color := ⟨255, 255, 255, 0⟩

/-- The operator `point + vector` of gfx.h: component-wise `int32_t` addition. -/
def point.add (p : point) (v : vector) : point := ⟨wrap32 (p.x + v.x), wrap32 (p.y + v.y)⟩

instance : HAdd point vector point := ⟨point.add⟩

/-! ## The canvas as explicit state -/

/-- A drawing command received by the rendering backend. -/
inductive command where
  | draw_point (p : point)
  | draw_line (p0 p1 : point)
  | draw_rect (p : point) (v : vector) (f : fill)
deriving DecidableEq, Repr

/-- The renderer state behind a `canvas`: the current draw color and the log of
issued commands, each with the draw color current at the time of the call. -/
structure canvas where
  color : color
  log : List (gfx.color × command)
deriving DecidableEq, Repr

namespace impl

/-- Model of `impl::canvas_color_get` (`SDL_GetRenderDrawColor`). -/
def canvas_color_get (can : canvas) : color := can.color

/-- Model of `impl::canvas_color_set` (`SDL_SetRenderDrawColor`). -/
def canvas_color_set (can : canvas) (col : color) : canvas := { can with color := col }

/-- Model of `impl::canvas_draw_point` (`SDL_RenderDrawPoint`). -/
def canvas_draw_point (can : canvas) (p : point) : canvas :=
  { can with log := can.log ++ [(can.color, command.draw_point p)] }

/-- Model of `impl::canvas_draw_line` (`SDL_RenderDrawLine`). -/
def canvas_draw_line (can : canvas) (p0 p1 : point) : canvas :=
  { can with log := can.log ++ [(can.color, command.draw_line p0 p1)] }

/-- Model of `impl::canvas_draw_rect` (`SDL_RenderDrawRect` / `SDL_RenderFillRect`). -/
def canvas_draw_rect (can : canvas) (p : point) (v : vector) (f : fill) : canvas :=
  { can with log := can.log ++ [(can.color, command.draw_rect p v f)] }

end impl

/-- The function `color_get` of gfx.cpp. -/
def color_get (can : canvas) : color := impl.canvas_color_get can

/-- The function `color_set` of gfx.cpp. -/
def color_set (can : canvas) (col : color) : canvas := impl.canvas_color_set can col

/-- The color-less `draw_point` of gfx.cpp. -/
def draw_point (can : canvas) (p : point) : canvas := impl.canvas_draw_point can p

/-- The color-less `draw_line` of gfx.cpp. -/
def draw_line (can : canvas) (p0 p1 : point) : canvas := impl.canvas_draw_line can p0 p1

/-- The color-less `draw_rect` of gfx.cpp. -/
def draw_rect (can : canvas) (p : point) (v : vector) (f : fill) : canvas :=
  impl.canvas_draw_rect can p v f

/-! ## The circle rasterizer (`draw_circle`) -/

/-- The scalar loop state of `draw_circle`. -/
structure circle_state where
  x : Int
  y : Int
  tx : Int
  ty : Int
  error : Int
deriving DecidableEq, Repr

/-- The state on entry to the loop: `x = radius - 1`, `y = 0`, `tx = ty = 1`,
`error = tx - diameter`. -/
def circle_init (radius : Int) : circle_state :=
  { x := wrap32 (radius - 1), y := 0, tx := 1, ty := 1,
    error := wrap32 (1 - wrap32 (radius * 2)) }

/-- The update at the end of the loop body: the two independent `if`s. -/
def circle_step (diameter : Int) (s : circle_state) : circle_state :=
  let s1 : circle_state :=
    if s.error ≤ 0 then
      { s with y := wrap32 (s.y + 1), error := wrap32 (s.error + s.ty), ty := wrap32 (s.ty + 2) }
    else s
  if s1.error > 0 then
    { s1 with x := wrap32 (s1.x - 1), tx := wrap32 (s1.tx + 2),
              error := wrap32 (s1.error + wrap32 (wrap32 (s1.tx + 2) - diameter)) }
  else s1

/-- The eight `canvas_draw_point` calls of one stroke iteration, in source order. -/
def stroke_octants (center : point) (can : canvas) (x y : Int) : canvas :=
  let can := impl.canvas_draw_point can ⟨wrap32 (center.x - x), wrap32 (center.y - y)⟩
  let can := impl.canvas_draw_point can ⟨wrap32 (center.x - x), wrap32 (center.y + y)⟩
  let can := impl.canvas_draw_point can ⟨wrap32 (center.x - y), wrap32 (center.y - x)⟩
  let can := impl.canvas_draw_point can ⟨wrap32 (center.x - y), wrap32 (center.y + x)⟩
  let can := impl.canvas_draw_point can ⟨wrap32 (center.x + x), wrap32 (center.y - y)⟩
  let can := impl.canvas_draw_point can ⟨wrap32 (center.x + x), wrap32 (center.y + y)⟩
  let can := impl.canvas_draw_point can ⟨wrap32 (center.x + y), wrap32 (center.y - x)⟩
  impl.canvas_draw_point can ⟨wrap32 (center.x + y), wrap32 (center.y + x)⟩

/-- The four `canvas_draw_line` calls of one fill iteration, in source order. -/
def fill_spans (center : point) (can : canvas) (x y : Int) : canvas :=
  let can := impl.canvas_draw_line can ⟨wrap32 (center.x - x), wrap32 (center.y - y)⟩
    ⟨wrap32 (center.x + x), wrap32 (center.y - y)⟩
  let can := impl.canvas_draw_line can ⟨wrap32 (center.x - x), wrap32 (center.y + y)⟩
    ⟨wrap32 (center.x + x), wrap32 (center.y + y)⟩
  let can := impl.canvas_draw_line can ⟨wrap32 (center.x - y), wrap32 (center.y - x)⟩
    ⟨wrap32 (center.x + y), wrap32 (center.y - x)⟩
  impl.canvas_draw_line can ⟨wrap32 (center.x - y), wrap32 (center.y + x)⟩
    ⟨wrap32 (center.x + y), wrap32 (center.y + x)⟩

/-- The loop `while (x >= y) { emit; update }`, run for at most `fuel` iterations. -/
def circle_loop (emit : canvas → Int → Int → canvas) (diameter : Int) :
    Nat → canvas → circle_state → canvas
  | 0, can, _ => can
  | fuel + 1, can, s =>
    if s.x ≥ s.y then circle_loop emit diameter fuel (emit can s.x s.y) (circle_step diameter s)
    else can

/-- The number of iterations granted to the loop of `draw_circle`: `x - y + 1` on
entry. Every iteration decreases `x - y`, so the loop condition fails before the
fuel is used up, see `circle_loop_fuel`. -/
def circle_fuel (radius : Int) : Nat := (wrap32 (radius - 1) + 1).toNat

/-- The color-less `draw_circle` of gfx.cpp: the stroke branch (`f == fill::off`)
and the fill branch run the same loop and differ in what an iteration emits. -/
def draw_circle (can : canvas) (center : point) (radius : Int) (f : fill) : canvas :=
  if f = fill.off then
    circle_loop (stroke_octants center) (wrap32 (radius * 2)) (circle_fuel radius) can
      (circle_init radius)
  else
    circle_loop (fill_spans center) (wrap32 (radius * 2)) (circle_fuel radius) can
      (circle_init radius)

/-- The eight points plotted by one stroke iteration, in source order. -/
def octant_points (center : point) (x y : Int) : List point :=
  [⟨wrap32 (center.x - x), wrap32 (center.y - y)⟩, ⟨wrap32 (center.x - x), wrap32 (center.y + y)⟩,
   ⟨wrap32 (center.x - y), wrap32 (center.y - x)⟩, ⟨wrap32 (center.x - y), wrap32 (center.y + x)⟩,
   ⟨wrap32 (center.x + x), wrap32 (center.y - y)⟩, ⟨wrap32 (center.x + x), wrap32 (center.y + y)⟩,
   ⟨wrap32 (center.x + y), wrap32 (center.y - x)⟩, ⟨wrap32 (center.x + y), wrap32 (center.y + x)⟩]

/-- The four spans drawn by one fill iteration, in source order. -/
def span_lines (center : point) (x y : Int) : List (point × point) :=
  [(⟨wrap32 (center.x - x), wrap32 (center.y - y)⟩, ⟨wrap32 (center.x + x), wrap32 (center.y - y)⟩),
   (⟨wrap32 (center.x - x), wrap32 (center.y + y)⟩, ⟨wrap32 (center.x + x), wrap32 (center.y + y)⟩),
   (⟨wrap32 (center.x - y), wrap32 (center.y - x)⟩, ⟨wrap32 (center.x + y), wrap32 (center.y - x)⟩),
   (⟨wrap32 (center.x - y), wrap32 (center.y + x)⟩, ⟨wrap32 (center.x + y), wrap32 (center.y + x)⟩)]

/-- A stroke iteration that plots the same eight points as `stroke_octants`, in the
order chosen by `order` (the source order is `order = id`). -/
def stroke_octants_in_order (order : List point → List point) (center : point) (can : canvas)
    (x y : Int) : canvas :=
  (order (octant_points center x y)).foldl impl.canvas_draw_point can

/-- Stroke-mode `draw_circle` with the points of each iteration plotted in the order
chosen by `order`. -/
def draw_circle_in_order (order : List point → List point) (can : canvas) (center : point)
    (radius : Int) : canvas :=
  circle_loop (stroke_octants_in_order order center) (wrap32 (radius * 2)) (circle_fuel radius)
    can (circle_init radius)

/-- The row offsets and half-widths `(b, e)` of the four spans of an iteration at
`(x, y)`: the span on row `center.y + b` reaches from `center.x - e` to
`center.x + e`, see `span_of_row_extent`. -/
def row_extents (x y : Int) : List (Int × Int) := [(-y, x), (y, x), (-x, y), (x, y)]

/-- The pixels of a horizontal span: `q` lies on the segment that `draw_line` draws
between `p0` and `p1`, both ends included. -/
def span_covers (p0 p1 q : point) : Prop :=
  p0.y = q.y ∧ p1.y = q.y ∧ min p0.x p1.x ≤ q.x ∧ q.x ≤ max p0.x p1.x

instance (p0 p1 q : point) : Decidable (span_covers p0 p1 q) := by
  unfold span_covers; infer_instance

/-- The commands a call issued: what the log gained between `before` and `after`. -/
def issued (before after : canvas) : List command :=
  (after.log.drop before.log.length).map Prod.snd

/-- The loop states at which the body of the loop runs, in order. -/
def circle_states (diameter : Int) : Nat → circle_state → List circle_state
  | 0, _ => []
  | fuel + 1, s =>
    if s.x ≥ s.y then s :: circle_states diameter fuel (circle_step diameter s) else []

/-- The states visited by `draw_circle` for a radius. -/
def circle_trace (radius : Int) : List circle_state :=
  circle_states (wrap32 (radius * 2)) (circle_fuel radius) (circle_init radius)

/-- The loop invariant of `draw_circle` for radius `r`, at a state whose body runs:
the coordinates stay in the first octant, `tx`, `ty` and `error` are the exact
integers `2r - 2x - 1`, `2y + 1` and `x² + y² - r²`, and `1 - 2r ≤ error ≤ 0`. -/
def circle_inv (r : Int) (s : circle_state) : Prop :=
  0 ≤ s.y ∧ s.y ≤ s.x ∧ s.x ≤ r - 1 ∧ r - 1 ≤ s.x + s.y ∧ s.tx = 2 * r - 2 * s.x - 1
    ∧ s.ty = 2 * s.y + 1 ∧ s.error = s.x * s.x + s.y * s.y - r * r ∧ s.error ≤ 0
    ∧ 1 - 2 * r ≤ s.error

/-- The loop invariant of `draw_circle` for a radius above `2^30`. The 32-bit
variables are the exact integers reduced modulo `2^32`; up to `y = 2^30` the state
lies inside the circle of radius `r - 1`, and beyond it inside the circle of radius
`r`, where moreover `error + ty` does not overflow; on the row `y = 0` the loop
does not get below `x = 2^30 - 1`. -/
def circle_inv_wrapped (r : Int) (s : circle_state) : Prop :=
  0 ≤ s.y ∧ s.y ≤ s.x ∧ s.x ≤ r - 1
    ∧ s.tx = wrap32 (2 * r - 2 * s.x - 1) ∧ s.ty = wrap32 (2 * s.y + 1)
    ∧ s.error = wrap32 (s.x * s.x + s.y * s.y - r * r)
    ∧ (s.y ≤ 1073741824 → s.x * s.x + s.y * s.y - r * r ≤ 1 - 2 * r)
    ∧ (1073741824 < s.y → s.x * s.x + s.y * s.y - r * r ≤ 0
        ∧ (s.error ≤ 0 → s.error + (2 * s.y + 1) < 2147483648))
    ∧ (s.y = 0 → 1073741823 ≤ s.x ∧ (s.x = 1073741823 → s.error ≤ 0))

/-! ## Drawing with an explicit color (save, override, restore) -/

/-- The overload `draw_point(can, p, col)` of gfx.cpp. -/
def draw_point_color (can : canvas) (p : point) (col : color) : canvas :=
  let old_col := color_get can
  let can := color_set can col
  let can := draw_point can p
  color_set can old_col

/-- The overload `draw_line(can, p0, p1, col)` of gfx.cpp. -/
def draw_line_color (can : canvas) (p0 p1 : point) (col : color) : canvas :=
  let old := color_get can
  let can := color_set can col
  let can := draw_line can p0 p1
  color_set can old

/-- The overload `draw_circle(can, center, radius, col, f)` of gfx.cpp. -/
def draw_circle_color (can : canvas) (center : point) (radius : Int) (col : color) (f : fill) :
    canvas :=
  let old := color_get can
  let can := color_set can col
  let can := draw_circle can center radius f
  color_set can old

/-- The overload `draw_rect(can, p, v, col, f)` of gfx.cpp. -/
def draw_rect_color (can : canvas) (p : point) (v : vector) (col : color) (f : fill) : canvas :=
  let old := color_get can
  let can := color_set can col
  let can := draw_rect can p v f
  color_set can old

/-! ## The color blender (`color_blend`)

`float` values are modelled by real numbers. In the r, g, b channels the `float`
operations are the exact real operations; in the alpha channel, which has only
multiplications, additions and divisions by a power of two, every operation is
rounded to binary32 (`round_binary32`: round to nearest, ties to even, each
operation rounded by itself). A NaN (the square root of a negative number) and a
conversion to `uint8_t` of a value that truncates outside `0..255` (undefined
behaviour in C++) are modelled by `none`. -/

/-- The function `srgb2linear` of gfx.cpp. -/
noncomputable def srgb2linear (x : ℝ) : ℝ :=
  x * (x * (x * 0.30530611 + 0.682171111) + 0.012522878)

/-- The function `std::clamp(v, lo, hi)`. -/
noncomputable def clamp (v lo hi : ℝ) : ℝ :=
  if v < lo then lo else if hi < v then hi else v

/-- The expression clamped by `linear2srgb`, for `x ≥ 0`. -/
noncomputable def linear2srgb_raw (x : ℝ) : ℝ :=
  0.662002687 * √x + 0.684122060 * √(√x) - 0.323583601 * √(√(√x)) - 0.0225411470 * x

/-- The function `linear2srgb` of gfx.cpp. For `x < 0` the first `sqrtf` is NaN,
and so is the clamped result. -/
noncomputable def linear2srgb (x : ℝ) : Option ℝ :=
  if 0 ≤ x then some (clamp (linear2srgb_raw x) 0 1) else none

/-- Truncation toward zero, the rounding of a `float` to integer conversion. -/
noncomputable def trunc (v : ℝ) : ℤ := if 0 ≤ v then ⌊v⌋ else ⌈v⌉

/-- The conversion `static_cast<uint8_t>(v)` of a `float`: truncation toward zero,
defined when the truncated value is in `0..255`, that is when `-1 < v < 256`. -/
noncomputable def static_cast_uint8 (v : ℝ) : Option (Fin 256) :=
  if -1 < v ∧ v < 256 then some (Fin.ofNat (trunc v).toNat) else none

/-- The `float` value that `blend_component` hands to `static_cast<uint8_t>`. -/
noncomputable def blend_component_value (x y fraction : ℝ) : Option ℝ :=
  (linear2srgb (srgb2linear (x / 256) * fraction + srgb2linear (y / 256) * (1 - fraction))).map
    (fun e => e * 256)

/-- The function `blend_component` of gfx.cpp. -/
noncomputable def blend_component (x y fraction : ℝ) : Option (Fin 256) :=
  (blend_component_value x y fraction).bind static_cast_uint8

/-- Rounding of a real number to the nearest integer, a tie going to the even
integer. -/
noncomputable def round_even (y : ℝ) : ℤ :=
  if Int.fract y < 1 / 2 then ⌊y⌋
  else if 1 / 2 < Int.fract y then ⌊y⌋ + 1
  else if ⌊y⌋ % 2 = 0 then ⌊y⌋ else ⌊y⌋ + 1

/-- The exponent of the spacing of the binary32 numbers around `x`: 23 below the
exponent of the binade of `x`, and `-149` in the subnormal range. -/
noncomputable def ulp_exp (x : ℝ) : ℤ := max (Int.log 2 |x|) (-126) - 23

/-- The binary32 number nearest to `x` (round to nearest, ties to even), the
result of a `float` operation whose exact result is `x`. The exponent range is
not bounded above: overflow to infinity is not modelled. -/
noncomputable def round_binary32 (x : ℝ) : ℝ :=
  (round_even (x / (2 : ℝ) ^ ulp_exp x) : ℝ) * (2 : ℝ) ^ ulp_exp x

/-- The `float` value that `color_blend` hands to `static_cast<uint8_t>` for the
alpha channel: every operation of
`((float(c0.a) / 256.f) * fraction + (float(c1.a) / 256.f) * (1 - fraction)) * 256.f`
is rounded to binary32. -/
noncomputable def blend_alpha_value (c0 c1 : color) (fraction : ℝ) : ℝ :=
  round_binary32
    (round_binary32
        (round_binary32 (round_binary32 (((c0.a : ℕ) : ℝ) / 256) * fraction)
          + round_binary32
              (round_binary32 (((c1.a : ℕ) : ℝ) / 256) * round_binary32 (1 - fraction)))
      * 256)

/-- The function `color_blend` of gfx.cpp. -/
noncomputable def color_blend (c0 c1 : color) (fraction : ℝ) : Option color :=
  (blend_component ((c0.r : ℕ) : ℝ) ((c1.r : ℕ) : ℝ) fraction).bind fun r =>
  (blend_component ((c0.g : ℕ) : ℝ) ((c1.g : ℕ) : ℝ) fraction).bind fun g =>
  (blend_component ((c0.b : ℕ) : ℝ) ((c1.b : ℕ) : ℝ) fraction).bind fun b =>
  (static_cast_uint8 (blend_alpha_value c0 c1 fraction)).bind fun a =>
  some ⟨r, g, b, a⟩

/-! ## Certified enclosures of the encoder on byte inputs

Fixed-point bounds for `linear2srgb_raw (srgb2linear (v / 256))`, computed with
natural numbers so that they can be evaluated for every byte `v`. -/

/-- Newton iteration for the integer square root. -/
def isqrt_iter (n : ℕ) : ℕ → ℕ → ℕ
  | 0, g => g
  | k + 1, g =>
    let g' := (g + n / g) / 2
    if g' < g then isqrt_iter n k g' else g

/-- Integer square root of a number below `2^60`. -/
def isqrt (n : ℕ) : ℕ := isqrt_iter n 64 1073741824

/-- The scale `T` of the fixed-point square roots. -/
def fix_scale : ℕ := 1000000000

/-- The denominator `D = 10^9 * 256^3` of `srgb2linear (v / 256)`. -/
def linear_den : ℕ := 16777216000000000

/-- The numerator of `srgb2linear (v / 256)` over `linear_den`. -/
def linear_num (v : ℕ) : ℕ :=
  v * (v * (v * 305306110 + 682171111 * 256) + 12522878 * 65536)

/-- Lower and upper fixed-point candidates for the three nested square roots. -/
structure sqrt_cert where
  p0 : ℕ
  q0 : ℕ
  p1 : ℕ
  q1 : ℕ
  p2 : ℕ
  q2 : ℕ

/-- The candidates computed for the linear value `N / linear_den`. -/
def sqrt_cert_of (N : ℕ) : sqrt_cert :=
  let p0 := isqrt (N * fix_scale * fix_scale / linear_den)
  let q0 := p0 + 1
  let p1 := isqrt (p0 * fix_scale)
  let q1 := isqrt (q0 * fix_scale) + 1
  let p2 := isqrt (p1 * fix_scale)
  let q2 := isqrt (q1 * fix_scale) + 1
  ⟨p0, q0, p1, q1, p2, q2⟩

/-- The candidates `c` enclose the nested square roots of `N / D` for the decoded
byte `v` (`(p0/T)² ≤ N/D ≤ (q0/T)²`, `(p1/T)² ≤ p0/T`, `q0/T ≤ (q1/T)²`,
`(p2/T)² ≤ p1/T`, `q1/T ≤ (q2/T)²`), and the resulting enclosure of the encoded
value `e` shows `e * 256 < v + 1` and, unless `v ≤ k`, `v - k ≤ e * 256`; the last
two inequalities are multiplied by `10^18 * D`. -/
def enc_ok (v k : ℕ) (c : sqrt_cert) : Prop :=
  c.p0 * c.p0 * linear_den ≤ linear_num v * fix_scale * fix_scale
    ∧ linear_num v * fix_scale * fix_scale ≤ c.q0 * c.q0 * linear_den
    ∧ c.p1 * c.p1 ≤ c.p0 * fix_scale ∧ c.q0 * fix_scale ≤ c.q1 * c.q1
    ∧ c.p2 * c.p2 ≤ c.p1 * fix_scale ∧ c.q1 * fix_scale ≤ c.q2 * c.q2
    ∧ 256 * ((662002687 * c.q0 + 684122060 * c.q1) * linear_den)
        < (v + 1) * (1000000000000000000 * linear_den)
          + 256 * (323583601 * c.p2 * linear_den + 22541147 * linear_num v * fix_scale)
    ∧ (v ≤ k
      ∨ (v - k) * (1000000000000000000 * linear_den)
          + 256 * (323583601 * c.q2 * linear_den + 22541147 * linear_num v * fix_scale)
        ≤ 256 * ((662002687 * c.p0 + 684122060 * c.p1) * linear_den))

instance (v k : ℕ) (c : sqrt_cert) : Decidable (enc_ok v k c) := by
  unfold enc_ok; infer_instance

/-- The check `enc_ok` run on the computed candidates. -/
def enc_check (v k : ℕ) : Bool := decide (enc_ok v k (sqrt_cert_of (linear_num v)))

/-! ## Point and vector arithmetic and ordering (`gfx.h`) -/

/-- The operator `vector + vector`: component-wise `int32_t` addition. -/
def vector.add (v0 v1 : vector) : vector := ⟨wrap32 (v0.x + v1.x), wrap32 (v0.y + v1.y)⟩

/-- The unary operator `-vector`: component-wise `int32_t` negation. -/
def vector.neg (v : vector) : vector := ⟨wrap32 (-v.x), wrap32 (-v.y)⟩

/-- The operator `vector - vector`, written `v0 + -v1` in the source. -/
def vector.sub (v0 v1 : vector) : vector := vector.add v0 (vector.neg v1)

/-- The operator `vector + point`, written `p + v` in the source. -/
def vector.add_point (v : vector) (p : point) : point := point.add p v

/-- The operator `point - vector`, written `p + (-v)` in the source. -/
def point.sub_vector (p : point) (v : vector) : point := point.add p (vector.neg v)

/-- The operator `point - point`: component-wise `int32_t` subtraction. -/
def point.sub (p0 p1 : point) : vector := ⟨wrap32 (p0.x - p1.x), wrap32 (p0.y - p1.y)⟩

/-- The operator `vector / S` at `S = int32_t`: each component is divided by the
built-in integer division, which truncates toward zero (`Int.tdiv`), and the
quotient is stored in an `int32_t`. Division by zero has no defined result. -/
def vector.div (v : vector) (s : Int) : Option vector :=
  if s = 0 then none else some ⟨wrap32 (Int.tdiv v.x s), wrap32 (Int.tdiv v.y s)⟩

/-- The call operator of `std::less<gfx::point>`. -/
def less_point (p0 p1 : point) : Bool :=
  decide (p0.x < p1.x) || (!decide (p1.x < p0.x) && decide (p0.y < p1.y))

/-- The call operator of `std::less<gfx::vector>`. -/
def less_vector (v0 v1 : vector) : Bool :=
  decide (v0.x < v1.x) || (!decide (v1.x < v0.x) && decide (v0.y < v1.y))

/-! ## Auxiliary notions for the rasterizer: span ends, exact values -/

/-- The ends of the lines of a command list, as point commands and in order: a
line contributes its first and then its second end, other commands nothing. -/
def endpoints : List command → List command
  | [] => []
  | command.draw_line p0 p1 :: l => command.draw_point p0 :: command.draw_point p1 :: endpoints l
  | _ :: l => endpoints l

/-- The exact results, before they are stored in an `int32_t`, of the arithmetic
operations that initialise the loop of `draw_circle`: `radius * 2`, `radius - 1`
and `tx - diameter`. -/
def circle_init_values (radius : Int) : List Int :=
  [radius * 2, radius - 1, 1 - wrap32 (radius * 2)]

/-- The exact results, before they are stored in an `int32_t`, of the arithmetic
operations that one update of the loop body executes in state `s`, in source
order: `++y`, `error += ty`, `ty += 2` when `error <= 0`, and then `--x`,
`tx += 2`, `tx - diameter`, `error += (tx - diameter)` when `error > 0`. -/
def circle_step_values (diameter : Int) (s : circle_state) : List Int :=
  let s1 : circle_state :=
    if s.error ≤ 0 then
      { s with y := wrap32 (s.y + 1), error := wrap32 (s.error + s.ty), ty := wrap32 (s.ty + 2) }
    else s
  (if s.error ≤ 0 then [s.y + 1, s.error + s.ty, s.ty + 2] else [])
    ++ (if s1.error > 0 then
          [s1.x - 1, s1.tx + 2, wrap32 (s1.tx + 2) - diameter,
           s1.error + wrap32 (wrap32 (s1.tx + 2) - diameter)]
        else [])

/-- The initial loop state of `draw_circle` read over the unbounded integers. -/
def circle_init_unbounded (radius : Int) : circle_state :=
  { x := radius - 1, y := 0, tx := 1, ty := 1, error := 1 - radius * 2 }

/-- The update of the loop body of `draw_circle` read over the unbounded integers. -/
def circle_step_unbounded (diameter : Int) (s : circle_state) : circle_state :=
  let s1 : circle_state :=
    if s.error ≤ 0 then
      { s with y := s.y + 1, error := s.error + s.ty, ty := s.ty + 2 }
    else s
  if s1.error > 0 then
    { s1 with x := s1.x - 1, tx := s1.tx + 2, error := s1.error + (s1.tx + 2 - diameter) }
  else s1

/-- The loop states at which the body runs when the loop is read over the
unbounded integers, for at most `fuel` iterations. -/
def circle_states_unbounded (diameter : Int) : Nat → circle_state → List circle_state
  | 0, _ => []
  | fuel + 1, s =>
    if s.x ≥ s.y then s :: circle_states_unbounded diameter fuel (circle_step_unbounded diameter s)
    else []

/-! ## Basic facts about the loop -/

theorem circle_loop_eq_foldl (emit : canvas → Int → Int → canvas) (d : Int) (n : Nat) :
    ∀ (can : canvas) (s : circle_state),
      circle_loop emit d n can s
        = (circle_states d n s).foldl (fun c st => emit c st.x st.y) can := by
  induction n with
  | zero => intro can s; rfl
  | succ n ih =>
    intro can s
    by_cases h : s.x ≥ s.y
    · simp [circle_loop, circle_states, h, ih]
    · simp [circle_loop, circle_states, h]

theorem stroke_octants_eq (center : point) (can : canvas) (x y : Int) :
    stroke_octants center can x y
      = canvas.mk can.color (can.log ++
            (octant_points center x y).map (fun p => (can.color, command.draw_point p))) := by
  simp [stroke_octants, octant_points, impl.canvas_draw_point]

theorem fill_spans_eq (center : point) (can : canvas) (x y : Int) :
    fill_spans center can x y
      = canvas.mk can.color (can.log ++
            (span_lines center x y).map (fun l => (can.color, command.draw_line l.1 l.2))) := by
  simp [fill_spans, span_lines, impl.canvas_draw_line]

theorem foldl_stroke (center : point) (l : List circle_state) :
    ∀ can : canvas,
      l.foldl (fun c st => stroke_octants center c st.x st.y) can
        = canvas.mk can.color (can.log ++
              (l.flatMap (fun st => octant_points center st.x st.y)).map
                (fun p => (can.color, command.draw_point p))) := by
  induction l with
  | nil => intro can; simp
  | cons s l ih =>
    intro can
    rw [List.foldl_cons, ih, stroke_octants_eq]
    simp

theorem foldl_fill (center : point) (l : List circle_state) :
    ∀ can : canvas,
      l.foldl (fun c st => fill_spans center c st.x st.y) can
        = canvas.mk can.color (can.log ++
              (l.flatMap (fun st => span_lines center st.x st.y)).map
                (fun q => (can.color, command.draw_line q.1 q.2))) := by
  induction l with
  | nil => intro can; simp
  | cons s l ih =>
    intro can
    rw [List.foldl_cons, ih, fill_spans_eq]
    simp

/-- Stroke mode appends to the log the octant points of the visited states. -/
theorem draw_circle_stroke (can : canvas) (center : point) (radius : Int) :
    draw_circle can center radius fill.off
      = canvas.mk can.color (can.log ++
            ((circle_trace radius).flatMap (fun st => octant_points center st.x st.y)).map
              (fun p => (can.color, command.draw_point p))) := by
  simp [draw_circle, circle_loop_eq_foldl, foldl_stroke, circle_trace]

/-- Fill mode appends to the log the spans of the visited states. -/
theorem draw_circle_fill (can : canvas) (center : point) (radius : Int) :
    draw_circle can center radius fill.on
      = canvas.mk can.color (can.log ++
            ((circle_trace radius).flatMap (fun st => span_lines center st.x st.y)).map
              (fun q => (can.color, command.draw_line q.1 q.2))) := by
  simp [draw_circle, circle_loop_eq_foldl, foldl_fill, circle_trace]

theorem issued_append (can : canvas) (l : List (color × command)) :
    issued can (canvas.mk can.color (can.log ++ l)) = l.map Prod.snd := by
  simp [issued]

theorem issued_stroke (can : canvas) (center : point) (radius : Int) :
    issued can (draw_circle can center radius fill.off)
      = ((circle_trace radius).flatMap (fun st => octant_points center st.x st.y)).map
          command.draw_point := by
  rw [draw_circle_stroke, issued_append]; simp

theorem issued_fill (can : canvas) (center : point) (radius : Int) :
    issued can (draw_circle can center radius fill.on)
      = ((circle_trace radius).flatMap (fun st => span_lines center st.x st.y)).map
          (fun q => command.draw_line q.1 q.2) := by
  rw [draw_circle_fill, issued_append]; simp

theorem mem_issued_stroke (can : canvas) (center : point) (radius : Int) (p : point) :
    command.draw_point p ∈ issued can (draw_circle can center radius fill.off)
      ↔ ∃ s ∈ circle_trace radius, p ∈ octant_points center s.x s.y := by
  rw [issued_stroke]
  simp only [List.mem_map, List.mem_flatMap, command.draw_point.injEq]
  constructor
  · rintro ⟨q, ⟨s, hs, hq⟩, rfl⟩; exact ⟨s, hs, hq⟩
  · rintro ⟨s, hs, hq⟩; exact ⟨p, ⟨s, hs, hq⟩, rfl⟩

theorem mem_issued_fill (can : canvas) (center : point) (radius : Int) (a b : point) :
    command.draw_line a b ∈ issued can (draw_circle can center radius fill.on)
      ↔ ∃ s ∈ circle_trace radius, (a, b) ∈ span_lines center s.x s.y := by
  rw [issued_fill]
  simp only [List.mem_map, List.mem_flatMap]
  constructor
  · rintro ⟨⟨a', b'⟩, ⟨s, hs, hq⟩, hab⟩
    simp only [command.draw_line.injEq] at hab
    obtain ⟨rfl, rfl⟩ := hab
    exact ⟨s, hs, hq⟩
  · rintro ⟨s, hs, hq⟩; exact ⟨(a, b), ⟨s, hs, hq⟩, rfl⟩

theorem circle_states_succ (d : Int) (n : Nat) (s : circle_state) :
    circle_states d (n + 1) s
      = if s.x ≥ s.y then s :: circle_states d n (circle_step d s) else [] := rfl

/-- In a state with `0 ≤ y` and `x` below `INT32_MAX`, the loop leaves within
`x - y + 1` iterations: more fuel changes nothing. -/
theorem circle_states_stable (d : Int) (n : Nat) :
    ∀ (s : circle_state), 0 ≤ s.y → s.x ≤ 2147483646 → s.x - s.y + 1 ≤ n →
      ∀ k, circle_states d (n + k) s = circle_states d n s := by
  induction n with
  | zero =>
    intro s _ _ hn k
    have hlt : ¬ s.x ≥ s.y := by omega
    cases k with
    | zero => rfl
    | succ k => simp [circle_states, hlt]
  | succ n ih =>
    intro s hy hx hn k
    have e : n + 1 + k = (n + k) + 1 := by omega
    rw [e]
    by_cases h : s.x ≥ s.y
    · simp only [circle_states, h, if_true]
      congr 1
      apply ih
      · simp only [circle_step, wrap32]; split_ifs <;> (try dsimp only) <;> omega
      · simp only [circle_step, wrap32]; split_ifs <;> (try dsimp only) <;> omega
      · simp only [circle_step, wrap32]; split_ifs <;> (try dsimp only) <;> omega
    · simp [circle_states, h]

theorem circle_fuel_int_min : circle_fuel (-2147483648) = 2147483647 + 1 := by decide

theorem circle_init_int_min :
    circle_init (-2147483648) = ⟨2147483647, 0, 1, 1, 1⟩ := by decide

theorem circle_step_int_min :
    circle_step (wrap32 (-2147483648 * 2)) ⟨2147483647, 0, 1, 1, 1⟩
      = ⟨2147483646, 0, 3, 1, 4⟩ := by decide

/-- The fuel `draw_circle` grants its loop is never what ends the loop: for every
`int32_t` radius the loop has already left by itself, and any additional fuel
yields the same visited states. -/
theorem circle_loop_fuel (radius : Int) (hr : int32 radius) (k : Nat) :
    circle_states (wrap32 (radius * 2)) (circle_fuel radius + k) (circle_init radius)
      = circle_trace radius := by
  obtain ⟨h1, h2⟩ := hr
  by_cases hmin : radius = -2147483648
  · subst hmin
    unfold circle_trace
    rw [circle_fuel_int_min, circle_init_int_min]
    have e : 2147483647 + 1 + k = (2147483647 + k) + 1 := by omega
    rw [e]
    have hg : (2147483647 : Int) ≥ 0 := by decide
    rw [circle_states_succ, circle_states_succ, circle_step_int_min]
    simp only [hg, if_true]
    congr 1
    exact circle_states_stable _ 2147483647 _ (by decide) (by decide) (by decide) k
  · unfold circle_trace
    apply circle_states_stable
    · simp [circle_init]
    · simp only [circle_init, wrap32]; omega
    · simp only [circle_init, circle_fuel, wrap32]; omega

/-- Running the loop of `draw_circle` on more fuel gives the same canvas. -/
theorem circle_loop_fuel_irrelevant (emit : canvas → Int → Int → canvas) (can : canvas)
    (radius : Int) (hr : int32 radius) (k : Nat) :
    circle_loop emit (wrap32 (radius * 2)) (circle_fuel radius + k) can (circle_init radius)
      = circle_loop emit (wrap32 (radius * 2)) (circle_fuel radius) can (circle_init radius) := by
  rw [circle_loop_eq_foldl, circle_loop_eq_foldl, circle_loop_fuel radius hr k]
  rfl

theorem circle_init_range (radius : Int) (hr1 : 1 ≤ radius) (hr2 : radius ≤ 2147483647) :
    (circle_init radius).y = 0 ∧ (circle_init radius).x = radius - 1 := by
  simp only [circle_init, wrap32, true_and]; omega

/-- One update moves the position to a neighbour: `x` goes down by one, or `y` goes
up by one and `x` stays or goes down by one. -/
theorem circle_step_moves (d : Int) (s : circle_state) (hy : 0 ≤ s.y) (hxy : s.y ≤ s.x)
    (hx : s.x ≤ 2147483646) :
    ((circle_step d s).y = s.y ∧ (circle_step d s).x = s.x - 1)
      ∨ ((circle_step d s).y = s.y + 1
          ∧ ((circle_step d s).x = s.x ∨ (circle_step d s).x = s.x - 1)) := by
  simp only [circle_step, wrap32]
  split_ifs <;> (try dsimp only) <;> omega

/-- Along the visited states `y` does not decrease and `x` does not increase. -/
theorem circle_states_mono (d : Int) (n : Nat) :
    ∀ s : circle_state, 0 ≤ s.y → s.x ≤ 2147483646 →
      ∀ t ∈ circle_states d n s, s.y ≤ t.y ∧ t.x ≤ s.x := by
  induction n with
  | zero => intro s _ _ t ht; simp [circle_states] at ht
  | succ n ih =>
    intro s hy hx t ht
    rw [circle_states_succ] at ht
    by_cases h : s.x ≥ s.y
    · simp only [h, if_true, List.mem_cons] at ht
      rcases ht with rfl | ht
      · exact ⟨le_refl _, le_refl _⟩
      · have hm := circle_step_moves d s hy h hx
        obtain ⟨h1, h2⟩ := ih (circle_step d s) (by omega) (by omega) t ht
        omega
    · simp [h] at ht

/-- A state from which some state is visited is itself visited. -/
theorem circle_states_head (d : Int) (n : Nat) (s t : circle_state)
    (ht : t ∈ circle_states d n s) : s ∈ circle_states d n s := by
  cases n with
  | zero => simp [circle_states] at ht
  | succ n =>
    rw [circle_states_succ] at ht ⊢
    by_cases h : s.x ≥ s.y
    · simp [h]
    · simp [h] at ht

/-- Two visited states on one row: every `x` between theirs is visited on that row. -/
theorem circle_states_row (d : Int) (n : Nat) :
    ∀ s : circle_state, 0 ≤ s.y → s.x ≤ 2147483646 →
      ∀ t1 ∈ circle_states d n s, ∀ t2 ∈ circle_states d n s, t1.y = t2.y →
        ∀ e : Int, t1.x ≤ e → e ≤ t2.x →
          ∃ u ∈ circle_states d n s, u.y = t1.y ∧ u.x = e := by
  induction n with
  | zero => intro s _ _ t1 ht1; simp [circle_states] at ht1
  | succ n ih =>
    intro s hy hx t1 ht1 t2 ht2 hyy e he1 he2
    rw [circle_states_succ] at ht1 ht2 ⊢
    by_cases h : s.x ≥ s.y
    · simp only [h, if_true, List.mem_cons] at ht1 ht2 ⊢
      have hm := circle_step_moves d s hy h hx
      have hmono := circle_states_mono d n (circle_step d s) (by omega) (by omega)
      have hih := ih (circle_step d s) (by omega) (by omega)
      rcases ht1 with h1 | ht1 <;> rcases ht2 with h2 | ht2
      · refine ⟨s, Or.inl rfl, by rw [h1], ?_⟩
        rw [h1] at he1; rw [h2] at he2; omega
      · have := hmono t2 ht2
        refine ⟨s, Or.inl rfl, by rw [h1], ?_⟩
        rw [h1] at he1; omega
      · rw [h2] at he2 hyy
        by_cases hes : e = s.x
        · exact ⟨s, Or.inl rfl, hyy.symm, hes.symm⟩
        · have hm1 := hmono t1 ht1
          have hhead := circle_states_head d n (circle_step d s) t1 ht1
          obtain ⟨u, hu, hu1, hu2⟩ := hih t1 ht1 (circle_step d s) hhead (by omega) e he1
            (by omega)
          exact ⟨u, Or.inr hu, hu1, hu2⟩
      · obtain ⟨u, hu, hu1, hu2⟩ := hih t1 ht1 t2 ht2 hyy e he1 he2
        exact ⟨u, Or.inr hu, hu1, hu2⟩
    · simp [h] at ht1

/-- Two visited states in one column: every `y` between theirs is visited in that
column. -/
theorem circle_states_column (d : Int) (n : Nat) :
    ∀ s : circle_state, 0 ≤ s.y → s.x ≤ 2147483646 →
      ∀ t1 ∈ circle_states d n s, ∀ t2 ∈ circle_states d n s, t1.x = t2.x →
        ∀ e : Int, t1.y ≤ e → e ≤ t2.y →
          ∃ u ∈ circle_states d n s, u.x = t1.x ∧ u.y = e := by
  induction n with
  | zero => intro s _ _ t1 ht1; simp [circle_states] at ht1
  | succ n ih =>
    intro s hy hx t1 ht1 t2 ht2 hxx e he1 he2
    rw [circle_states_succ] at ht1 ht2 ⊢
    by_cases h : s.x ≥ s.y
    · simp only [h, if_true, List.mem_cons] at ht1 ht2 ⊢
      have hm := circle_step_moves d s hy h hx
      have hmono := circle_states_mono d n (circle_step d s) (by omega) (by omega)
      have hih := ih (circle_step d s) (by omega) (by omega)
      rcases ht1 with h1 | ht1 <;> rcases ht2 with h2 | ht2
      · refine ⟨s, Or.inl rfl, by rw [h1], ?_⟩
        rw [h1] at he1; rw [h2] at he2; omega
      · rw [h1] at he1 hxx
        by_cases hes : e = s.y
        · exact ⟨s, Or.inl rfl, by rw [h1], hes.symm⟩
        · have hm2 := hmono t2 ht2
          have hhead := circle_states_head d n (circle_step d s) t2 ht2
          obtain ⟨u, hu, hu1, hu2⟩ := hih (circle_step d s) hhead t2 ht2 (by omega) e (by omega)
            he2
          exact ⟨u, Or.inr hu, by rw [h1]; omega, hu2⟩
      · have := hmono t1 ht1
        rw [h2] at he2 hxx
        exact ⟨s, Or.inl rfl, by omega, by omega⟩
      · obtain ⟨u, hu, hu1, hu2⟩ := hih t1 ht1 t2 ht2 hxx e he1 he2
        exact ⟨u, Or.inr hu, hu1, hu2⟩
    · simp [h] at ht1

/-- Any two visited states are ordered: the one with the larger `y` has the smaller
or equal `x`. -/
theorem circle_states_comparable (d : Int) (n : Nat) :
    ∀ s : circle_state, 0 ≤ s.y → s.x ≤ 2147483646 →
      ∀ t1 ∈ circle_states d n s, ∀ t2 ∈ circle_states d n s,
        (t1.y ≤ t2.y ∧ t2.x ≤ t1.x) ∨ (t2.y ≤ t1.y ∧ t1.x ≤ t2.x) := by
  induction n with
  | zero => intro s _ _ t1 ht1; simp [circle_states] at ht1
  | succ n ih =>
    intro s hy hx t1 ht1 t2 ht2
    rw [circle_states_succ] at ht1 ht2
    by_cases h : s.x ≥ s.y
    · simp only [h, if_true, List.mem_cons] at ht1 ht2
      have hm := circle_step_moves d s hy h hx
      have hmono := circle_states_mono d n (circle_step d s) (by omega) (by omega)
      rcases ht1 with h1 | ht1 <;> rcases ht2 with h2 | ht2
      · rw [h1, h2]; exact Or.inl ⟨le_refl _, le_refl _⟩
      · have := hmono t2 ht2; rw [h1]; left; omega
      · have := hmono t1 ht1; rw [h2]; right; omega
      · exact ih (circle_step d s) (by omega) (by omega) t1 ht1 t2 ht2
    · simp [h] at ht1

/-! ## The loop invariant -/

theorem wrap32_of_int32 (n : Int) (h : int32 n) : wrap32 n = n := by
  unfold int32 at h; unfold wrap32; omega

theorem circle_inv_init (r : Int) (hr1 : 1 ≤ r) (hr2 : r ≤ 1073741824) :
    circle_inv r (circle_init r) := by
  have hx : wrap32 (r - 1) = r - 1 := by unfold wrap32; omega
  have he : wrap32 (1 - wrap32 (r * 2)) = 1 - 2 * r := by unfold wrap32; omega
  simp only [circle_inv, circle_init, hx, he]
  refine ⟨le_refl _, by omega, le_refl _, by omega, by omega, by omega, by ring, by omega, le_refl _⟩

/-- Under the invariant the 32-bit update computes the exact integers. -/
theorem circle_step_exact (r : Int) (hr1 : 1 ≤ r) (hr2 : r ≤ 1073741824) (s : circle_state)
    (h : circle_inv r s) :
    circle_step (wrap32 (r * 2)) s
      = if 0 < s.error + s.ty then
          ⟨s.x - 1, s.y + 1, s.tx + 2, s.ty + 2, s.error + s.ty + (s.tx + 2 - r * 2)⟩
        else ⟨s.x, s.y + 1, s.tx, s.ty + 2, s.error + s.ty⟩ := by
  obtain ⟨h0, h1, h2, h3, h4, h5, h6, h7, h8⟩ := h
  have e1 : wrap32 (s.y + 1) = s.y + 1 := by unfold wrap32; omega
  have e2 : wrap32 (s.error + s.ty) = s.error + s.ty := by unfold wrap32; omega
  have hy : s.y ≤ 1073741822 := by
    by_contra hc
    have hy1 : 1073741823 ≤ s.y := by omega
    have hx1 : 1073741823 ≤ s.x := by omega
    nlinarith [mul_le_mul hy1 hy1 (by norm_num) h0, mul_le_mul hx1 hx1 (by norm_num)
      (le_trans h0 h1), mul_le_mul hr2 hr2 (by omega) (by norm_num)]
  have e3 : wrap32 (s.ty + 2) = s.ty + 2 := by unfold wrap32; omega
  have e4 : wrap32 (s.x - 1) = s.x - 1 := by unfold wrap32; omega
  have e5 : wrap32 (s.tx + 2) = s.tx + 2 := by unfold wrap32; omega
  have e6 : 0 < s.error + s.ty →
      wrap32 (s.error + s.ty + wrap32 (s.tx + 2 - wrap32 (r * 2)))
        = s.error + s.ty + (s.tx + 2 - r * 2) := by
    intro hp; unfold wrap32; omega
  have hle : s.error ≤ 0 := h7
  by_cases hp : 0 < s.error + s.ty
  · simp only [circle_step, hle, if_true, e1, e2, e3, e4, e5, gt_iff_lt, hp, e6 hp]
  · simp only [circle_step, hle, if_true, e1, e2, e3, gt_iff_lt, hp, if_false]

theorem circle_step_inv (r : Int) (hr1 : 1 ≤ r) (hr2 : r ≤ 1073741824) (s : circle_state)
    (h : circle_inv r s)
    (hg : (circle_step (wrap32 (r * 2)) s).x ≥ (circle_step (wrap32 (r * 2)) s).y) :
    circle_inv r (circle_step (wrap32 (r * 2)) s) := by
  rw [circle_step_exact r hr1 hr2 s h] at hg ⊢
  obtain ⟨h0, h1, h2, h3, h4, h5, h6, h7, h8⟩ := h
  by_cases hp : 0 < s.error + s.ty
  · simp only [hp, if_true] at hg ⊢
    unfold circle_inv
    dsimp only at hg ⊢
    have hsq : (s.x - 1) * (s.x - 1) + (s.y + 1) * (s.y + 1) - r * r
        = s.x * s.x + s.y * s.y - r * r - 2 * s.x + 2 * s.y + 2 := by ring
    refine ⟨by omega, hg, by omega, by omega, by omega, by omega, ?_, by omega, by omega⟩
    rw [hsq]; omega
  · simp only [hp, if_false] at hg ⊢
    unfold circle_inv
    dsimp only at hg ⊢
    have hsq : s.x * s.x + (s.y + 1) * (s.y + 1) - r * r
        = s.x * s.x + s.y * s.y - r * r + 2 * s.y + 1 := by ring
    refine ⟨by omega, hg, by omega, by omega, by omega, by omega, ?_, by omega, by omega⟩
    rw [hsq]; omega

theorem circle_states_inv (r : Int) (hr1 : 1 ≤ r) (hr2 : r ≤ 1073741824) (n : Nat) :
    ∀ s, circle_inv r s → ∀ t ∈ circle_states (wrap32 (r * 2)) n s, circle_inv r t := by
  induction n with
  | zero => intro s _ t ht; simp [circle_states] at ht
  | succ n ih =>
    intro s hs t ht
    have hg : s.x ≥ s.y := hs.2.1
    rw [circle_states_succ] at ht
    simp only [hg, if_true, List.mem_cons] at ht
    rcases ht with rfl | ht
    · exact hs
    · by_cases hstep : (circle_step (wrap32 (r * 2)) s).x ≥ (circle_step (wrap32 (r * 2)) s).y
      · exact ih _ (circle_step_inv r hr1 hr2 s hs hstep) t ht
      · cases n with
        | zero => simp [circle_states] at ht
        | succ n => simp [circle_states, hstep] at ht

theorem circle_trace_inv (r : Int) (hr1 : 1 ≤ r) (hr2 : r ≤ 1073741824) :
    ∀ t ∈ circle_trace r, circle_inv r t :=
  circle_states_inv r hr1 hr2 _ _ (circle_inv_init r hr1 hr2)

theorem circle_init_mem_trace (r : Int) (hr1 : 1 ≤ r) (hr2 : r ≤ 2147483647) :
    circle_init r ∈ circle_trace r := by
  obtain ⟨n, hn⟩ : ∃ n, circle_fuel r = n + 1 := by
    refine ⟨circle_fuel r - 1, ?_⟩
    have : 1 ≤ circle_fuel r := by simp only [circle_fuel, wrap32]; omega
    omega
  have hg : (circle_init r).x ≥ (circle_init r).y := by
    simp only [circle_init, wrap32]; omega
  unfold circle_trace
  rw [hn, circle_states_succ]
  simp [hg]

/-- Along the trace `y` does not decrease and `x` does not increase. -/
theorem circle_states_bounds (r : Int) (hr1 : 1 ≤ r) (hr2 : r ≤ 1073741824) (n : Nat) :
    ∀ s, circle_inv r s → ∀ t ∈ circle_states (wrap32 (r * 2)) n s, s.y ≤ t.y ∧ t.x ≤ s.x := by
  induction n with
  | zero => intro s _ t ht; simp [circle_states] at ht
  | succ n ih =>
    intro s hs t ht
    have hg : s.x ≥ s.y := hs.2.1
    rw [circle_states_succ] at ht
    simp only [hg, if_true, List.mem_cons] at ht
    rcases ht with rfl | ht
    · exact ⟨le_refl _, le_refl _⟩
    · by_cases hstep : (circle_step (wrap32 (r * 2)) s).x ≥ (circle_step (wrap32 (r * 2)) s).y
      · obtain ⟨h1, h2⟩ := ih _ (circle_step_inv r hr1 hr2 s hs hstep) t ht
        rw [circle_step_exact r hr1 hr2 s hs] at h1 h2
        split_ifs at h1 h2 <;> dsimp only at h1 h2 <;> constructor <;> omega
      · cases n with
        | zero => simp [circle_states] at ht
        | succ n => simp [circle_states, hstep] at ht

/-- A state of the trace with the larger `y` has the smaller (or equal) `x`. -/
theorem circle_states_antitone (r : Int) (hr1 : 1 ≤ r) (hr2 : r ≤ 1073741824) (n : Nat) :
    ∀ s, circle_inv r s → ∀ u ∈ circle_states (wrap32 (r * 2)) n s,
      ∀ t ∈ circle_states (wrap32 (r * 2)) n s, u.y ≤ t.y → t.x ≤ u.x := by
  induction n with
  | zero => intro s _ u hu; simp [circle_states] at hu
  | succ n ih =>
    intro s hs u hu t ht hut
    have hg : s.x ≥ s.y := hs.2.1
    rw [circle_states_succ] at hu ht
    simp only [hg, if_true, List.mem_cons] at hu ht
    by_cases hstep : (circle_step (wrap32 (r * 2)) s).x ≥ (circle_step (wrap32 (r * 2)) s).y
    · have hinv := circle_step_inv r hr1 hr2 s hs hstep
      have hb := circle_states_bounds r hr1 hr2 n _ hinv
      have hy : (circle_step (wrap32 (r * 2)) s).y = s.y + 1 := by
        rw [circle_step_exact r hr1 hr2 s hs]; split_ifs <;> rfl
      have hx : (circle_step (wrap32 (r * 2)) s).x ≤ s.x := by
        rw [circle_step_exact r hr1 hr2 s hs]; split_ifs <;> dsimp only <;> omega
      rcases hu with rfl | hu <;> rcases ht with rfl | ht
      · exact le_refl _
      · have := (hb t ht).2; omega
      · have := (hb u hu).1; omega
      · exact ih _ hinv u hu t ht hut
    · have hnil : circle_states (wrap32 (r * 2)) n (circle_step (wrap32 (r * 2)) s) = [] := by
        cases n with
        | zero => rfl
        | succ n => simp [circle_states, hstep]
      rw [hnil] at hu ht
      simp only [List.not_mem_nil, or_false] at hu ht
      subst hu; subst ht
      exact le_refl _

/-- Every value of `y` between those of two states of the trace is the `y` of a
state of the trace. -/
theorem circle_states_interpolate (r : Int) (hr1 : 1 ≤ r) (hr2 : r ≤ 1073741824) (n : Nat) :
    ∀ s, circle_inv r s → ∀ t ∈ circle_states (wrap32 (r * 2)) n s,
      ∀ e : Int, s.y ≤ e → e ≤ t.y → ∃ u ∈ circle_states (wrap32 (r * 2)) n s, u.y = e := by
  induction n with
  | zero => intro s _ t ht; simp [circle_states] at ht
  | succ n ih =>
    intro s hs t ht e he1 he2
    have hg : s.x ≥ s.y := hs.2.1
    rw [circle_states_succ] at ht ⊢
    simp only [hg, if_true, List.mem_cons] at ht ⊢
    by_cases hes : e = s.y
    · exact ⟨s, Or.inl rfl, hes.symm⟩
    · rcases ht with rfl | ht
      · omega
      · by_cases hstep : (circle_step (wrap32 (r * 2)) s).x ≥ (circle_step (wrap32 (r * 2)) s).y
        · have hinv := circle_step_inv r hr1 hr2 s hs hstep
          have hy : (circle_step (wrap32 (r * 2)) s).y = s.y + 1 := by
            rw [circle_step_exact r hr1 hr2 s hs]; split_ifs <;> rfl
          obtain ⟨u, hu, hue⟩ := ih _ hinv t ht e (by omega) he2
          exact ⟨u, Or.inr hu, hue⟩
        · cases n with
          | zero => simp [circle_states] at ht
          | succ n => simp [circle_states, hstep] at ht

theorem circle_inv_wrapped_init (r : Int) (hr1 : 1073741824 < r) (hr2 : r ≤ 2147483647) :
    circle_inv_wrapped r (circle_init r) := by
  have hx : wrap32 (r - 1) = r - 1 := by unfold wrap32; omega
  have hsq : (r - 1) * (r - 1) + 0 * 0 - r * r = 1 - 2 * r := by ring
  simp only [circle_inv_wrapped, circle_init, hx, hsq]
  refine ⟨le_refl _, by omega, le_refl _, ?_, ?_, ?_, ?_, ?_, ?_⟩
  · unfold wrap32; omega
  · unfold wrap32; omega
  · unfold wrap32; omega
  · intro _; exact le_refl _
  · intro h; omega
  · intro _; omega

theorem circle_step_inv_wrapped (r : Int) (hr1 : 1073741824 < r) (hr2 : r ≤ 2147483647)
    (s : circle_state) (h : circle_inv_wrapped r s)
    (hg : (circle_step (wrap32 (r * 2)) s).x ≥ (circle_step (wrap32 (r * 2)) s).y) :
    circle_inv_wrapped r (circle_step (wrap32 (r * 2)) s) := by
  obtain ⟨h0, h1, h2, h3, h4, h5, h6, h7, h8⟩ := h
  have ey : wrap32 (s.y + 1) = s.y + 1 := by unfold wrap32; omega
  have ex : wrap32 (s.x - 1) = s.x - 1 := by unfold wrap32; omega
  have sqx : (s.x - 1) * (s.x - 1) = s.x * s.x - 2 * s.x + 1 := by ring
  have sqy : (s.y + 1) * (s.y + 1) = s.y * s.y + 2 * s.y + 1 := by ring
  by_cases hle : s.error ≤ 0
  · by_cases hp : wrap32 (s.error + s.ty) > 0
    · simp only [circle_step, hle, if_true, hp, ey, ex] at hg ⊢
      unfold circle_inv_wrapped
      dsimp only at hg ⊢
      rw [sqx, sqy]
      unfold wrap32 at h3 h4 h5 hp ⊢
      refine ⟨by omega, by omega, by omega, by omega, by omega, by omega, ?_, ?_, by omega⟩
      · intro hy; have := h6 (by omega); omega
      · intro hy
        by_cases hy' : s.y ≤ 1073741823
        · omega
        · by_cases hy2 : s.y = 1073741824
          · have := h6 (by omega); omega
          · have := h7 (by omega); omega
    · simp only [circle_step, hle, if_true, hp, if_false, ey] at hg ⊢
      unfold circle_inv_wrapped
      dsimp only at hg ⊢
      rw [sqy]
      unfold wrap32 at h3 h4 h5 hp ⊢
      refine ⟨by omega, by omega, by omega, by omega, by omega, by omega, ?_, ?_, by omega⟩
      · intro hy; have := h6 (by omega); omega
      · intro hy
        by_cases hy2 : s.y = 1073741824
        · have := h6 (by omega); omega
        · have := h7 (by omega); omega
  · have hp : s.error > 0 := by omega
    simp only [circle_step, hle, if_false, hp, if_true, ex] at hg ⊢
    unfold circle_inv_wrapped
    dsimp only at hg ⊢
    rw [sqx]
    unfold wrap32 at h3 h4 h5 ⊢
    refine ⟨by omega, by omega, by omega, by omega, by omega, by omega, ?_, ?_, ?_⟩
    · intro hy; have := h6 (by omega); omega
    · intro hy; have := h7 (by omega); omega
    · intro hy; have := h8 hy; omega

theorem circle_states_inv_wrapped (r : Int) (hr1 : 1073741824 < r) (hr2 : r ≤ 2147483647)
    (n : Nat) :
    ∀ s, circle_inv_wrapped r s →
      ∀ t ∈ circle_states (wrap32 (r * 2)) n s, circle_inv_wrapped r t := by
  induction n with
  | zero => intro s _ t ht; simp [circle_states] at ht
  | succ n ih =>
    intro s hs t ht
    have hg : s.x ≥ s.y := hs.2.1
    rw [circle_states_succ] at ht
    simp only [hg, if_true, List.mem_cons] at ht
    rcases ht with rfl | ht
    · exact hs
    · by_cases hstep : (circle_step (wrap32 (r * 2)) s).x ≥ (circle_step (wrap32 (r * 2)) s).y
      · exact ih _ (circle_step_inv_wrapped r hr1 hr2 s hs hstep) t ht
      · cases n with
        | zero => simp [circle_states] at ht
        | succ n => simp [circle_states, hstep] at ht

theorem circle_trace_inv_wrapped (r : Int) (hr1 : 1073741824 < r) (hr2 : r ≤ 2147483647) :
    ∀ t ∈ circle_trace r, circle_inv_wrapped r t :=
  circle_states_inv_wrapped r hr1 hr2 _ _ (circle_inv_wrapped_init r hr1 hr2)

/-- For every `int32_t` radius `r ≥ 1` the visited states lie in the first octant
of the disc of radius `r`: `0 ≤ y ≤ x ≤ r - 1` and `x² + y² ≤ r²`. -/
theorem circle_trace_in_disc (r : Int) (hr1 : 1 ≤ r) (hr2 : r ≤ 2147483647) :
    ∀ t ∈ circle_trace r,
      0 ≤ t.y ∧ t.y ≤ t.x ∧ t.x ≤ r - 1 ∧ t.x * t.x + t.y * t.y ≤ r * r := by
  intro t ht
  by_cases hr : r ≤ 1073741824
  · obtain ⟨h0, h1, h2, -, -, -, h6, h7, -⟩ := circle_trace_inv r hr1 hr t ht
    exact ⟨h0, h1, h2, by omega⟩
  · obtain ⟨h0, h1, h2, -, -, -, h6, h7, -⟩ := circle_trace_inv_wrapped r (by omega) hr2 t ht
    refine ⟨h0, h1, h2, ?_⟩
    by_cases hy : t.y ≤ 1073741824
    · have := h6 hy; omega
    · have := (h7 (by omega)).1; omega

/-- For every `int32_t` radius `r ≥ 2` the loop does not visit `(0, 0)`. -/
theorem circle_trace_origin_free (r : Int) (hr1 : 2 ≤ r) (hr2 : r ≤ 2147483647) :
    ∀ t ∈ circle_trace r, ¬ (t.x = 0 ∧ t.y = 0) := by
  intro t ht
  by_cases hr : r ≤ 1073741824
  · obtain ⟨h0, h1, h2, h3, -⟩ := circle_trace_inv r (by omega) hr t ht
    omega
  · obtain ⟨h0, h1, h2, -, -, -, -, -, h8⟩ := circle_trace_inv_wrapped r (by omega) hr2 t ht
    rintro ⟨hx, hy⟩
    have := (h8 hy).1
    omega

theorem circle_trace_range (r : Int) (hr1 : 1 ≤ r) (hr2 : r ≤ 2147483647) :
    ∀ t ∈ circle_trace r, 0 ≤ t.y ∧ t.y ≤ t.x ∧ t.x ≤ r - 1 := by
  intro t ht
  obtain ⟨h0, h1, h2, -⟩ := circle_trace_in_disc r hr1 hr2 t ht
  exact ⟨h0, h1, h2⟩

/-! ## C1: a radius that is zero or negative draws nothing -/

theorem circle_trace_nonpositive (radius : Int) (h1 : -2147483648 < radius) (h2 : radius ≤ 0) :
    circle_trace radius = [] := by
  have hf : circle_fuel radius = 0 := by
    simp only [circle_fuel, wrap32]; omega
  simp [circle_trace, hf, circle_states]

/-- C1 (as amended): for every center and every radius `r` with
`INT32_MIN < r ≤ 0`, `draw_circle` leaves the canvas as it was in both stroke and
fill mode: no point and no line is drawn. The loop condition `x >= y` fails on
entry, so the loop draws nothing on any amount of fuel. -/
theorem draw_circle_nonpositive_radius (can : canvas) (center : point) (radius : Int) (f : fill)
    (h1 : -2147483648 < radius) (h2 : radius ≤ 0) :
    draw_circle can center radius f = can ∧ issued can (draw_circle can center radius f) = []
      ∧ ∀ (emit : canvas → Int → Int → canvas) (n : Nat),
          circle_loop emit (wrap32 (radius * 2)) n can (circle_init radius) = can := by
  have ht := circle_trace_nonpositive radius h1 h2
  have hloop : ∀ (emit : canvas → Int → Int → canvas) (n : Nat),
      circle_loop emit (wrap32 (radius * 2)) n can (circle_init radius) = can := by
    intro emit n
    have hg : ¬ (circle_init radius).x ≥ (circle_init radius).y := by
      simp only [circle_init, wrap32]; omega
    cases n with
    | zero => rfl
    | succ n => simp [circle_loop, hg]
  cases f
  · refine ⟨?_, ?_, hloop⟩
    · rw [draw_circle_fill, ht]; simp
    · rw [issued_fill, ht]; simp
  · refine ⟨?_, ?_, hloop⟩
    · rw [draw_circle_stroke, ht]; simp
    · rw [issued_stroke, ht]; simp

/-- C1 witness: center (10,10), radius 0, fill mode gives the empty command
sequence. -/
theorem draw_circle_nonpositive_radius_witness :
    draw_circle ⟨black, []⟩ ⟨10, 10⟩ 0 fill.on = ⟨black, []⟩
      ∧ issued ⟨black, []⟩ (draw_circle ⟨black, []⟩ ⟨10, 10⟩ 0 fill.on) = [] :=
  ⟨(draw_circle_nonpositive_radius ⟨black, []⟩ ⟨10, 10⟩ 0 fill.on (by decide) (by decide)).1,
   (draw_circle_nonpositive_radius ⟨black, []⟩ ⟨10, 10⟩ 0 fill.on (by decide) (by decide)).2.1⟩

/-- C1 counterexample: the radius `INT32_MIN` is a signed 32-bit radius `≤ 0`, yet
`radius - 1` wraps to `INT32_MAX`, the loop is entered and commands are issued. -/
theorem draw_circle_int_min_radius_draws :
    int32 (-2147483648) ∧ (-2147483648 : Int) ≤ 0
      ∧ issued ⟨black, []⟩ (draw_circle ⟨black, []⟩ ⟨10, 10⟩ (-2147483648) fill.on) ≠ []
      ∧ issued ⟨black, []⟩ (draw_circle ⟨black, []⟩ ⟨10, 10⟩ (-2147483648) fill.off) ≠ [] := by
  have hg : (2147483647 : Int) ≥ 0 := by decide
  have ht : ∃ rest, circle_trace (-2147483648) = ⟨2147483647, 0, 1, 1, 1⟩ :: rest := by
    unfold circle_trace
    rw [circle_fuel_int_min, circle_init_int_min, circle_states_succ]
    simp only [hg, if_true]
    exact ⟨_, rfl⟩
  obtain ⟨rest, ht⟩ := ht
  refine ⟨by decide, by decide, ?_, ?_⟩
  · rw [issued_fill, ht]; simp [span_lines]
  · rw [issued_stroke, ht]; simp [octant_points]

/-! ## C2: stroked points lie within one pixel of the circle -/

/-- C2 (as amended): for every radius `1 ≤ r ≤ 2^30` and every center for which
`center.x ± (r-1)` and `center.y ± (r-1)` fit `int32_t`, every point `p` plotted by
stroke-mode `draw_circle` satisfies, in exact integer arithmetic,
`(r-1)² ≤ (p.x-c.x)² + (p.y-c.y)² ≤ (r+1)²`. -/
theorem stroke_points_near_circle (can : canvas) (center : point) (radius : Int)
    (hr1 : 1 ≤ radius) (hr2 : radius ≤ 1073741824)
    (hx1 : int32 (center.x - (radius - 1))) (hx2 : int32 (center.x + (radius - 1)))
    (hy1 : int32 (center.y - (radius - 1))) (hy2 : int32 (center.y + (radius - 1)))
    (p : point)
    (hp : command.draw_point p ∈ issued can (draw_circle can center radius fill.off)) :
    (radius - 1) ^ 2 ≤ (p.x - center.x) ^ 2 + (p.y - center.y) ^ 2
      ∧ (p.x - center.x) ^ 2 + (p.y - center.y) ^ 2 ≤ (radius + 1) ^ 2 := by
  rw [mem_issued_stroke] at hp
  obtain ⟨s, hs, hp⟩ := hp
  obtain ⟨h0, h1, h2, h3, h4, h5, h6, h7, h8⟩ := circle_trace_inv radius hr1 hr2 s hs
  unfold int32 at hx1 hx2 hy1 hy2
  have wxm : wrap32 (center.x - s.x) = center.x - s.x := by unfold wrap32; omega
  have wxp : wrap32 (center.x + s.x) = center.x + s.x := by unfold wrap32; omega
  have wym : wrap32 (center.y - s.y) = center.y - s.y := by unfold wrap32; omega
  have wyp : wrap32 (center.y + s.y) = center.y + s.y := by unfold wrap32; omega
  have vxm : wrap32 (center.x - s.y) = center.x - s.y := by unfold wrap32; omega
  have vxp : wrap32 (center.x + s.y) = center.x + s.y := by unfold wrap32; omega
  have vym : wrap32 (center.y - s.x) = center.y - s.x := by unfold wrap32; omega
  have vyp : wrap32 (center.y + s.x) = center.y + s.x := by unfold wrap32; omega
  have em : (radius - 1) ^ 2 = radius * radius - 2 * radius + 1 := by ring
  have ep : (radius + 1) ^ 2 = radius * radius + 2 * radius + 1 := by ring
  have key : ∀ a b : Int, a ^ 2 = s.x * s.x → b ^ 2 = s.y * s.y →
      (radius - 1) ^ 2 ≤ a ^ 2 + b ^ 2 ∧ a ^ 2 + b ^ 2 ≤ (radius + 1) ^ 2 := by
    intro a b ha hb
    rw [ha, hb, em, ep]
    constructor <;> omega
  have key2 : ∀ a b : Int, a ^ 2 = s.y * s.y → b ^ 2 = s.x * s.x →
      (radius - 1) ^ 2 ≤ a ^ 2 + b ^ 2 ∧ a ^ 2 + b ^ 2 ≤ (radius + 1) ^ 2 := by
    intro a b ha hb
    rw [ha, hb, em, ep]
    constructor <;> omega
  simp only [octant_points, wxm, wxp, wym, wyp, vxm, vxp, vym, vyp, List.mem_cons,
    List.mem_singleton, List.not_mem_nil, or_false] at hp
  rcases hp with rfl | rfl | rfl | rfl | rfl | rfl | rfl | rfl
  · exact key _ _ (by ring) (by ring)
  · exact key _ _ (by ring) (by ring)
  · exact key2 _ _ (by ring) (by ring)
  · exact key2 _ _ (by ring) (by ring)
  · exact key _ _ (by ring) (by ring)
  · exact key _ _ (by ring) (by ring)
  · exact key2 _ _ (by ring) (by ring)
  · exact key2 _ _ (by ring) (by ring)

/-- C2 witness: center (0,0), radius 5, the plotted point (-4, 0). -/
theorem stroke_points_near_circle_witness :
    ((5 : Int) - 1) ^ 2 ≤ ((-4 : Int) - 0) ^ 2 + ((0 : Int) - 0) ^ 2
      ∧ ((-4 : Int) - 0) ^ 2 + ((0 : Int) - 0) ^ 2 ≤ ((5 : Int) + 1) ^ 2 :=
  stroke_points_near_circle ⟨black, []⟩ ⟨0, 0⟩ 5 (by decide) (by decide) (by decide) (by decide)
    (by decide) (by decide) ⟨-4, 0⟩ (by decide)

theorem circle_fuel_big : circle_fuel 1073741825 = 1073741823 + 1 + 1 := by decide

theorem circle_init_big :
    circle_init 1073741825 = ⟨1073741824, 0, 1, 1, 2147483647⟩ := by decide

theorem circle_step_big :
    circle_step (wrap32 (1073741825 * 2)) ⟨1073741824, 0, 1, 1, 2147483647⟩
      = ⟨1073741823, 0, 3, 1, 0⟩ := by decide

/-- C2 counterexample: (a) with center (INT32_MAX, 0) and radius 2 the coordinate
`center.x + x` wraps and the plotted point (INT32_MIN, 0) is far from the circle;
(b) with center (0,0) and radius 2^30 + 1 the error term wraps, and the second
iteration plots (-(r-2), 0), at distance `r - 2` from the center. -/
theorem stroke_point_off_circle :
    (command.draw_point ⟨-2147483648, 0⟩
        ∈ issued ⟨black, []⟩ (draw_circle ⟨black, []⟩ ⟨2147483647, 0⟩ 2 fill.off)
      ∧ ¬ ((-2147483648 - 2147483647 : Int) ^ 2 + (0 - 0 : Int) ^ 2 ≤ ((2 : Int) + 1) ^ 2))
    ∧ (command.draw_point ⟨-1073741823, 0⟩
        ∈ issued ⟨black, []⟩ (draw_circle ⟨black, []⟩ ⟨0, 0⟩ 1073741825 fill.off)
      ∧ ¬ (((1073741825 : Int) - 1) ^ 2 ≤ (-1073741823 - 0 : Int) ^ 2 + (0 - 0 : Int) ^ 2)) := by
  refine ⟨⟨by decide, by decide⟩, ?_, by decide⟩
  rw [mem_issued_stroke]
  refine ⟨⟨1073741823, 0, 3, 1, 0⟩, ?_, by decide⟩
  unfold circle_trace
  rw [circle_fuel_big, circle_init_big, circle_states_succ, circle_states_succ, circle_step_big]
  have h1 : (1073741824 : Int) ≥ 0 := by decide
  have h2 : (1073741823 : Int) ≥ 0 := by decide
  simp only [h1, h2, if_true]
  simp

/-! ## C3: the stroked pixel set is symmetric under the octant group -/

theorem wrap32_eq_iff (a b : Int) : wrap32 a = wrap32 b ↔ (a - b) % 4294967296 = 0 := by
  unfold wrap32; omega

theorem octant_points_reflect (c : point) (x y dx dy : Int)
    (h : (⟨wrap32 (c.x + dx), wrap32 (c.y + dy)⟩ : point) ∈ octant_points c x y) :
    ∀ s1 s2 : Int, (s1 = 1 ∨ s1 = -1) → (s2 = 1 ∨ s2 = -1) →
      (⟨wrap32 (c.x + s1 * dx), wrap32 (c.y + s2 * dy)⟩ : point) ∈ octant_points c x y
        ∧ (⟨wrap32 (c.x + s1 * dy), wrap32 (c.y + s2 * dx)⟩ : point) ∈ octant_points c x y := by
  intro s1 s2 h1 h2
  simp only [octant_points, List.mem_cons, List.mem_singleton, List.not_mem_nil, or_false,
    point.mk.injEq, wrap32_eq_iff] at h ⊢
  rcases h1 with rfl | rfl <;> rcases h2 with rfl | rfl <;>
  rcases h with ⟨ha, hb⟩ | ⟨ha, hb⟩ | ⟨ha, hb⟩ | ⟨ha, hb⟩ | ⟨ha, hb⟩ | ⟨ha, hb⟩ | ⟨ha, hb⟩ |
    ⟨ha, hb⟩ <;>
  constructor <;>
  first
    | (left; constructor <;> omega)
    | (right; left; constructor <;> omega)
    | (right; right; left; constructor <;> omega)
    | (right; right; right; left; constructor <;> omega)
    | (right; right; right; right; left; constructor <;> omega)
    | (right; right; right; right; right; left; constructor <;> omega)
    | (right; right; right; right; right; right; left; constructor <;> omega)
    | (right; right; right; right; right; right; right; constructor <;> omega)

theorem foldl_draw_point (l : List point) :
    ∀ can : canvas,
      l.foldl impl.canvas_draw_point can
        = canvas.mk can.color (can.log ++ l.map (fun p => (can.color, command.draw_point p))) := by
  induction l with
  | nil => intro can; simp
  | cons p l ih => intro can; rw [List.foldl_cons, ih]; simp [impl.canvas_draw_point]

theorem foldl_stroke_in_order (order : List point → List point) (center : point)
    (l : List circle_state) :
    ∀ can : canvas,
      l.foldl (fun c st => stroke_octants_in_order order center c st.x st.y) can
        = canvas.mk can.color (can.log ++
            (l.flatMap (fun st => order (octant_points center st.x st.y))).map
              (fun p => (can.color, command.draw_point p))) := by
  induction l with
  | nil => intro can; simp
  | cons s l ih =>
    intro can
    rw [List.foldl_cons, ih, stroke_octants_in_order, foldl_draw_point]
    simp

theorem mem_issued_stroke_in_order (order : List point → List point) (can : canvas)
    (center : point) (radius : Int) (p : point) :
    command.draw_point p ∈ issued can (draw_circle_in_order order can center radius)
      ↔ ∃ s ∈ circle_trace radius, p ∈ order (octant_points center s.x s.y) := by
  have e : draw_circle_in_order order can center radius
      = canvas.mk can.color (can.log ++
          ((circle_trace radius).flatMap (fun st => order (octant_points center st.x st.y))).map
            (fun p => (can.color, command.draw_point p))) := by
    simp [draw_circle_in_order, circle_loop_eq_foldl, foldl_stroke_in_order, circle_trace]
  rw [e, issued_append]
  simp only [List.map_map, List.mem_map, List.mem_flatMap, Function.comp]
  constructor
  · rintro ⟨q, ⟨s, hs, hq⟩, hqp⟩
    simp only [command.draw_point.injEq] at hqp
    subst hqp
    exact ⟨s, hs, hq⟩
  · rintro ⟨s, hs, hq⟩; exact ⟨p, ⟨s, hs, hq⟩, rfl⟩

theorem draw_circle_in_order_id (can : canvas) (center : point) (radius : Int) :
    draw_circle_in_order id can center radius = draw_circle can center radius fill.off := by
  have e : stroke_octants_in_order id center = stroke_octants center := by
    funext c x y; rfl
  simp [draw_circle_in_order, draw_circle, e]

/-- C3: for every center `c` and every radius, the set of pixels plotted by
stroke-mode `draw_circle` is closed under the eight reflections of the octant
group about `c`: whenever `c + (dx, dy)` is plotted, so are `c + (s1*dx, s2*dy)` and
`c + (s1*dy, s2*dx)` for all signs `s1, s2 ∈ {+1, -1}`; and the set is the same
whatever the order in which the eight points of an iteration are plotted. -/
theorem stroke_set_octant_symmetric (can : canvas) (center : point) (radius : Int) :
    (∀ dx dy : Int,
        command.draw_point (center + (⟨dx, dy⟩ : vector))
          ∈ issued can (draw_circle can center radius fill.off) →
        ∀ s1 s2 : Int, (s1 = 1 ∨ s1 = -1) → (s2 = 1 ∨ s2 = -1) →
          command.draw_point (center + (⟨s1 * dx, s2 * dy⟩ : vector))
              ∈ issued can (draw_circle can center radius fill.off)
            ∧ command.draw_point (center + (⟨s1 * dy, s2 * dx⟩ : vector))
              ∈ issued can (draw_circle can center radius fill.off))
    ∧ (∀ order : List point → List point, (∀ l, (order l).Perm l) →
        ∀ p : point,
          command.draw_point p ∈ issued can (draw_circle_in_order order can center radius)
            ↔ command.draw_point p ∈ issued can (draw_circle can center radius fill.off)) := by
  constructor
  · intro dx dy h s1 s2 h1 h2
    rw [mem_issued_stroke] at h
    obtain ⟨s, hs, hp⟩ := h
    have hr := octant_points_reflect center s.x s.y dx dy hp s1 s2 h1 h2
    constructor
    · rw [mem_issued_stroke]; exact ⟨s, hs, hr.1⟩
    · rw [mem_issued_stroke]; exact ⟨s, hs, hr.2⟩
  · intro order horder p
    rw [mem_issued_stroke, mem_issued_stroke_in_order]
    constructor
    · rintro ⟨s, hs, hp⟩; exact ⟨s, hs, (horder _).mem_iff.mp hp⟩
    · rintro ⟨s, hs, hp⟩; exact ⟨s, hs, (horder _).mem_iff.mpr hp⟩

/-- C3 witness: center (0,0), radius 5. The plotted point (4, 2) has its reflection
(-2, 4) plotted too, and plotting each iteration's points in reverse order gives
the same membership. -/
theorem stroke_set_octant_symmetric_witness :
    command.draw_point ((⟨0, 0⟩ : point) + (⟨4, 2⟩ : vector))
        ∈ issued ⟨black, []⟩ (draw_circle ⟨black, []⟩ ⟨0, 0⟩ 5 fill.off)
      ∧ command.draw_point ((⟨0, 0⟩ : point) + (⟨-1 * 2, 1 * 4⟩ : vector))
        ∈ issued ⟨black, []⟩ (draw_circle ⟨black, []⟩ ⟨0, 0⟩ 5 fill.off)
      ∧ (command.draw_point ⟨3, -3⟩
          ∈ issued ⟨black, []⟩ (draw_circle_in_order List.reverse ⟨black, []⟩ ⟨0, 0⟩ 5)
        ↔ command.draw_point ⟨3, -3⟩
          ∈ issued ⟨black, []⟩ (draw_circle ⟨black, []⟩ ⟨0, 0⟩ 5 fill.off)) :=
  ⟨by decide,
   ((stroke_set_octant_symmetric ⟨black, []⟩ ⟨0, 0⟩ 5).1 4 2 (by decide) (-1) 1
      (Or.inr rfl) (Or.inl rfl)).2,
   (stroke_set_octant_symmetric ⟨black, []⟩ ⟨0, 0⟩ 5).2 List.reverse
      (fun l => List.reverse_perm l) ⟨3, -3⟩⟩

/-! ## C4: fill mode covers what the stroke outline encloses -/

/-- The wrap-around case analysis behind the coverage of a row. -/
theorem row_cover_arith (cx ea eb p1 p2 q : Int) (hc : int32 cx)
    (ha0 : 0 ≤ ea) (ha1 : ea ≤ 2147483646) (hb0 : 0 ≤ eb) (hb1 : eb ≤ 2147483646)
    (h1 : p1 = wrap32 (cx - ea) ∨ p1 = wrap32 (cx + ea))
    (h2 : p2 = wrap32 (cx - eb) ∨ p2 = wrap32 (cx + eb))
    (hq1 : p1 ≤ q) (hq2 : q ≤ p2) :
    ∃ e : Int, min ea eb ≤ e ∧ e ≤ max ea eb
      ∧ min (wrap32 (cx - e)) (wrap32 (cx + e)) ≤ q
      ∧ q ≤ max (wrap32 (cx - e)) (wrap32 (cx + e)) := by
  unfold int32 at hc
  unfold wrap32 at h1 h2 ⊢
  by_cases hnw : -2147483648 ≤ cx - max ea eb ∧ cx + max ea eb ≤ 2147483647
  · exact ⟨max ea eb, by omega, by omega, by omega, by omega⟩
  · by_cases hr : cx + max ea eb > 2147483647
    · by_cases hall : cx + min ea eb > 2147483647
      · exact ⟨min ea eb, by omega, by omega, by omega, by omega⟩
      · by_cases hq : q ≥ cx - (2147483647 - cx)
        · exact ⟨2147483647 - cx, by omega, by omega, by omega, by omega⟩
        · exact ⟨2147483647 - cx + 1, by omega, by omega, by omega, by omega⟩
    · by_cases hall : cx - min ea eb < -2147483648
      · exact ⟨min ea eb, by omega, by omega, by omega, by omega⟩
      · by_cases hq : q ≤ cx + (cx + 2147483648)
        · exact ⟨cx + 2147483648, by omega, by omega, by omega, by omega⟩
        · exact ⟨cx + 2147483648 + 1, by omega, by omega, by omega, by omega⟩

theorem octant_point_row_extent (c : point) (x y : Int) (p : point)
    (hp : p ∈ octant_points c x y) :
    ∃ be ∈ row_extents x y, p.y = wrap32 (c.y + be.1)
      ∧ (p.x = wrap32 (c.x - be.2) ∨ p.x = wrap32 (c.x + be.2)) := by
  simp only [octant_points, List.mem_cons, List.mem_singleton, List.not_mem_nil, or_false] at hp
  rcases hp with rfl | rfl | rfl | rfl | rfl | rfl | rfl | rfl
  · exact ⟨(-y, x), by simp [row_extents], by simp [sub_eq_add_neg], Or.inl rfl⟩
  · exact ⟨(y, x), by simp [row_extents], rfl, Or.inl rfl⟩
  · exact ⟨(-x, y), by simp [row_extents], by simp [sub_eq_add_neg], Or.inl rfl⟩
  · exact ⟨(x, y), by simp [row_extents], rfl, Or.inl rfl⟩
  · exact ⟨(-y, x), by simp [row_extents], by simp [sub_eq_add_neg], Or.inr rfl⟩
  · exact ⟨(y, x), by simp [row_extents], rfl, Or.inr rfl⟩
  · exact ⟨(-x, y), by simp [row_extents], by simp [sub_eq_add_neg], Or.inr rfl⟩
  · exact ⟨(x, y), by simp [row_extents], rfl, Or.inr rfl⟩

theorem span_of_row_extent (c : point) (x y : Int) (be : Int × Int)
    (h : be ∈ row_extents x y) :
    ((⟨wrap32 (c.x - be.2), wrap32 (c.y + be.1)⟩ : point),
      (⟨wrap32 (c.x + be.2), wrap32 (c.y + be.1)⟩ : point)) ∈ span_lines c x y := by
  simp only [row_extents, List.mem_cons, List.mem_singleton, List.not_mem_nil, or_false] at h
  rcases h with rfl | rfl | rfl | rfl <;> simp [span_lines, sub_eq_add_neg]

/-- The half-widths of the spans on one row form an interval: between two of them
every integer is the half-width of a span on that row. -/
theorem row_extents_interval (r : Int) (hr1 : 1 ≤ r) (hr2 : r ≤ 2147483647)
    (s1 s2 : circle_state) (hs1 : s1 ∈ circle_trace r) (hs2 : s2 ∈ circle_trace r)
    (b e1 e2 e : Int) (h1 : (b, e1) ∈ row_extents s1.x s1.y)
    (h2 : (b, e2) ∈ row_extents s2.x s2.y) (he1 : e1 ≤ e) (he2 : e ≤ e2) :
    ∃ u ∈ circle_trace r, (b, e) ∈ row_extents u.x u.y := by
  obtain ⟨iy, ix⟩ := circle_init_range r hr1 hr2
  have hy0 : 0 ≤ (circle_init r).y := by omega
  have hx0 : (circle_init r).x ≤ 2147483646 := by omega
  obtain ⟨a0, a1, a2⟩ := circle_trace_range r hr1 hr2 s1 hs1
  obtain ⟨b0, b1, b2⟩ := circle_trace_range r hr1 hr2 s2 hs2
  have hrow := circle_states_row (wrap32 (r * 2)) (circle_fuel r) (circle_init r) hy0 hx0
  have hcol := circle_states_column (wrap32 (r * 2)) (circle_fuel r) (circle_init r) hy0 hx0
  have hcmp := circle_states_comparable (wrap32 (r * 2)) (circle_fuel r) (circle_init r) hy0 hx0
    s1 hs1 s2 hs2
  have mem : ∀ u : circle_state, (b, e) ∈ row_extents u.x u.y
      ↔ ((b = -u.y ∨ b = u.y) ∧ e = u.x) ∨ ((b = -u.x ∨ b = u.x) ∧ e = u.y) := by
    intro u
    simp only [row_extents, List.mem_cons, List.mem_singleton, List.not_mem_nil, or_false,
      Prod.mk.injEq]
    omega
  have m1 : ((b = -s1.y ∨ b = s1.y) ∧ e1 = s1.x) ∨ ((b = -s1.x ∨ b = s1.x) ∧ e1 = s1.y) := by
    simp only [row_extents, List.mem_cons, List.mem_singleton, List.not_mem_nil, or_false,
      Prod.mk.injEq] at h1
    omega
  have m2 : ((b = -s2.y ∨ b = s2.y) ∧ e2 = s2.x) ∨ ((b = -s2.x ∨ b = s2.x) ∧ e2 = s2.y) := by
    simp only [row_extents, List.mem_cons, List.mem_singleton, List.not_mem_nil, or_false,
      Prod.mk.injEq] at h2
    omega
  rcases m1 with ⟨hb1, hx1⟩ | ⟨hb1, hx1⟩ <;> rcases m2 with ⟨hb2, hx2⟩ | ⟨hb2, hx2⟩
  · -- both on the row `|b| = y`
    obtain ⟨u, hu, hu1, hu2⟩ := hrow s1 hs1 s2 hs2 (by omega) e (by omega) (by omega)
    exact ⟨u, hu, (mem u).mpr (by omega)⟩
  · -- `s1` on the row, `s2` in the column: all extents coincide
    exact ⟨s1, hs1, (mem s1).mpr (by omega)⟩
  · -- `s1` in the column, `s2` on the row
    rcases hcmp with ⟨c1, c2⟩ | ⟨c1, c2⟩
    · obtain ⟨u, hu, hu1, hu2⟩ := hcol s1 hs1 s2 hs2 (by omega) e (by omega) (by omega)
      exact ⟨u, hu, (mem u).mpr (by omega)⟩
    · obtain ⟨u, hu, hu1, hu2⟩ := hrow s1 hs1 s2 hs2 (by omega) e (by omega) (by omega)
      exact ⟨u, hu, (mem u).mpr (by omega)⟩
  · -- both in the column `|b| = x`
    obtain ⟨u, hu, hu1, hu2⟩ := hcol s1 hs1 s2 hs2 (by omega) e (by omega) (by omega)
    exact ⟨u, hu, (mem u).mpr (by omega)⟩

theorem row_extents_bounds (x y R b e : Int) (h : (b, e) ∈ row_extents x y) (hy : 0 ≤ y)
    (hyx : y ≤ x) (hx : x ≤ R) : -R ≤ b ∧ b ≤ R ∧ 0 ≤ e ∧ e ≤ R := by
  simp only [row_extents, List.mem_cons, List.mem_singleton, List.not_mem_nil, or_false,
    Prod.mk.injEq] at h
  omega

/-- C4 (as amended): for every `int32_t` radius `r ≥ 1` and every center with
`int32_t` coordinates: every pixel that lies on the row of two stroked pixels and
horizontally between them (inclusive) is covered by a span of fill mode, so every
stroked pixel is covered; and for `r ≥ 2` some covered pixel is not stroked, so
the covered set is strictly larger than the stroked set. -/
theorem fill_covers_stroke (can : canvas) (center : point) (radius : Int)
    (hr1 : 1 ≤ radius) (hr2 : radius ≤ 2147483647)
    (hcx : int32 center.x) (hcy : int32 center.y) :
    (∀ q p1 p2 : point,
        command.draw_point p1 ∈ issued can (draw_circle can center radius fill.off) →
        command.draw_point p2 ∈ issued can (draw_circle can center radius fill.off) →
        p1.y = q.y → p2.y = q.y → p1.x ≤ q.x → q.x ≤ p2.x →
        ∃ a b : point,
          command.draw_line a b ∈ issued can (draw_circle can center radius fill.on)
            ∧ span_covers a b q)
    ∧ (∀ p : point,
        command.draw_point p ∈ issued can (draw_circle can center radius fill.off) →
        ∃ a b : point,
          command.draw_line a b ∈ issued can (draw_circle can center radius fill.on)
            ∧ span_covers a b p)
    ∧ (2 ≤ radius →
        ∃ q : point,
          (∃ a b : point,
            command.draw_line a b ∈ issued can (draw_circle can center radius fill.on)
              ∧ span_covers a b q)
          ∧ command.draw_point q ∉ issued can (draw_circle can center radius fill.off)) := by
  have hrange := circle_trace_range radius hr1 hr2
  have cover : ∀ q p1 p2 : point,
      command.draw_point p1 ∈ issued can (draw_circle can center radius fill.off) →
      command.draw_point p2 ∈ issued can (draw_circle can center radius fill.off) →
      p1.y = q.y → p2.y = q.y → p1.x ≤ q.x → q.x ≤ p2.x →
      ∃ a b : point,
        command.draw_line a b ∈ issued can (draw_circle can center radius fill.on)
          ∧ span_covers a b q := by
    intro q p1 p2 hp1 hp2 hy1q hy2q hle1 hle2
    rw [mem_issued_stroke] at hp1 hp2
    obtain ⟨s1, hs1, hp1⟩ := hp1
    obtain ⟨s2, hs2, hp2⟩ := hp2
    obtain ⟨⟨b1, e1⟩, hbe1, hrow1, hcol1⟩ := octant_point_row_extent center s1.x s1.y p1 hp1
    obtain ⟨⟨b2, e2⟩, hbe2, hrow2, hcol2⟩ := octant_point_row_extent center s2.x s2.y p2 hp2
    simp only at hrow1 hcol1 hrow2 hcol2
    obtain ⟨i0, i1, i2⟩ := hrange s1 hs1
    obtain ⟨j0, j1, j2⟩ := hrange s2 hs2
    obtain ⟨B1, B2, E1, E2⟩ := row_extents_bounds _ _ (radius - 1) b1 e1 hbe1 i0 i1 i2
    obtain ⟨B3, B4, E3, E4⟩ := row_extents_bounds _ _ (radius - 1) b2 e2 hbe2 j0 j1 j2
    have hb : b1 = b2 := by
      have h : wrap32 (center.y + b1) = wrap32 (center.y + b2) := by
        rw [← hrow1, ← hrow2, hy1q, hy2q]
      rw [wrap32_eq_iff] at h
      omega
    subst hb
    obtain ⟨e, he1, he2, hq1, hq2⟩ := row_cover_arith center.x e1 e2 p1.x p2.x q.x hcx E1
      (by omega) E3 (by omega) hcol1 hcol2 hle1 hle2
    have hu : ∃ u ∈ circle_trace radius, (b1, e) ∈ row_extents u.x u.y := by
      by_cases h12 : e1 ≤ e2
      · exact row_extents_interval radius hr1 hr2 s1 s2 hs1 hs2 b1 e1 e2 e hbe1 hbe2
          (by omega) (by omega)
      · exact row_extents_interval radius hr1 hr2 s2 s1 hs2 hs1 b1 e2 e1 e hbe2 hbe1
          (by omega) (by omega)
    obtain ⟨u, hu, hbe⟩ := hu
    refine ⟨_, _, (mem_issued_fill _ _ _ _ _).mpr ⟨u, hu, span_of_row_extent center u.x u.y _ hbe⟩,
      ?_, ?_, hq1, hq2⟩
    · show wrap32 (center.y + b1) = q.y
      rw [← hrow1, hy1q]
    · show wrap32 (center.y + b1) = q.y
      rw [← hrow1, hy1q]
  refine ⟨cover, fun p hp => cover p p p hp hp rfl rfl (le_refl _) (le_refl _), ?_⟩
  intro hr
  have horigin := circle_trace_origin_free radius hr hr2
  unfold int32 at hcx hcy
  have hfirst : command.draw_line ⟨wrap32 (center.x - (radius - 1)), wrap32 (center.y - 0)⟩
      ⟨wrap32 (center.x + (radius - 1)), wrap32 (center.y - 0)⟩
        ∈ issued can (draw_circle can center radius fill.on) := by
    rw [mem_issued_fill]
    refine ⟨circle_init radius, circle_init_mem_trace radius hr1 hr2, ?_⟩
    have hx : wrap32 (radius - 1) = radius - 1 := by unfold wrap32; omega
    simp [span_lines, circle_init, hx]
  by_cases hnw : -2147483648 ≤ center.x - (radius - 1) ∧ center.x + (radius - 1) ≤ 2147483647
  · -- the first span does not wrap: the center is covered and not stroked
    refine ⟨⟨center.x, wrap32 (center.y - 0)⟩, ⟨_, _, hfirst, rfl, rfl, ?_, ?_⟩, ?_⟩
    · show min (wrap32 (center.x - (radius - 1))) (wrap32 (center.x + (radius - 1))) ≤ center.x
      unfold wrap32; omega
    · show center.x ≤ max (wrap32 (center.x - (radius - 1))) (wrap32 (center.x + (radius - 1)))
      unfold wrap32; omega
    · rw [mem_issued_stroke]
      rintro ⟨s, hs, hp⟩
      obtain ⟨h0, h1, h2⟩ := hrange s hs
      have hne := horigin s hs
      simp only [octant_points, List.mem_cons, List.mem_singleton, List.not_mem_nil, or_false,
        point.mk.injEq] at hp
      unfold wrap32 at hp
      rcases hp with ⟨ha, hb⟩ | ⟨ha, hb⟩ | ⟨ha, hb⟩ | ⟨ha, hb⟩ | ⟨ha, hb⟩ | ⟨ha, hb⟩ | ⟨ha, hb⟩ |
        ⟨ha, hb⟩ <;> omega
  · -- the first span wraps around: the pixel next to its lower end is not stroked
    refine ⟨⟨min (wrap32 (center.x - (radius - 1))) (wrap32 (center.x + (radius - 1))) + 1,
      wrap32 (center.y - 0)⟩, ⟨_, _, hfirst, rfl, rfl, ?_, ?_⟩, ?_⟩
    · show min (wrap32 (center.x - (radius - 1))) (wrap32 (center.x + (radius - 1)))
        ≤ min (wrap32 (center.x - (radius - 1))) (wrap32 (center.x + (radius - 1))) + 1
      omega
    · show min (wrap32 (center.x - (radius - 1))) (wrap32 (center.x + (radius - 1))) + 1
        ≤ max (wrap32 (center.x - (radius - 1))) (wrap32 (center.x + (radius - 1)))
      unfold wrap32
      omega
    · rw [mem_issued_stroke]
      rintro ⟨s, hs, hp⟩
      obtain ⟨h0, h1, h2⟩ := hrange s hs
      simp only [octant_points, List.mem_cons, List.mem_singleton, List.not_mem_nil, or_false,
        point.mk.injEq] at hp
      unfold wrap32 at hp
      rcases hp with ⟨ha, hb⟩ | ⟨ha, hb⟩ | ⟨ha, hb⟩ | ⟨ha, hb⟩ | ⟨ha, hb⟩ | ⟨ha, hb⟩ | ⟨ha, hb⟩ |
        ⟨ha, hb⟩ <;> omega

/-- C4 witness: center (0,0), radius 5. The pixel (0,4) lies between the stroked
pixels (-3,4) and (3,4) and is covered by a span, and some covered pixel is not
stroked. -/
theorem fill_covers_stroke_witness :
    (∃ a b : point,
        command.draw_line a b ∈ issued ⟨black, []⟩ (draw_circle ⟨black, []⟩ ⟨0, 0⟩ 5 fill.on)
          ∧ span_covers a b ⟨0, 4⟩)
      ∧ ∃ q : point,
          (∃ a b : point,
            command.draw_line a b ∈ issued ⟨black, []⟩ (draw_circle ⟨black, []⟩ ⟨0, 0⟩ 5 fill.on)
              ∧ span_covers a b q)
          ∧ command.draw_point q
              ∉ issued ⟨black, []⟩ (draw_circle ⟨black, []⟩ ⟨0, 0⟩ 5 fill.off) :=
  ⟨(fill_covers_stroke ⟨black, []⟩ ⟨0, 0⟩ 5 (by decide) (by decide) (by decide) (by decide)).1
      ⟨0, 4⟩ ⟨-3, 4⟩ ⟨3, 4⟩ (by decide) (by decide) rfl rfl (by decide) (by decide),
   (fill_covers_stroke ⟨black, []⟩ ⟨0, 0⟩ 5 (by decide) (by decide) (by decide)
      (by decide)).2.2 (by decide)⟩

/-- C4 counterexample: for radius 1 the covered set is not a strict superset of the
stroked set: fill mode covers the center pixel only, which stroke mode plots. -/
theorem fill_radius_one_not_strict :
    ¬ ∃ q : point,
        (∃ a b : point,
          command.draw_line a b ∈ issued ⟨black, []⟩ (draw_circle ⟨black, []⟩ ⟨0, 0⟩ 1 fill.on)
            ∧ span_covers a b q)
        ∧ command.draw_point q
            ∉ issued ⟨black, []⟩ (draw_circle ⟨black, []⟩ ⟨0, 0⟩ 1 fill.off) := by
  rintro ⟨q, ⟨a, b, hab, hcov⟩, hq⟩
  have hs : issued ⟨black, []⟩ (draw_circle ⟨black, []⟩ ⟨0, 0⟩ 1 fill.on)
      = List.replicate 4 (command.draw_line ⟨0, 0⟩ ⟨0, 0⟩) := by decide
  have hp : command.draw_point ⟨0, 0⟩
      ∈ issued ⟨black, []⟩ (draw_circle ⟨black, []⟩ ⟨0, 0⟩ 1 fill.off) := by decide
  rw [hs] at hab
  have hab' := List.eq_of_mem_replicate hab
  simp only [command.draw_line.injEq] at hab'
  obtain ⟨rfl, rfl⟩ := hab'
  obtain ⟨h1, -, h3, h4⟩ := hcov
  simp only [min_self, max_self] at h3 h4
  have hq0 : q = ⟨0, 0⟩ := by
    cases q with
    | mk qx qy =>
      simp only at h1 h3 h4
      simp only [point.mk.injEq]
      omega
  exact hq (hq0 ▸ hp)

/-! ## The color blender: conversions -/

theorem static_cast_uint8_of_floor (v : ℝ) (n : ℕ) (hn : n < 256) (h1 : (n : ℝ) ≤ v)
    (h2 : v < (n : ℝ) + 1) : static_cast_uint8 v = some ⟨n, hn⟩ := by
  have h0 : (0 : ℝ) ≤ (n : ℝ) := Nat.cast_nonneg n
  have hv : 0 ≤ v := le_trans h0 h1
  have hfl : trunc v = (n : ℤ) := by
    simp only [trunc, hv, if_true]
    rw [Int.floor_eq_iff]
    exact ⟨by exact_mod_cast h1, by exact_mod_cast h2⟩
  have hc : -1 < v ∧ v < 256 := by
    constructor
    · linarith
    · have : (n : ℝ) + 1 ≤ 256 := by exact_mod_cast hn
      linarith
  simp only [static_cast_uint8, hc, and_self, if_true, hfl, Int.toNat_ofNat]
  congr 1
  apply Fin.ext
  simp [Fin.ofNat, Nat.mod_eq_of_lt hn]

theorem static_cast_uint8_defined (v : ℝ) (h0 : 0 ≤ v) (h1 : v < 256) :
    ∃ n : Fin 256, static_cast_uint8 v = some n ∧ ((n : ℕ) : ℤ) = trunc v := by
  have hfl0 : 0 ≤ ⌊v⌋ := Int.floor_nonneg.mpr h0
  have hfl1 : ⌊v⌋ < 256 := by
    rw [Int.floor_lt]; exact_mod_cast h1
  have ht : trunc v = ⌊v⌋ := by simp [trunc, h0]
  have hc : -1 < v ∧ v < 256 := ⟨by linarith, h1⟩
  refine ⟨Fin.ofNat (trunc v).toNat, by simp [static_cast_uint8, hc], ?_⟩
  rw [ht]
  have : ⌊v⌋.toNat < 256 := by omega
  simp only [Fin.ofNat, Nat.mod_eq_of_lt this]
  omega

theorem static_cast_uint8_bounds (v : ℝ) (h0 : 0 ≤ v) (h1 : v < 256) :
    ∃ n : Fin 256, static_cast_uint8 v = some n ∧ ((n : ℕ) : ℝ) ≤ v ∧ v < ((n : ℕ) : ℝ) + 1 := by
  obtain ⟨n, hn, ht⟩ := static_cast_uint8_defined v h0 h1
  have hfl : trunc v = ⌊v⌋ := by simp [trunc, h0]
  rw [hfl] at ht
  refine ⟨n, hn, ?_, ?_⟩
  · have := Int.floor_le v
    rw [← ht] at this
    exact_mod_cast this
  · have := Int.lt_floor_add_one v
    rw [← ht] at this
    exact_mod_cast this

theorem static_cast_uint8_zero : static_cast_uint8 0 = some 0 := by
  have := static_cast_uint8_of_floor 0 0 (by norm_num) (by norm_num) (by norm_num)
  simpa using this

theorem static_cast_uint8_byte (a : Fin 256) : static_cast_uint8 ((a : ℕ) : ℝ) = some a :=
  static_cast_uint8_of_floor _ a a.isLt (le_refl _) (by linarith)

theorem static_cast_uint8_of_ge (v : ℝ) (h : 256 ≤ v) : static_cast_uint8 v = none := by
  have : ¬ (-1 < v ∧ v < 256) := by
    rintro ⟨-, h2⟩; linarith
  simp [static_cast_uint8, this]

theorem clamp_unit (v : ℝ) : 0 ≤ clamp v 0 1 ∧ clamp v 0 1 ≤ 1 := by
  unfold clamp
  split_ifs <;> constructor <;> linarith

theorem clamp_lt_one (v : ℝ) (h : v < 1) : clamp v 0 1 < 1 := by
  unfold clamp
  split_ifs <;> linarith

theorem clamp_of_ge_one (v : ℝ) (h : 1 ≤ v) : clamp v 0 1 = 1 := by
  unfold clamp
  split_ifs <;> linarith

theorem clamp_mul_lt (r b : ℝ) (hb : 0 < b) (h : r * 256 < b) : clamp r 0 1 * 256 < b := by
  unfold clamp
  split_ifs <;> linarith

theorem le_clamp_mul (r a : ℝ) (ha : a ≤ 256) (h : a ≤ r * 256) : a ≤ clamp r 0 1 * 256 := by
  unfold clamp
  split_ifs <;> linarith

/-! ## The color blender: binary32 rounding and the alpha channel -/

theorem round_even_intCast (z : ℤ) : round_even (z : ℝ) = z := by
  simp [round_even]

theorem round_even_err (y : ℝ) : |(round_even y : ℝ) - y| ≤ 1 / 2 := by
  have h1 := Int.self_sub_floor y
  have h2 := Int.fract_nonneg y
  have h3 := Int.fract_lt_one y
  unfold round_even
  rw [abs_le]
  split_ifs <;> push_cast <;> constructor <;> linarith

theorem round_even_near (y : ℝ) (n : ℤ) (h : |y - n| < 1 / 2) : round_even y = n := by
  rw [abs_lt] at h
  obtain ⟨h1, h2⟩ := h
  by_cases hn : (n : ℝ) ≤ y
  · have hfl : ⌊y⌋ = n := by
      rw [Int.floor_eq_iff]; constructor <;> linarith
    have hfr : Int.fract y < 1 / 2 := by
      rw [← Int.self_sub_floor, hfl]; linarith
    simp only [round_even, hfr, if_true, hfl]
  · push_neg at hn
    have hfl : ⌊y⌋ = n - 1 := by
      rw [Int.floor_eq_iff]; push_cast; constructor <;> linarith
    have hfr : 1 / 2 < Int.fract y := by
      rw [← Int.self_sub_floor, hfl]; push_cast; linarith
    have hfr' : ¬ Int.fract y < 1 / 2 := by linarith
    simp only [round_even, hfr', if_false, hfr, if_true, hfl]
    ring

theorem round_even_nonneg (y : ℝ) (h : 0 ≤ y) : 0 ≤ round_even y := by
  have hfl : 0 ≤ ⌊y⌋ := Int.floor_nonneg.mpr h
  unfold round_even
  split_ifs <;> omega

theorem ulp_pos (x : ℝ) : (0 : ℝ) < (2 : ℝ) ^ ulp_exp x := zpow_pos (by norm_num) _

/-- The spacing around `x` is at most `2^-23 |x|`, or `2^-149` for a subnormal. -/
theorem ulp_le (x : ℝ) (hx : x ≠ 0) :
    (2 : ℝ) ^ ulp_exp x ≤ |x| / 8388608 + (2 : ℝ) ^ (-149 : ℤ) := by
  have hpos : 0 < |x| := abs_pos.mpr hx
  have h149 : (0 : ℝ) < (2 : ℝ) ^ (-149 : ℤ) := zpow_pos (by norm_num) _
  unfold ulp_exp
  by_cases h : Int.log 2 |x| ≤ -126
  · rw [max_eq_right h]
    have : (0 : ℝ) ≤ |x| / 8388608 := by positivity
    norm_num at h149 ⊢
    linarith
  · push_neg at h
    rw [max_eq_left h.le, zpow_sub₀ (by norm_num : (2 : ℝ) ≠ 0)]
    have hl : ((2 : ℕ) : ℝ) ^ Int.log 2 |x| ≤ |x| := Int.zpow_log_le_self (by norm_num) hpos
    rw [Nat.cast_ofNat] at hl
    have : (2 : ℝ) ^ Int.log 2 |x| / (2 : ℝ) ^ (23 : ℤ) ≤ |x| / 8388608 := by
      norm_num
      linarith
    linarith

theorem round_binary32_zero : round_binary32 0 = 0 := by
  simp [round_binary32, round_even]

/-- The rounding error of a `float` operation: at most half the spacing. -/
theorem round_binary32_err (x : ℝ) :
    |round_binary32 x - x| ≤ |x| / 16777216 + (2 : ℝ) ^ (-150 : ℤ) := by
  by_cases hx : x = 0
  · subst hx
    rw [round_binary32_zero]
    have : (0 : ℝ) < (2 : ℝ) ^ (-150 : ℤ) := zpow_pos (by norm_num) _
    simp only [sub_self, abs_zero, zero_div, zero_add]
    exact this.le
  · have hu := ulp_pos x
    have hle := ulp_le x hx
    have he := round_even_err (x / (2 : ℝ) ^ ulp_exp x)
    have key : round_binary32 x - x
        = ((round_even (x / (2 : ℝ) ^ ulp_exp x) : ℝ) - x / (2 : ℝ) ^ ulp_exp x)
            * (2 : ℝ) ^ ulp_exp x := by
      unfold round_binary32
      field_simp
    rw [key, abs_mul, abs_of_pos hu]
    have h150 : (2 : ℝ) ^ (-150 : ℤ) = (2 : ℝ) ^ (-149 : ℤ) / 2 := by
      rw [show (-150 : ℤ) = -149 - 1 by norm_num, zpow_sub₀ (by norm_num : (2 : ℝ) ≠ 0)]
      norm_num
    rw [h150]
    have : |(round_even (x / (2 : ℝ) ^ ulp_exp x) : ℝ) - x / (2 : ℝ) ^ ulp_exp x|
        * (2 : ℝ) ^ ulp_exp x ≤ 1 / 2 * (2 : ℝ) ^ ulp_exp x :=
      mul_le_mul_of_nonneg_right he hu.le
    linarith

theorem round_binary32_nonneg (x : ℝ) (h : 0 ≤ x) : 0 ≤ round_binary32 x := by
  have hu := ulp_pos x
  have : 0 ≤ round_even (x / (2 : ℝ) ^ ulp_exp x) :=
    round_even_nonneg _ (div_nonneg h hu.le)
  have h2 : (0 : ℝ) ≤ (round_even (x / (2 : ℝ) ^ ulp_exp x) : ℝ) := by exact_mod_cast this
  exact mul_nonneg h2 hu.le

/-- A multiple `m * 2^k` of a power of two at least `2^-149` that is below
`2^(k+24)` in absolute value is a binary32 number: it is rounded to itself. -/
theorem round_binary32_exact (x : ℝ) (m k : ℤ) (hk : -149 ≤ k)
    (hx : |x| < (2 : ℝ) ^ (k + 24)) (h : x = (m : ℝ) * (2 : ℝ) ^ k) :
    round_binary32 x = x := by
  by_cases h0 : x = 0
  · rw [h0, round_binary32_zero]
  · have hpos : 0 < |x| := abs_pos.mpr h0
    have hlog : Int.log 2 |x| < k + 24 := by
      rw [← Int.lt_zpow_iff_log_lt (by norm_num) hpos, Nat.cast_ofNat]
      exact hx
    have hu : ulp_exp x ≤ k := by
      unfold ulp_exp
      rcases le_total (Int.log 2 |x|) (-126) with hc | hc
      · rw [max_eq_right hc]; omega
      · rw [max_eq_left hc]; omega
    have h2 : (2 : ℝ) ≠ 0 := by norm_num
    have key : ∀ u : ℤ, u ≤ k → (round_even (x / (2 : ℝ) ^ u) : ℝ) * (2 : ℝ) ^ u = x := by
      intro u hu
      obtain ⟨j, hj⟩ : ∃ j : ℕ, k = u + j := ⟨(k - u).toNat, by omega⟩
      have hup : (2 : ℝ) ^ u ≠ 0 := (zpow_pos (by norm_num) u).ne'
      have hq : x / (2 : ℝ) ^ u = ((m * 2 ^ j : ℤ) : ℝ) := by
        rw [h, hj, zpow_add₀ h2, zpow_natCast]
        push_cast
        field_simp
        ring
      rw [hq, round_even_intCast, h, hj, zpow_add₀ h2, zpow_natCast]
      push_cast
      ring
    exact key _ hu

/-- The rounding of `x` in the binade `[2^e, 2^(e+1))` is the multiple of
`2^(e-23)` within half a spacing of `x`. -/
theorem round_binary32_eval (x : ℝ) (e n : ℤ) (he : -126 ≤ e) (h1 : (2 : ℝ) ^ e ≤ |x|)
    (h2 : |x| < (2 : ℝ) ^ (e + 1)) (h3 : |x / (2 : ℝ) ^ (e - 23) - n| < 1 / 2) :
    round_binary32 x = (n : ℝ) * (2 : ℝ) ^ (e - 23) := by
  have hpos : 0 < |x| := lt_of_lt_of_le (zpow_pos (by norm_num) _) h1
  have hlog : Int.log 2 |x| = e := by
    apply le_antisymm
    · have : Int.log 2 |x| < e + 1 := by
        rw [← Int.lt_zpow_iff_log_lt (by norm_num) hpos, Nat.cast_ofNat]
        exact h2
      omega
    · rw [← Int.zpow_le_iff_le_log (by norm_num) hpos, Nat.cast_ofNat]
      exact h1
  have hu : ulp_exp x = e - 23 := by
    unfold ulp_exp
    rw [hlog, max_eq_left he]
  unfold round_binary32
  rw [hu, round_even_near _ n h3]

theorem byte_cast_bounds (a : Fin 256) : (0 : ℝ) ≤ ((a : ℕ) : ℝ) ∧ ((a : ℕ) : ℝ) ≤ 255 := by
  constructor
  · exact Nat.cast_nonneg _
  · have : (a : ℕ) ≤ 255 := by omega
    exact_mod_cast this

theorem round_binary32_byte_div (a : Fin 256) :
    round_binary32 (((a : ℕ) : ℝ) / 256) = ((a : ℕ) : ℝ) / 256 := by
  obtain ⟨h0, h1⟩ := byte_cast_bounds a
  apply round_binary32_exact _ ((a : ℕ) : ℤ) (-8) (by norm_num)
  · have e : (2 : ℝ) ^ ((-8 : ℤ) + 24) = 65536 := by norm_num
    rw [abs_of_nonneg (by positivity), e]
    linarith
  · have e : (2 : ℝ) ^ (-8 : ℤ) = 1 / 256 := by norm_num
    rw [e, Int.cast_natCast]
    ring

theorem round_binary32_byte (a : Fin 256) :
    round_binary32 ((a : ℕ) : ℝ) = ((a : ℕ) : ℝ) := by
  obtain ⟨h0, h1⟩ := byte_cast_bounds a
  apply round_binary32_exact _ ((a : ℕ) : ℤ) 0 (by norm_num)
  · have e : (2 : ℝ) ^ ((0 : ℤ) + 24) = 16777216 := by norm_num
    rw [abs_of_nonneg h0, e]
    linarith
  · rw [zpow_zero, mul_one, Int.cast_natCast]

theorem round_binary32_one : round_binary32 1 = 1 := by
  apply round_binary32_exact 1 1 0 (by norm_num) <;> norm_num

/-- At fraction 0 the alpha value is exactly `c1.a`. -/
theorem blend_alpha_value_zero_fraction (c0 c1 : color) : blend_alpha_value c0 c1 0 = ((c1.a : ℕ) : ℝ) := by
  unfold blend_alpha_value
  rw [mul_zero, round_binary32_zero, sub_zero, round_binary32_one, mul_one, zero_add,
    round_binary32_byte_div, round_binary32_byte_div, round_binary32_byte_div]
  have : ((c1.a : ℕ) : ℝ) / 256 * 256 = ((c1.a : ℕ) : ℝ) := by ring
  rw [this, round_binary32_byte]

/-- At fraction 1 the alpha value is exactly `c0.a`. -/
theorem blend_alpha_value_one_fraction (c0 c1 : color) : blend_alpha_value c0 c1 1 = ((c0.a : ℕ) : ℝ) := by
  unfold blend_alpha_value
  rw [mul_one, sub_self, round_binary32_zero, mul_zero, round_binary32_zero, add_zero,
    round_binary32_byte_div, round_binary32_byte_div, round_binary32_byte_div]
  have : ((c0.a : ℕ) : ℝ) / 256 * 256 = ((c0.a : ℕ) : ℝ) := by ring
  rw [this, round_binary32_byte]

/-- Two transparent colors blend to alpha value 0 at every fraction. -/
theorem blend_alpha_value_transparent (c0 c1 : color) (f : ℝ) (h0 : c0.a = 0) (h1 : c1.a = 0) :
    blend_alpha_value c0 c1 f = 0 := by
  unfold blend_alpha_value
  rw [h0, h1]
  simp [round_binary32_zero]

theorem round_binary32_within (x B : ℝ) (hx : |x| ≤ B) :
    |round_binary32 x - x| ≤ B / 16777216 + 1 / 1000000000 := by
  have h := round_binary32_err x
  have h150 : (2 : ℝ) ^ (-150 : ℤ) ≤ 1 / 1000000000 := by
    rw [zpow_neg, ← one_div, show ((150 : ℤ)) = ((150 : ℕ) : ℤ) by norm_num, zpow_natCast]
    apply one_div_le_one_div_of_le (by norm_num)
    norm_num
  have : |x| / 16777216 ≤ B / 16777216 := by
    apply div_le_div_of_nonneg_right hx (by norm_num)
  linarith

/-- For a fraction in `[0,1]` the binary32 alpha value is not negative and within
`1/1000` of the exact interpolation `c0.a * f + c1.a * (1 - f)`. -/
theorem blend_alpha_value_near (c0 c1 : color) (f : ℝ) (h0 : 0 ≤ f) (h1 : f ≤ 1) :
    0 ≤ blend_alpha_value c0 c1 f
      ∧ |blend_alpha_value c0 c1 f - (((c0.a : ℕ) : ℝ) * f + ((c1.a : ℕ) : ℝ) * (1 - f))| ≤ 1 / 1000 := by
  obtain ⟨a0, a0'⟩ := byte_cast_bounds c0.a
  obtain ⟨a1, a1'⟩ := byte_cast_bounds c1.a
  unfold blend_alpha_value
  rw [round_binary32_byte_div, round_binary32_byte_div]
  generalize ((c0.a : ℕ) : ℝ) = A0 at *
  generalize ((c1.a : ℕ) : ℝ) = A1 at *
  have hf : 0 ≤ 1 - f := by linarith
  -- the first product
  have x0n : 0 ≤ A0 / 256 * f := by positivity
  have x0b : A0 / 256 * f ≤ 1 := by nlinarith
  have p0n := round_binary32_nonneg _ x0n
  have p0e := round_binary32_within (A0 / 256 * f) 1 (by rw [abs_of_nonneg x0n]; exact x0b)
  rw [abs_le] at p0e
  -- the complement of the fraction
  have gn := round_binary32_nonneg _ hf
  have ge := round_binary32_within (1 - f) 1 (by rw [abs_of_nonneg hf]; linarith)
  rw [abs_le] at ge
  generalize round_binary32 (A0 / 256 * f) = p0 at *
  generalize round_binary32 (1 - f) = g at *
  -- the second product
  have x1n : 0 ≤ A1 / 256 * g := by positivity
  have x1b : A1 / 256 * g ≤ 2 := by nlinarith
  have p1n := round_binary32_nonneg _ x1n
  have p1e := round_binary32_within (A1 / 256 * g) 2 (by rw [abs_of_nonneg x1n]; exact x1b)
  rw [abs_le] at p1e
  have x1d : A1 / 256 * g - A1 / 256 * (1 - f) ≤ 1 / 16777216 + 1 / 1000000000
      ∧ -(1 / 16777216 + 1 / 1000000000) ≤ A1 / 256 * g - A1 / 256 * (1 - f) := by
    constructor <;> nlinarith
  generalize round_binary32 (A1 / 256 * g) = p1 at *
  -- the sum
  have xsn : 0 ≤ p0 + p1 := by linarith
  have xsb : p0 + p1 ≤ 4 := by linarith
  have sn := round_binary32_nonneg _ xsn
  have se := round_binary32_within (p0 + p1) 4 (by rw [abs_of_nonneg xsn]; exact xsb)
  rw [abs_le] at se
  generalize round_binary32 (p0 + p1) = s at *
  -- the final scaling
  have xvn : 0 ≤ s * 256 := by positivity
  have xvb : s * 256 ≤ 2048 := by linarith
  have vn := round_binary32_nonneg _ xvn
  have ve := round_binary32_within (s * 256) 2048 (by rw [abs_of_nonneg xvn]; exact xvb)
  rw [abs_le] at ve
  generalize round_binary32 (s * 256) = v at *
  refine ⟨vn, ?_⟩
  rw [abs_le]
  constructor <;> linarith


theorem round_binary32_eval_pos (x : ℝ) (e n : ℤ) (he : -126 ≤ e) (h1 : (2 : ℝ) ^ e ≤ x)
    (h2 : x < (2 : ℝ) ^ (e + 1)) (h3 : (n : ℝ) - 1 / 2 < x / (2 : ℝ) ^ (e - 23))
    (h4 : x / (2 : ℝ) ^ (e - 23) < (n : ℝ) + 1 / 2) :
    round_binary32 x = (n : ℝ) * (2 : ℝ) ^ (e - 23) := by
  have hx : 0 < x := lt_of_lt_of_le (zpow_pos (by norm_num) _) h1
  apply round_binary32_eval x e n he
  · rw [abs_of_pos hx]; exact h1
  · rw [abs_of_pos hx]; exact h2
  · rw [abs_lt]; constructor <;> linarith

/-- The alpha value at the failing input of C5: `510`, computed without rounding
error. -/
theorem blend_alpha_value_fraction_two :
    blend_alpha_value ⟨255, 0, 0, 255⟩ ⟨0, 0, 0, 0⟩ 2 = 510 := by
  have v255 : (((255 : Fin 256) : ℕ) : ℝ) = 255 := by
    have : ((255 : Fin 256) : ℕ) = 255 := by decide
    rw [this]; norm_num
  have v0 : (((0 : Fin 256) : ℕ) : ℝ) = 0 := by
    have : ((0 : Fin 256) : ℕ) = 0 := by decide
    rw [this]; norm_num
  have e1 : round_binary32 (255 / 256) = 255 / 256 :=
    round_binary32_exact _ 255 (-8) (by norm_num) (by norm_num [abs_of_pos]) (by norm_num)
  have e2 : round_binary32 (255 / 256 * 2) = 255 / 128 := by
    rw [round_binary32_exact _ 255 (-7) (by norm_num) (by norm_num [abs_of_pos]) (by norm_num)]
    norm_num
  have e3 : round_binary32 (1 - 2) = -1 := by
    rw [round_binary32_exact _ (-1) 0 (by norm_num) (by norm_num) (by norm_num)]
    norm_num
  have e4 : round_binary32 (255 / 128 * 256) = 510 := by
    rw [round_binary32_exact _ 510 0 (by norm_num) (by norm_num [abs_of_pos]) (by norm_num)]
    norm_num
  have e5 : round_binary32 (255 / 128) = 255 / 128 :=
    round_binary32_exact _ 255 (-7) (by norm_num) (by norm_num [abs_of_pos]) (by norm_num)
  simp only [blend_alpha_value, v255, v0, zero_div, round_binary32_zero, e1, e2, e3, zero_mul, add_zero,
    e5, e4]

/-- The alpha value for two alpha bytes 254 at the `float` nearest to 0.1: the four
roundings give `16646143 / 65536 = 253.99998...`, below 254. -/
theorem blend_alpha_value_tenth (c0 c1 : color) (h0 : c0.a = 254) (h1 : c1.a = 254) :
    blend_alpha_value c0 c1 (13421773 / 134217728) = 16646143 / 65536 := by
  have v254 : (((254 : Fin 256) : ℕ) : ℝ) = 254 := by
    have : ((254 : Fin 256) : ℕ) = 254 := by decide
    rw [this]; norm_num
  have e1 : round_binary32 (254 / 256) = 254 / 256 :=
    round_binary32_exact _ 254 (-8) (by norm_num) (by norm_num [abs_of_pos]) (by norm_num)
  have e2 : round_binary32 (254 / 256 * (13421773 / 134217728)) = 13316915 / 134217728 := by
    rw [round_binary32_eval_pos _ (-4) 13316915 (by norm_num) (by norm_num) (by norm_num)
      (by norm_num) (by norm_num)]
    norm_num
  have e3 : round_binary32 (1 - 13421773 / 134217728) = 15099494 / 16777216 := by
    rw [round_binary32_eval_pos _ (-1) 15099494 (by norm_num) (by norm_num) (by norm_num)
      (by norm_num) (by norm_num)]
    norm_num
  have e4 : round_binary32 (254 / 256 * (15099494 / 16777216)) = 14981529 / 16777216 := by
    rw [round_binary32_eval_pos _ (-1) 14981529 (by norm_num) (by norm_num) (by norm_num)
      (by norm_num) (by norm_num)]
    norm_num
  have e5 : round_binary32 (13316915 / 134217728 + 14981529 / 16777216)
      = 16646143 / 16777216 := by
    rw [round_binary32_eval_pos _ (-1) 16646143 (by norm_num) (by norm_num) (by norm_num)
      (by norm_num) (by norm_num)]
    norm_num
  have e6 : round_binary32 (16646143 / 16777216 * 256) = 16646143 / 65536 := by
    rw [round_binary32_exact _ 16646143 (-16) (by norm_num) (by norm_num [abs_of_pos])
      (by norm_num)]
    norm_num
  simp only [blend_alpha_value, h0, h1, v254, e1, e2, e3, e4, e5, e6]

theorem blend_alpha_range (c0 c1 : color) (f : ℝ) (h0 : 0 ≤ f) (h1 : f ≤ 1) :
    0 ≤ blend_alpha_value c0 c1 f ∧ blend_alpha_value c0 c1 f < 256 := by
  obtain ⟨hn, he⟩ := blend_alpha_value_near c0 c1 f h0 h1
  obtain ⟨a0, a0'⟩ := byte_cast_bounds c0.a
  obtain ⟨a1, a1'⟩ := byte_cast_bounds c1.a
  rw [abs_le] at he
  have hf : 0 ≤ 1 - f := by linarith
  refine ⟨hn, ?_⟩
  nlinarith [mul_le_mul_of_nonneg_right a0' h0, mul_le_mul_of_nonneg_right a1' hf]

/-- For a fraction in `[0,1]` the alpha byte `n` is defined, it is the truncation
of the binary32 alpha value, and it is within 1 of the truncation of the exact
interpolation `c0.a * f + c1.a * (1 - f)`. -/
theorem blend_alpha_byte (c0 c1 : color) (f : ℝ) (h0 : 0 ≤ f) (h1 : f ≤ 1) :
    ∃ n : Fin 256, static_cast_uint8 (blend_alpha_value c0 c1 f) = some n
      ∧ ((n : ℕ) : ℝ) ≤ blend_alpha_value c0 c1 f
      ∧ blend_alpha_value c0 c1 f < ((n : ℕ) : ℝ) + 1
      ∧ |((n : ℕ) : ℤ) - trunc (((c0.a : ℕ) : ℝ) * f + ((c1.a : ℕ) : ℝ) * (1 - f))| ≤ 1 := by
  obtain ⟨hn, he⟩ := blend_alpha_value_near c0 c1 f h0 h1
  obtain ⟨hr0, hr1⟩ := blend_alpha_range c0 c1 f h0 h1
  obtain ⟨n, hcast, hb1, hb2⟩ := static_cast_uint8_bounds _ hr0 hr1
  obtain ⟨a0, -⟩ := byte_cast_bounds c0.a
  obtain ⟨a1, -⟩ := byte_cast_bounds c1.a
  have hf : 0 ≤ 1 - f := by linarith
  have hE : 0 ≤ ((c0.a : ℕ) : ℝ) * f + ((c1.a : ℕ) : ℝ) * (1 - f) := by positivity
  refine ⟨n, hcast, hb1, hb2, ?_⟩
  rw [abs_le] at he
  have ht : trunc (((c0.a : ℕ) : ℝ) * f + ((c1.a : ℕ) : ℝ) * (1 - f))
      = ⌊((c0.a : ℕ) : ℝ) * f + ((c1.a : ℕ) : ℝ) * (1 - f)⌋ := by simp [trunc, hE]
  rw [ht]
  have f1 := Int.floor_le (((c0.a : ℕ) : ℝ) * f + ((c1.a : ℕ) : ℝ) * (1 - f))
  have f2 := Int.lt_floor_add_one (((c0.a : ℕ) : ℝ) * f + ((c1.a : ℕ) : ℝ) * (1 - f))
  generalize ⌊((c0.a : ℕ) : ℝ) * f + ((c1.a : ℕ) : ℝ) * (1 - f)⌋ = m at *
  have k1 : (((n : ℕ) : ℤ) : ℝ) < (m : ℝ) + 2 := by push_cast; linarith
  have k2 : (m : ℝ) < (((n : ℕ) : ℤ) : ℝ) + 2 := by push_cast; linarith
  have k1' : ((n : ℕ) : ℤ) < m + 2 := by exact_mod_cast k1
  have k2' : m < ((n : ℕ) : ℤ) + 2 := by exact_mod_cast k2
  rw [abs_le]
  constructor <;> omega

/-! ## The color blender: decoding and encoding -/

theorem srgb2linear_nonneg (x : ℝ) (hx : 0 ≤ x) : 0 ≤ srgb2linear x := by
  unfold srgb2linear
  positivity

theorem srgb2linear_mono (x y : ℝ) (hx : 0 ≤ x) (hxy : x ≤ y) :
    srgb2linear x ≤ srgb2linear y := by
  unfold srgb2linear
  have hy : 0 ≤ y := le_trans hx hxy
  have h1 : x * 0.30530611 + 0.682171111 ≤ y * 0.30530611 + 0.682171111 := by linarith
  have h2 : x * (x * 0.30530611 + 0.682171111) + 0.012522878
      ≤ y * (y * 0.30530611 + 0.682171111) + 0.012522878 := by
    have := mul_le_mul hxy h1 (by positivity) hy
    linarith
  exact mul_le_mul hxy h2 (by positivity) hy

theorem srgb2linear_byte (v : Fin 256) :
    0 ≤ srgb2linear (((v : ℕ) : ℝ) / 256) ∧ srgb2linear (((v : ℕ) : ℝ) / 256) ≤ 0.9911 := by
  have h0 : (0 : ℝ) ≤ ((v : ℕ) : ℝ) / 256 := by positivity
  have h1 : ((v : ℕ) : ℝ) / 256 ≤ 255 / 256 := by
    have : (v : ℕ) ≤ 255 := by omega
    have : ((v : ℕ) : ℝ) ≤ 255 := by exact_mod_cast this
    linarith
  refine ⟨srgb2linear_nonneg _ h0, le_trans (srgb2linear_mono _ _ h0 h1) ?_⟩
  unfold srgb2linear
  norm_num

theorem srgb2linear_byte_eq (v : ℕ) :
    srgb2linear ((v : ℝ) / 256) = (linear_num v : ℝ) / (linear_den : ℝ) := by
  unfold srgb2linear linear_num linear_den
  push_cast
  norm_num
  ring

/-- On `0 ≤ x ≤ 0.992` the encoder polynomial stays below 1. -/
theorem linear2srgb_raw_lt_one (x : ℝ) (h0 : 0 ≤ x) (h1 : x ≤ 0.992) :
    linear2srgb_raw x < 1 := by
  have ht0 : 0 ≤ √x := Real.sqrt_nonneg x
  have ht1 : √x ≤ 0.996 := by
    rw [Real.sqrt_le_left (by norm_num)]
    norm_num
    linarith
  have hsq : √x * √x = x := Real.mul_self_sqrt h0
  have hA : √(√x) ≤ (1 + √x) / 2 := by
    rw [Real.sqrt_le_left (by linarith)]
    nlinarith [sq_nonneg (1 - √x)]
  have hB : √x ≤ √(√x) := by
    rw [Real.le_sqrt ht0 ht0]
    nlinarith
  have hB0 : 0 ≤ √(√x) := Real.sqrt_nonneg _
  have hC : √(√x) ≤ √(√(√x)) := by
    rw [Real.le_sqrt hB0 hB0]
    have h2 : √(√x) * √(√x) = √x := Real.mul_self_sqrt ht0
    nlinarith
  unfold linear2srgb_raw
  nlinarith

/-- Enclosure of the encoder polynomial from enclosures of the three nested
square roots. -/
theorem linear2srgb_raw_bounds (m a0 b0 a1 b1 a2 b2 : ℝ)
    (ha0 : 0 ≤ a0) (ha1 : 0 ≤ a1) (ha2 : 0 ≤ a2) (hb0 : 0 ≤ b0) (hb1 : 0 ≤ b1) (hb2 : 0 ≤ b2)
    (l0 : a0 ^ 2 ≤ m) (u0 : m ≤ b0 ^ 2) (l1 : a1 ^ 2 ≤ a0) (u1 : b0 ≤ b1 ^ 2)
    (l2 : a2 ^ 2 ≤ a1) (u2 : b1 ≤ b2 ^ 2) :
    0.662002687 * a0 + 0.684122060 * a1 - 0.323583601 * b2 - 0.0225411470 * m
        ≤ linear2srgb_raw m
      ∧ linear2srgb_raw m
        ≤ 0.662002687 * b0 + 0.684122060 * b1 - 0.323583601 * a2 - 0.0225411470 * m := by
  have hm : 0 ≤ m := le_trans (sq_nonneg a0) l0
  have s0l : a0 ≤ √m := (Real.le_sqrt ha0 hm).mpr l0
  have s0u : √m ≤ b0 := (Real.sqrt_le_left hb0).mpr u0
  have h0 : 0 ≤ √m := Real.sqrt_nonneg _
  have s1l : a1 ≤ √(√m) := (Real.le_sqrt ha1 h0).mpr (le_trans l1 s0l)
  have s1u : √(√m) ≤ b1 := (Real.sqrt_le_left hb1).mpr (le_trans s0u u1)
  have h1 : 0 ≤ √(√m) := Real.sqrt_nonneg _
  have s2l : a2 ≤ √(√(√m)) := (Real.le_sqrt ha2 h1).mpr (le_trans l2 s1l)
  have s2u : √(√(√m)) ≤ b2 := (Real.sqrt_le_left hb2).mpr (le_trans s1u u2)
  unfold linear2srgb_raw
  constructor <;> linarith

/-- For bytes and a fraction in `[0,1]` the interpolated linear value is in
`[0, 0.9911]`. -/
theorem mixed_range (x y : Fin 256) (f : ℝ) (h0 : 0 ≤ f) (h1 : f ≤ 1) :
    0 ≤ srgb2linear (((x : ℕ) : ℝ) / 256) * f + srgb2linear (((y : ℕ) : ℝ) / 256) * (1 - f)
      ∧ srgb2linear (((x : ℕ) : ℝ) / 256) * f + srgb2linear (((y : ℕ) : ℝ) / 256) * (1 - f)
          ≤ 0.9911 := by
  obtain ⟨hx0, hx1⟩ := srgb2linear_byte x
  obtain ⟨hy0, hy1⟩ := srgb2linear_byte y
  have hf : 0 ≤ 1 - f := by linarith
  constructor
  · positivity
  · nlinarith [mul_le_mul_of_nonneg_right hx1 h0, mul_le_mul_of_nonneg_right hy1 hf]

/-- For bytes and a fraction in `[0,1]`, `blend_component` is defined. -/
theorem blend_component_defined (x y : Fin 256) (f : ℝ) (h0 : 0 ≤ f) (h1 : f ≤ 1) :
    ∃ n : Fin 256, blend_component ((x : ℕ) : ℝ) ((y : ℕ) : ℝ) f = some n := by
  obtain ⟨hm0, hm1⟩ := mixed_range x y f h0 h1
  have hlt := linear2srgb_raw_lt_one _ hm0 (by linarith)
  have hc := clamp_unit (linear2srgb_raw
    (srgb2linear (((x : ℕ) : ℝ) / 256) * f + srgb2linear (((y : ℕ) : ℝ) / 256) * (1 - f)))
  have hc1 := clamp_lt_one _ hlt
  obtain ⟨n, hn, -⟩ := static_cast_uint8_defined (clamp (linear2srgb_raw
    (srgb2linear (((x : ℕ) : ℝ) / 256) * f + srgb2linear (((y : ℕ) : ℝ) / 256) * (1 - f)))
      0 1 * 256) (by nlinarith [hc.1]) (by linarith)
  exact ⟨n, by simp [blend_component, blend_component_value, linear2srgb, hm0, hn]⟩

/-- The byte produced by `blend_component` when the interpolated linear value is
`m ≥ 0` and `n ≤ 256 * clamp (raw m) < n + 1`. -/
theorem blend_component_eq (x y f m : ℝ)
    (hmx : srgb2linear (x / 256) * f + srgb2linear (y / 256) * (1 - f) = m) (hm : 0 ≤ m)
    (n : ℕ) (hn : n < 256) (h1 : (n : ℝ) ≤ linear2srgb_raw m * 256 ∨ n = 0)
    (h2 : linear2srgb_raw m * 256 < (n : ℝ) + 1) :
    blend_component x y f = some ⟨n, hn⟩ := by
  have hn1 : (n : ℝ) + 1 ≤ 256 := by exact_mod_cast hn
  have hn0 : (0 : ℝ) ≤ (n : ℝ) := Nat.cast_nonneg n
  have hc := clamp_unit (linear2srgb_raw m)
  have hlt : linear2srgb_raw m < 1 := by linarith
  have key : (n : ℝ) ≤ clamp (linear2srgb_raw m) 0 1 * 256
      ∧ clamp (linear2srgb_raw m) 0 1 * 256 < (n : ℝ) + 1 := by
    unfold clamp
    split_ifs with hneg hbig
    · rcases h1 with h1 | h1
      · constructor <;> linarith
      · subst h1; norm_num
    · linarith
    · rcases h1 with h1 | h1
      · exact ⟨h1, h2⟩
      · subst h1
        push_neg at hneg
        constructor
        · simp only [Nat.cast_zero]; linarith
        · exact h2
  have := static_cast_uint8_of_floor _ n hn key.1 key.2
  simp only [blend_component, blend_component_value, hmx, linear2srgb, hm, if_true,
    Option.map_some', Option.some_bind, this]

/-- For a fraction in `[0,1]`, `color_blend` is defined and its alpha channel is the
conversion of `blend_alpha_value`. -/
theorem color_blend_defined (c0 c1 : color) (f : ℝ) (h0 : 0 ≤ f) (h1 : f ≤ 1) :
    ∃ c : color, color_blend c0 c1 f = some c
      ∧ static_cast_uint8 (blend_alpha_value c0 c1 f) = some c.a
      ∧ blend_component ((c0.r : ℕ) : ℝ) ((c1.r : ℕ) : ℝ) f = some c.r
      ∧ blend_component ((c0.g : ℕ) : ℝ) ((c1.g : ℕ) : ℝ) f = some c.g
      ∧ blend_component ((c0.b : ℕ) : ℝ) ((c1.b : ℕ) : ℝ) f = some c.b := by
  obtain ⟨r, hr⟩ := blend_component_defined c0.r c1.r f h0 h1
  obtain ⟨g, hg⟩ := blend_component_defined c0.g c1.g f h0 h1
  obtain ⟨b, hb⟩ := blend_component_defined c0.b c1.b f h0 h1
  obtain ⟨ha0, ha1⟩ := blend_alpha_range c0 c1 f h0 h1
  obtain ⟨a, ha, -⟩ := static_cast_uint8_defined _ ha0 ha1
  exact ⟨⟨r, g, b, a⟩, by simp [color_blend, hr, hg, hb, ha], ha, hr, hg, hb⟩

theorem color_blend_of_channels (c0 c1 : color) (f : ℝ) (r g b a : Fin 256)
    (hr : blend_component ((c0.r : ℕ) : ℝ) ((c1.r : ℕ) : ℝ) f = some r)
    (hg : blend_component ((c0.g : ℕ) : ℝ) ((c1.g : ℕ) : ℝ) f = some g)
    (hb : blend_component ((c0.b : ℕ) : ℝ) ((c1.b : ℕ) : ℝ) f = some b)
    (ha : static_cast_uint8 (blend_alpha_value c0 c1 f) = some a) :
    color_blend c0 c1 f = some ⟨r, g, b, a⟩ := by
  simp only [color_blend, hr, hg, hb, ha, Option.some_bind]

/-! ## C5: out-of-range fractions reach the byte conversion unclamped -/

/-- C5 (evaluation at the failing input): `color_blend` of `{255, 0, 0, 255}` and
`{0, 0, 0, 0}` at fraction 2 hands the value 256 (red) and the value 510 (alpha)
to `static_cast<uint8_t>`: both are outside `[0,255]` and the conversion has no
defined result. -/
theorem color_blend_out_of_range :
    blend_component_value 255 0 2 = some 256
      ∧ blend_alpha_value ⟨255, 0, 0, 255⟩ ⟨0, 0, 0, 0⟩ 2 = 510
      ∧ static_cast_uint8 256 = none ∧ static_cast_uint8 510 = none
      ∧ color_blend ⟨255, 0, 0, 255⟩ ⟨0, 0, 0, 0⟩ 2 = none := by
  have hm : srgb2linear (255 / 256) * 2 + srgb2linear (0 / 256) * (1 - 2)
      = 2 * srgb2linear (255 / 256) := by
    unfold srgb2linear; ring
  have hl : (1.98 : ℝ) ≤ 2 * srgb2linear (255 / 256) := by
    unfold srgb2linear; norm_num
  have hu : 2 * srgb2linear (255 / 256) ≤ (1.983 : ℝ) := by
    unfold srgb2linear; norm_num
  have hraw := (linear2srgb_raw_bounds (2 * srgb2linear (255 / 256)) 1.4 1.41158 1.18 1.1881
    1.08 1.09 (by norm_num) (by norm_num) (by norm_num) (by norm_num) (by norm_num)
    (by norm_num) (by norm_num; linarith) (by norm_num; linarith) (by norm_num) (by norm_num)
    (by norm_num) (by norm_num)).1
  have hge : 1 ≤ linear2srgb_raw (2 * srgb2linear (255 / 256)) := by
    refine le_trans ?_ hraw
    norm_num
    linarith
  have hred : blend_component_value 255 0 2 = some 256 := by
    have h0 : (0 : ℝ) ≤ 2 * srgb2linear (255 / 256) := by linarith
    simp only [blend_component_value, hm, linear2srgb, h0, if_true, Option.map_some',
      clamp_of_ge_one _ hge]
    norm_num
  have v255 : ((255 : Fin 256) : ℕ) = 255 := by decide
  have v0 : ((0 : Fin 256) : ℕ) = 0 := by decide
  have halpha : blend_alpha_value ⟨255, 0, 0, 255⟩ ⟨0, 0, 0, 0⟩ 2 = 510 :=
    blend_alpha_value_fraction_two
  refine ⟨hred, halpha, static_cast_uint8_of_ge _ (by norm_num),
    static_cast_uint8_of_ge _ (by norm_num), ?_⟩
  have hr : blend_component (((255 : Fin 256) : ℕ) : ℝ) (((0 : Fin 256) : ℕ) : ℝ) 2 = none := by
    rw [v255, v0]
    have h256 : static_cast_uint8 256 = none := static_cast_uint8_of_ge _ (by norm_num)
    simp only [blend_component, Nat.cast_ofNat, Nat.cast_zero, hred, Option.some_bind, h256]
  simp only [color_blend, hr, Option.none_bind]

/-! ## C6, C7: decoding a byte and encoding it again -/

theorem sq_div_le_div (p N T D : ℕ) (hT : 0 < T) (hD : 0 < D) (h : p * p * D ≤ N * T * T) :
    ((p : ℝ) / T) ^ 2 ≤ (N : ℝ) / D := by
  have hT' : (0 : ℝ) < T := by exact_mod_cast hT
  have hD' : (0 : ℝ) < D := by exact_mod_cast hD
  have h' : (p : ℝ) * p * D ≤ (N : ℝ) * T * T := by exact_mod_cast h
  rw [div_pow, div_le_div_iff₀ (by positivity) hD']
  nlinarith

theorem div_le_sq_div (q N T D : ℕ) (hT : 0 < T) (hD : 0 < D) (h : N * T * T ≤ q * q * D) :
    (N : ℝ) / D ≤ ((q : ℝ) / T) ^ 2 := by
  have hT' : (0 : ℝ) < T := by exact_mod_cast hT
  have hD' : (0 : ℝ) < D := by exact_mod_cast hD
  have h' : (N : ℝ) * T * T ≤ (q : ℝ) * q * D := by exact_mod_cast h
  rw [div_pow, div_le_div_iff₀ hD' (by positivity)]
  nlinarith

/-- Soundness of `enc_ok`: when the interpolated linear value is the decoded
byte `v`, `blend_component` returns a byte `n` with `v - k ≤ n ≤ v`. -/
theorem enc_ok_sound (v k : ℕ) (hv : v < 256) (c : sqrt_cert) (h : enc_ok v k c) (x y f : ℝ)
    (hm : srgb2linear (x / 256) * f + srgb2linear (y / 256) * (1 - f)
      = srgb2linear ((v : ℝ) / 256)) :
    ∃ n : Fin 256, blend_component x y f = some n ∧ (n : ℕ) ≤ v ∧ v ≤ (n : ℕ) + k := by
  obtain ⟨p0, q0, p1, q1, p2, q2⟩ := c
  obtain ⟨c1, c2, c3, c4, c5, c6, hhi, hlo⟩ := h
  simp only at c1 c2 c3 c4 c5 c6 hhi hlo
  have hT : 0 < fix_scale := by decide
  have hD : 0 < linear_den := by decide
  have hTr : (fix_scale : ℝ) = 1000000000 := by norm_num [fix_scale]
  have hDr : (linear_den : ℝ) = 16777216000000000 := by norm_num [linear_den]
  have hmN : srgb2linear ((v : ℝ) / 256) = (linear_num v : ℝ) / (linear_den : ℝ) :=
    srgb2linear_byte_eq v
  have hm0 : 0 ≤ srgb2linear ((v : ℝ) / 256) := srgb2linear_nonneg _ (by positivity)
  have hN0 : (0 : ℝ) ≤ (linear_num v : ℝ) := Nat.cast_nonneg _
  have l0 : ((p0 : ℝ) / fix_scale) ^ 2 ≤ srgb2linear ((v : ℝ) / 256) :=
    hmN ▸ sq_div_le_div p0 _ _ _ hT hD c1
  have u0 : srgb2linear ((v : ℝ) / 256) ≤ ((q0 : ℝ) / fix_scale) ^ 2 :=
    hmN ▸ div_le_sq_div q0 _ _ _ hT hD c2
  have l1 : ((p1 : ℝ) / fix_scale) ^ 2 ≤ (p0 : ℝ) / fix_scale :=
    sq_div_le_div p1 p0 _ _ hT hT (Nat.mul_le_mul_right _ c3)
  have u1 : (q0 : ℝ) / fix_scale ≤ ((q1 : ℝ) / fix_scale) ^ 2 :=
    div_le_sq_div q1 q0 _ _ hT hT (Nat.mul_le_mul_right _ c4)
  have l2 : ((p2 : ℝ) / fix_scale) ^ 2 ≤ (p1 : ℝ) / fix_scale :=
    sq_div_le_div p2 p1 _ _ hT hT (Nat.mul_le_mul_right _ c5)
  have u2 : (q1 : ℝ) / fix_scale ≤ ((q2 : ℝ) / fix_scale) ^ 2 :=
    div_le_sq_div q2 q1 _ _ hT hT (Nat.mul_le_mul_right _ c6)
  obtain ⟨hraw_lo, hraw_hi⟩ := linear2srgb_raw_bounds (srgb2linear ((v : ℝ) / 256)) _ _ _ _ _ _
    (by positivity) (by positivity) (by positivity) (by positivity) (by positivity)
    (by positivity) l0 u0 l1 u1 l2 u2
  have hhi' : (256 : ℝ) * ((662002687 * q0 + 684122060 * q1) * linear_den)
      < ((v : ℝ) + 1) * (1000000000000000000 * linear_den)
        + 256 * (323583601 * p2 * linear_den + 22541147 * linear_num v * fix_scale) := by
    exact_mod_cast hhi
  have hup : linear2srgb_raw (srgb2linear ((v : ℝ) / 256)) * 256 < (v : ℝ) + 1 := by
    rw [hmN, hTr, hDr] at hraw_hi
    rw [hTr, hDr] at hhi'
    rw [hmN, hDr]
    linarith only [hraw_hi, hhi']
  have hvr : (v : ℝ) + 1 ≤ 256 := by exact_mod_cast hv
  have hv0 : (0 : ℝ) ≤ (v : ℝ) := Nat.cast_nonneg v
  have hc := clamp_unit (linear2srgb_raw (srgb2linear ((v : ℝ) / 256)))
  have hcl_le : clamp (linear2srgb_raw (srgb2linear ((v : ℝ) / 256))) 0 1 * 256 < (v : ℝ) + 1 :=
    clamp_mul_lt _ _ (by linarith only [hv0]) hup
  obtain ⟨n, hn, hn1, hn2⟩ := static_cast_uint8_bounds
    (clamp (linear2srgb_raw (srgb2linear ((v : ℝ) / 256))) 0 1 * 256)
    (by linarith only [hc.1]) (by linarith only [hcl_le, hvr])
  refine ⟨n, ?_, ?_, ?_⟩
  · simp only [blend_component, blend_component_value, hm, linear2srgb, hm0, if_true,
      Option.map_some', Option.some_bind, hn]
  · have : ((n : ℕ) : ℝ) < (v : ℝ) + 1 := lt_of_le_of_lt hn1 hcl_le
    have : (n : ℕ) < v + 1 := by exact_mod_cast this
    omega
  · rcases hlo with hlo | hlo
    · omega
    · by_cases hvk : v ≤ k
      · omega
      · have hlo' : ((v : ℝ) - k) * (1000000000000000000 * linear_den)
            + 256 * (323583601 * q2 * linear_den + 22541147 * linear_num v * fix_scale)
            ≤ 256 * ((662002687 * p0 + 684122060 * p1) * linear_den) := by
          have hkv : k ≤ v := by omega
          have := hlo
          rw [← Nat.cast_sub hkv]
          exact_mod_cast this
        have hdown : (v : ℝ) - k ≤ linear2srgb_raw (srgb2linear ((v : ℝ) / 256)) * 256 := by
          rw [hmN, hTr, hDr] at hraw_lo
          rw [hTr, hDr] at hlo'
          rw [hmN, hDr]
          linarith only [hraw_lo, hlo']
        have hk0 : (0 : ℝ) ≤ (k : ℝ) := Nat.cast_nonneg k
        have hcl_ge : (v : ℝ) - k
            ≤ clamp (linear2srgb_raw (srgb2linear ((v : ℝ) / 256))) 0 1 * 256 :=
          le_clamp_mul _ _ (by linarith only [hvr, hk0]) hdown
        have h3 : (v : ℝ) - k < ((n : ℕ) : ℝ) + 1 := lt_of_le_of_lt hcl_ge hn2
        have : (v : ℝ) < ((n : ℕ) : ℝ) + 1 + k := by linarith only [h3]
        have : v < (n : ℕ) + 1 + k := by exact_mod_cast this
        omega

set_option maxRecDepth 100000 in
theorem enc_check_seven : ∀ v < 256, enc_check v 7 = true := by decide

set_option maxRecDepth 100000 in
theorem enc_check_one : ∀ v < 256, v ≤ 1 ∨ 46 ≤ v → enc_check v 1 = true := by decide

set_option maxRecDepth 100000 in
theorem enc_check_two : ∀ v < 256, v ≤ 2 ∨ 33 ≤ v → enc_check v 2 = true := by decide

/-- A byte `v` that is decoded, taken as the interpolated linear value, and encoded
again comes back as a byte `n` with `v - 7 ≤ n ≤ v`; `v - 1 ≤ n` when `v ≤ 1` or
`46 ≤ v`, and `v - 2 ≤ n` when `v ≤ 2` or `33 ≤ v`. -/
theorem roundtrip_channel (v : Fin 256) (x y f : ℝ)
    (hm : srgb2linear (x / 256) * f + srgb2linear (y / 256) * (1 - f)
      = srgb2linear (((v : ℕ) : ℝ) / 256)) :
    ∃ n : Fin 256, blend_component x y f = some n ∧ (n : ℕ) ≤ v ∧ (v : ℕ) ≤ n + 7
      ∧ ((v : ℕ) ≤ 1 ∨ 46 ≤ (v : ℕ) → (v : ℕ) ≤ n + 1)
      ∧ ((v : ℕ) ≤ 2 ∨ 33 ≤ (v : ℕ) → (v : ℕ) ≤ n + 2) := by
  obtain ⟨n, hn, h1, h2⟩ := enc_ok_sound v 7 v.isLt _
    (of_decide_eq_true (enc_check_seven v v.isLt)) x y f hm
  refine ⟨n, hn, h1, h2, ?_, ?_⟩
  · intro hv
    obtain ⟨n', hn', -, h3⟩ := enc_ok_sound v 1 v.isLt _
      (of_decide_eq_true (enc_check_one v v.isLt hv)) x y f hm
    rw [hn] at hn'
    rw [Option.some.inj hn']
    exact h3
  · intro hv
    obtain ⟨n', hn', -, h3⟩ := enc_ok_sound v 2 v.isLt _
      (of_decide_eq_true (enc_check_two v v.isLt hv)) x y f hm
    rw [hn] at hn'
    rw [Option.some.inj hn']
    exact h3

/-- The byte 8 comes back as 1. -/
theorem roundtrip_eight (x y f : ℝ)
    (hm : srgb2linear (x / 256) * f + srgb2linear (y / 256) * (1 - f)
      = srgb2linear ((8 : ℝ) / 256)) :
    blend_component x y f = some 1 := by
  have hl : (0.0010668398 : ℝ) ≤ srgb2linear (8 / 256) := by
    unfold srgb2linear; norm_num
  have hu : srgb2linear (8 / 256) ≤ (0.0010668399 : ℝ) := by
    unfold srgb2linear; norm_num
  obtain ⟨hlo, hhi⟩ := linear2srgb_raw_bounds (srgb2linear (8 / 256)) 0.0326624 0.0326627
    0.1807273 0.1807284 0.4251202 0.4251218 (by norm_num) (by norm_num) (by norm_num)
    (by norm_num) (by norm_num) (by norm_num) (by norm_num; linarith) (by norm_num; linarith)
    (by norm_num) (by norm_num) (by norm_num) (by norm_num)
  apply blend_component_eq x y f _ hm (by linarith) 1 (by norm_num)
  · left
    norm_num at hlo ⊢
    linarith
  · norm_num at hhi ⊢
    linarith

/-- The byte 7 comes back as 0. -/
theorem roundtrip_seven (x y f : ℝ)
    (hm : srgb2linear (x / 256) * f + srgb2linear (y / 256) * (1 - f)
      = srgb2linear ((7 : ℝ) / 256)) :
    blend_component x y f = some 0 := by
  have hl : (0.0008587103 : ℝ) ≤ srgb2linear (7 / 256) := by
    unfold srgb2linear; norm_num
  have hu : srgb2linear (7 / 256) ≤ (0.0008587104 : ℝ) := by
    unfold srgb2linear; norm_num
  obtain ⟨hlo, hhi⟩ := linear2srgb_raw_bounds (srgb2linear (7 / 256)) 0.029302 0.029305
    0.171177 0.171189 0.413734 0.413751 (by norm_num) (by norm_num) (by norm_num)
    (by norm_num) (by norm_num) (by norm_num) (by norm_num; linarith) (by norm_num; linarith)
    (by norm_num) (by norm_num) (by norm_num) (by norm_num)
  apply blend_component_eq x y f _ hm (by linarith) 0 (by norm_num)
  · right; rfl
  · norm_num at hhi ⊢
    linarith

/-- C6 (as amended): for every color `c` and every fraction `f` in `[0,1]`, with the
decode, the encode and the truncation in exact real arithmetic and the alpha channel
in binary32 arithmetic, `color_blend(c, c, f)` is defined, its alpha is `c.a` or
`c.a - 1`, and each of its r, g, b channels is at most the channel of `c` and below
it by at most 7; by at most 1 when the channel of `c` is 0, 1 or at least 46. -/
theorem color_blend_self (c : color) (f : ℝ) (h0 : 0 ≤ f) (h1 : f ≤ 1) :
    ∃ d : color, color_blend c c f = some d
      ∧ ((d.a : ℕ) ≤ c.a ∧ (c.a : ℕ) ≤ d.a + 1)
      ∧ ((d.r : ℕ) ≤ c.r ∧ (c.r : ℕ) ≤ d.r + 7
          ∧ ((c.r : ℕ) ≤ 1 ∨ 46 ≤ (c.r : ℕ) → (c.r : ℕ) ≤ d.r + 1))
      ∧ ((d.g : ℕ) ≤ c.g ∧ (c.g : ℕ) ≤ d.g + 7
          ∧ ((c.g : ℕ) ≤ 1 ∨ 46 ≤ (c.g : ℕ) → (c.g : ℕ) ≤ d.g + 1))
      ∧ ((d.b : ℕ) ≤ c.b ∧ (c.b : ℕ) ≤ d.b + 7
          ∧ ((c.b : ℕ) ≤ 1 ∨ 46 ≤ (c.b : ℕ) → (c.b : ℕ) ≤ d.b + 1)) := by
  obtain ⟨r, hr, r1, r2, r3, -⟩ := roundtrip_channel c.r ((c.r : ℕ) : ℝ) ((c.r : ℕ) : ℝ) f
    (by ring)
  obtain ⟨g, hg, g1, g2, g3, -⟩ := roundtrip_channel c.g ((c.g : ℕ) : ℝ) ((c.g : ℕ) : ℝ) f
    (by ring)
  obtain ⟨b, hb, b1, b2, b3, -⟩ := roundtrip_channel c.b ((c.b : ℕ) : ℝ) ((c.b : ℕ) : ℝ) f
    (by ring)
  obtain ⟨a, ha, a1, a2, -⟩ := blend_alpha_byte c c f h0 h1
  obtain ⟨-, he⟩ := blend_alpha_value_near c c f h0 h1
  have hE : ((c.a : ℕ) : ℝ) * f + ((c.a : ℕ) : ℝ) * (1 - f) = ((c.a : ℕ) : ℝ) := by ring
  rw [hE, abs_le] at he
  have k1 : ((a : ℕ) : ℝ) < ((c.a : ℕ) : ℝ) + 1 := by linarith
  have k2 : ((c.a : ℕ) : ℝ) < ((a : ℕ) : ℝ) + 2 := by linarith
  have k1' : (a : ℕ) < (c.a : ℕ) + 1 := by exact_mod_cast k1
  have k2' : (c.a : ℕ) < (a : ℕ) + 2 := by exact_mod_cast k2
  exact ⟨⟨r, g, b, a⟩, color_blend_of_channels c c f r g b a hr hg hb ha,
    ⟨by show (a : ℕ) ≤ c.a; omega, by show (c.a : ℕ) ≤ a + 1; omega⟩,
    ⟨r1, r2, r3⟩, ⟨g1, g2, g3⟩, ⟨b1, b2, b3⟩⟩

/-- C6 witness: the color (200, 100, 50, 255) at fraction 1/4. -/
theorem color_blend_self_witness :
    ∃ d : color, color_blend ⟨200, 100, 50, 255⟩ ⟨200, 100, 50, 255⟩ (1 / 4) = some d
      ∧ ((d.a : ℕ) ≤ (255 : Fin 256) ∧ ((255 : Fin 256) : ℕ) ≤ d.a + 1)
      ∧ ((d.r : ℕ) ≤ (200 : Fin 256) ∧ ((200 : Fin 256) : ℕ) ≤ d.r + 7
          ∧ (((200 : Fin 256) : ℕ) ≤ 1 ∨ 46 ≤ ((200 : Fin 256) : ℕ)
              → ((200 : Fin 256) : ℕ) ≤ d.r + 1))
      ∧ ((d.g : ℕ) ≤ (100 : Fin 256) ∧ ((100 : Fin 256) : ℕ) ≤ d.g + 7
          ∧ (((100 : Fin 256) : ℕ) ≤ 1 ∨ 46 ≤ ((100 : Fin 256) : ℕ)
              → ((100 : Fin 256) : ℕ) ≤ d.g + 1))
      ∧ ((d.b : ℕ) ≤ (50 : Fin 256) ∧ ((50 : Fin 256) : ℕ) ≤ d.b + 7
          ∧ (((50 : Fin 256) : ℕ) ≤ 1 ∨ 46 ≤ ((50 : Fin 256) : ℕ)
              → ((50 : Fin 256) : ℕ) ≤ d.b + 1)) :=
  color_blend_self ⟨200, 100, 50, 255⟩ (1 / 4) (by norm_num) (by norm_num)

/-- C6 counterexample: blending the color (8, 8, 8, 0) with itself at fraction 1/2
gives (1, 1, 1, 0): each of r, g, b is off by 7, not by at most 1. -/
theorem color_blend_self_off_by_seven :
    (0 : ℝ) ≤ 1 / 2 ∧ (1 / 2 : ℝ) ≤ 1
      ∧ color_blend ⟨8, 8, 8, 0⟩ ⟨8, 8, 8, 0⟩ (1 / 2) = some ⟨1, 1, 1, 0⟩
      ∧ ¬ ((8 : ℤ) - 1 ≤ 1) := by
  have v8 : (((8 : Fin 256) : ℕ) : ℝ) = 8 := by
    have : ((8 : Fin 256) : ℕ) = 8 := by decide
    rw [this]; norm_num
  have h8 : blend_component (((8 : Fin 256) : ℕ) : ℝ) (((8 : Fin 256) : ℕ) : ℝ) (1 / 2)
      = some 1 := by
    apply roundtrip_eight
    rw [v8]; ring
  have ha : static_cast_uint8 (blend_alpha_value ⟨8, 8, 8, 0⟩ ⟨8, 8, 8, 0⟩ (1 / 2)) = some 0 := by
    rw [blend_alpha_value_transparent _ _ _ rfl rfl, static_cast_uint8_zero]
  exact ⟨by norm_num, by norm_num,
    color_blend_of_channels ⟨8, 8, 8, 0⟩ ⟨8, 8, 8, 0⟩ (1 / 2) 1 1 1 0 h8 h8 h8 ha, by decide⟩

/-- C7 (as amended): for all colors `c0` and `c1`, with the r, g, b channels in exact
real arithmetic and the alpha channel in binary32 arithmetic,
`color_blend(c0, c1, 0.0)` is defined, its alpha is `c1.a`, and each of its r, g, b
channels is at most the channel of `c1` and below it by at most 7 (by at most 2
when that channel is at most 2 or at least 33); `color_blend(c0, c1, 1.0)` relates
to `c0` in the same way. -/
theorem color_blend_endpoints (c0 c1 : color) :
    (∃ d : color, color_blend c0 c1 0 = some d ∧ d.a = c1.a
      ∧ ((d.r : ℕ) ≤ c1.r ∧ (c1.r : ℕ) ≤ d.r + 7
          ∧ ((c1.r : ℕ) ≤ 2 ∨ 33 ≤ (c1.r : ℕ) → (c1.r : ℕ) ≤ d.r + 2))
      ∧ ((d.g : ℕ) ≤ c1.g ∧ (c1.g : ℕ) ≤ d.g + 7
          ∧ ((c1.g : ℕ) ≤ 2 ∨ 33 ≤ (c1.g : ℕ) → (c1.g : ℕ) ≤ d.g + 2))
      ∧ ((d.b : ℕ) ≤ c1.b ∧ (c1.b : ℕ) ≤ d.b + 7
          ∧ ((c1.b : ℕ) ≤ 2 ∨ 33 ≤ (c1.b : ℕ) → (c1.b : ℕ) ≤ d.b + 2)))
    ∧ (∃ d : color, color_blend c0 c1 1 = some d ∧ d.a = c0.a
      ∧ ((d.r : ℕ) ≤ c0.r ∧ (c0.r : ℕ) ≤ d.r + 7
          ∧ ((c0.r : ℕ) ≤ 2 ∨ 33 ≤ (c0.r : ℕ) → (c0.r : ℕ) ≤ d.r + 2))
      ∧ ((d.g : ℕ) ≤ c0.g ∧ (c0.g : ℕ) ≤ d.g + 7
          ∧ ((c0.g : ℕ) ≤ 2 ∨ 33 ≤ (c0.g : ℕ) → (c0.g : ℕ) ≤ d.g + 2))
      ∧ ((d.b : ℕ) ≤ c0.b ∧ (c0.b : ℕ) ≤ d.b + 7
          ∧ ((c0.b : ℕ) ≤ 2 ∨ 33 ≤ (c0.b : ℕ) → (c0.b : ℕ) ≤ d.b + 2))) := by
  constructor
  · obtain ⟨r, hr, r1, r2, -, r3⟩ := roundtrip_channel c1.r ((c0.r : ℕ) : ℝ) ((c1.r : ℕ) : ℝ) 0
      (by ring)
    obtain ⟨g, hg, g1, g2, -, g3⟩ := roundtrip_channel c1.g ((c0.g : ℕ) : ℝ) ((c1.g : ℕ) : ℝ) 0
      (by ring)
    obtain ⟨b, hb, b1, b2, -, b3⟩ := roundtrip_channel c1.b ((c0.b : ℕ) : ℝ) ((c1.b : ℕ) : ℝ) 0
      (by ring)
    have ha : static_cast_uint8 (blend_alpha_value c0 c1 0) = some c1.a := by
      rw [blend_alpha_value_zero_fraction, static_cast_uint8_byte]
    exact ⟨⟨r, g, b, c1.a⟩, color_blend_of_channels c0 c1 0 r g b c1.a hr hg hb ha, rfl,
      ⟨r1, r2, r3⟩, ⟨g1, g2, g3⟩, ⟨b1, b2, b3⟩⟩
  · obtain ⟨r, hr, r1, r2, -, r3⟩ := roundtrip_channel c0.r ((c0.r : ℕ) : ℝ) ((c1.r : ℕ) : ℝ) 1
      (by ring)
    obtain ⟨g, hg, g1, g2, -, g3⟩ := roundtrip_channel c0.g ((c0.g : ℕ) : ℝ) ((c1.g : ℕ) : ℝ) 1
      (by ring)
    obtain ⟨b, hb, b1, b2, -, b3⟩ := roundtrip_channel c0.b ((c0.b : ℕ) : ℝ) ((c1.b : ℕ) : ℝ) 1
      (by ring)
    have ha : static_cast_uint8 (blend_alpha_value c0 c1 1) = some c0.a := by
      rw [blend_alpha_value_one_fraction, static_cast_uint8_byte]
    exact ⟨⟨r, g, b, c0.a⟩, color_blend_of_channels c0 c1 1 r g b c0.a hr hg hb ha, rfl,
      ⟨r1, r2, r3⟩, ⟨g1, g2, g3⟩, ⟨b1, b2, b3⟩⟩

/-- C7 counterexample: `color_blend(black, {7,7,7,0}, 0.0)` and
`color_blend({7,7,7,0}, black, 1.0)` are both `(0, 0, 0, 0)`: the channels are 7
away from those of `{7,7,7,0}`, not within 2. -/
theorem color_blend_endpoints_off_by_seven :
    color_blend black ⟨7, 7, 7, 0⟩ 0 = some ⟨0, 0, 0, 0⟩
      ∧ color_blend ⟨7, 7, 7, 0⟩ black 1 = some ⟨0, 0, 0, 0⟩
      ∧ ¬ ((7 : ℤ) - 0 ≤ 2) := by
  have v7 : (((7 : Fin 256) : ℕ) : ℝ) = 7 := by
    have : ((7 : Fin 256) : ℕ) = 7 := by decide
    rw [this]; norm_num
  have h0 : blend_component (((0 : Fin 256) : ℕ) : ℝ) (((7 : Fin 256) : ℕ) : ℝ) 0 = some 0 := by
    apply roundtrip_seven
    rw [v7]; ring
  have h1 : blend_component (((7 : Fin 256) : ℕ) : ℝ) (((0 : Fin 256) : ℕ) : ℝ) 1 = some 0 := by
    apply roundtrip_seven
    rw [v7]; ring
  have ha0 : static_cast_uint8 (blend_alpha_value black ⟨7, 7, 7, 0⟩ 0) = some 0 := by
    rw [blend_alpha_value_transparent _ _ _ rfl rfl, static_cast_uint8_zero]
  have ha1 : static_cast_uint8 (blend_alpha_value ⟨7, 7, 7, 0⟩ black 1) = some 0 := by
    rw [blend_alpha_value_transparent _ _ _ rfl rfl, static_cast_uint8_zero]
  exact ⟨color_blend_of_channels black ⟨7, 7, 7, 0⟩ 0 0 0 0 0 h0 h0 h0 ha0,
    color_blend_of_channels ⟨7, 7, 7, 0⟩ black 1 0 0 0 0 h1 h1 h1 ha1, by decide⟩

/-! ## C8: the alpha channel is interpolated linearly -/

/-- C8 (as amended): for all colors `c0`, `c1` and every fraction `f` in `[0,1]`,
`color_blend` is defined and its alpha channel is the truncation of the binary32
value of the plain linear interpolation of the alpha bytes; that value is within
`1/1000` of `c0.a * f + c1.a * (1 - f)`, so the alpha channel is within 1 of the
truncation of `c0.a * f + c1.a * (1 - f)`; any two inputs with the same alpha bytes
give the same alpha, whatever their r, g, b; at `f = 0` the alpha is `c1.a` and at
`f = 1` it is `c0.a`. -/
theorem color_blend_alpha_linear (c0 c1 : color) (f : ℝ) (h0 : 0 ≤ f) (h1 : f ≤ 1) :
    ∃ c : color, color_blend c0 c1 f = some c
      ∧ static_cast_uint8 (blend_alpha_value c0 c1 f) = some c.a
      ∧ |blend_alpha_value c0 c1 f - (((c0.a : ℕ) : ℝ) * f + ((c1.a : ℕ) : ℝ) * (1 - f))|
          ≤ 1 / 1000
      ∧ |((c.a : ℕ) : ℤ) - trunc (((c0.a : ℕ) : ℝ) * f + ((c1.a : ℕ) : ℝ) * (1 - f))| ≤ 1
      ∧ (∀ d0 d1 : color, d0.a = c0.a → d1.a = c1.a →
          ∃ d : color, color_blend d0 d1 f = some d ∧ d.a = c.a)
      ∧ (f = 0 → c.a = c1.a) ∧ (f = 1 → c.a = c0.a) := by
  obtain ⟨c, hc, hca, -⟩ := color_blend_defined c0 c1 f h0 h1
  obtain ⟨a, ha, -, -, hat⟩ := blend_alpha_byte c0 c1 f h0 h1
  have hac : c.a = a := by
    rw [ha] at hca; exact (Option.some.inj hca).symm
  refine ⟨c, hc, hca, (blend_alpha_value_near c0 c1 f h0 h1).2, ?_, ?_, ?_, ?_⟩
  · rw [hac]; exact hat
  · intro d0 d1 hd0 hd1
    obtain ⟨d, hd, hda, -⟩ := color_blend_defined d0 d1 f h0 h1
    refine ⟨d, hd, ?_⟩
    have e : blend_alpha_value d0 d1 f = blend_alpha_value c0 c1 f := by
      simp [blend_alpha_value, hd0, hd1]
    rw [e, hca] at hda
    exact (Option.some.inj hda).symm
  · intro hf
    have := static_cast_uint8_byte c1.a
    rw [← blend_alpha_value_zero_fraction c0 c1, ← hf, hca] at this
    exact Option.some.inj this
  · intro hf
    have := static_cast_uint8_byte c0.a
    rw [← blend_alpha_value_one_fraction c0 c1, ← hf, hca] at this
    exact Option.some.inj this

/-- C8 witness: blending alpha 200 over alpha 100 at fraction 1/2. -/
theorem color_blend_alpha_linear_witness :
    ∃ c : color, color_blend ⟨1, 2, 3, 200⟩ ⟨4, 5, 6, 100⟩ (1 / 2) = some c
      ∧ static_cast_uint8 (blend_alpha_value ⟨1, 2, 3, 200⟩ ⟨4, 5, 6, 100⟩ (1 / 2)) = some c.a
      ∧ |blend_alpha_value ⟨1, 2, 3, 200⟩ ⟨4, 5, 6, 100⟩ (1 / 2)
            - ((((⟨1, 2, 3, 200⟩ : color).a : ℕ) : ℝ) * (1 / 2)
                + (((⟨4, 5, 6, 100⟩ : color).a : ℕ) : ℝ) * (1 - 1 / 2))| ≤ 1 / 1000
      ∧ |((c.a : ℕ) : ℤ)
            - trunc ((((⟨1, 2, 3, 200⟩ : color).a : ℕ) : ℝ) * (1 / 2)
                + (((⟨4, 5, 6, 100⟩ : color).a : ℕ) : ℝ) * (1 - 1 / 2))| ≤ 1
      ∧ (∀ d0 d1 : color, d0.a = (⟨1, 2, 3, 200⟩ : color).a → d1.a = (⟨4, 5, 6, 100⟩ : color).a →
          ∃ d : color, color_blend d0 d1 (1 / 2) = some d ∧ d.a = c.a)
      ∧ ((1 / 2 : ℝ) = 0 → c.a = (⟨4, 5, 6, 100⟩ : color).a)
      ∧ ((1 / 2 : ℝ) = 1 → c.a = (⟨1, 2, 3, 200⟩ : color).a) :=
  color_blend_alpha_linear ⟨1, 2, 3, 200⟩ ⟨4, 5, 6, 100⟩ (1 / 2) (by norm_num) (by norm_num)

/-- C8 counterexample: at the `float` nearest to 0.1, `13421773 / 2^27`, two colors
of alpha 254 blend to alpha 253: the binary32 roundings leave `253.99998...`, while
the exact interpolation `254 * f + 254 * (1 - f)` is 254 and truncates to 254. -/
theorem color_blend_alpha_rounds_down :
    (0 : ℝ) ≤ 13421773 / 134217728 ∧ (13421773 / 134217728 : ℝ) ≤ 1
      ∧ color_blend ⟨0, 0, 0, 254⟩ ⟨0, 0, 0, 254⟩ (13421773 / 134217728)
          = some ⟨0, 0, 0, 253⟩
      ∧ trunc ((((254 : Fin 256) : ℕ) : ℝ) * (13421773 / 134217728)
          + (((254 : Fin 256) : ℕ) : ℝ) * (1 - 13421773 / 134217728)) = 254 := by
  have v0 : (((0 : Fin 256) : ℕ) : ℝ) = 0 := by
    have : ((0 : Fin 256) : ℕ) = 0 := by decide
    rw [this]; norm_num
  have v254 : (((254 : Fin 256) : ℕ) : ℝ) = 254 := by
    have : ((254 : Fin 256) : ℕ) = 254 := by decide
    rw [this]; norm_num
  have hz : blend_component (((0 : Fin 256) : ℕ) : ℝ) (((0 : Fin 256) : ℕ) : ℝ)
      (13421773 / 134217728) = some 0 := by
    obtain ⟨n, hn, hle, -⟩ := roundtrip_channel 0 (((0 : Fin 256) : ℕ) : ℝ)
      (((0 : Fin 256) : ℕ) : ℝ) (13421773 / 134217728) (by ring)
    have : n = 0 := by
      apply Fin.ext
      have : ((0 : Fin 256) : ℕ) = 0 := by decide
      omega
    rw [hn, this]
  have ha : static_cast_uint8
      (blend_alpha_value ⟨0, 0, 0, 254⟩ ⟨0, 0, 0, 254⟩ (13421773 / 134217728))
        = some 253 := by
    rw [blend_alpha_value_tenth _ _ rfl rfl]
    have := static_cast_uint8_of_floor (16646143 / 65536) 253 (by norm_num) (by norm_num)
      (by norm_num)
    exact this
  refine ⟨by norm_num, by norm_num,
    color_blend_of_channels ⟨0, 0, 0, 254⟩ ⟨0, 0, 0, 254⟩ _ 0 0 0 253 hz hz hz ha, ?_⟩
  rw [v254]
  have e : (254 : ℝ) * (13421773 / 134217728) + 254 * (1 - 13421773 / 134217728) = 254 := by
    ring
  rw [e]
  simp [trunc]

/-! ## C9: black and white blend to the gamma-corrected mid-gray -/

/-- C9: `color_blend(black, white, 0.5)` is the gray `(187, 187, 187)`: its r, g and
b channels are equal, within 1 of 188, and differ from the naive average 128. -/
theorem color_blend_black_white_half :
    color_blend black white (1 / 2) = some ⟨187, 187, 187, 0⟩
      ∧ ∃ c : color, color_blend black white (1 / 2) = some c ∧ c.r = c.g ∧ c.g = c.b
          ∧ 188 - 1 ≤ (c.r : ℕ) ∧ (c.r : ℕ) ≤ 188 + 1 ∧ (c.r : ℕ) ≠ 128 := by
  have v255 : ((255 : Fin 256) : ℕ) = 255 := by decide
  have v0 : ((0 : Fin 256) : ℕ) = 0 := by decide
  have hmx : srgb2linear ((0 : ℝ) / 256) * (1 / 2) + srgb2linear ((255 : ℝ) / 256) * (1 - 1 / 2)
      = srgb2linear (255 / 256) / 2 := by
    unfold srgb2linear; ring
  have hl : (0.49553 : ℝ) ≤ srgb2linear (255 / 256) / 2 := by
    unfold srgb2linear; norm_num
  have hu : srgb2linear (255 / 256) / 2 ≤ (0.49554 : ℝ) := by
    unfold srgb2linear; norm_num
  obtain ⟨hlo, hhi⟩ := linear2srgb_raw_bounds (srgb2linear (255 / 256) / 2) 0.7039 0.7040 0.8389
    0.8391 0.9159 0.9161 (by norm_num) (by norm_num) (by norm_num) (by norm_num) (by norm_num)
    (by norm_num) (by norm_num; linarith) (by norm_num; linarith) (by norm_num) (by norm_num)
    (by norm_num) (by norm_num)
  have hcomp : blend_component 0 255 (1 / 2) = some ⟨187, by norm_num⟩ := by
    apply blend_component_eq 0 255 (1 / 2) _ hmx (by linarith) 187
    · left
      norm_num at hlo ⊢
      linarith
    · norm_num at hhi ⊢
      linarith
  have halpha : static_cast_uint8 (blend_alpha_value black white (1 / 2)) = some 0 := by
    rw [blend_alpha_value_transparent _ _ _ rfl rfl, static_cast_uint8_zero]
  have hres : color_blend black white (1 / 2) = some ⟨187, 187, 187, 0⟩ := by
    simp only [color_blend, black, white, v255, v0, Nat.cast_ofNat, Nat.cast_zero, hcomp,
      Option.some_bind]
    have := halpha
    simp only [black, white] at this
    rw [this]
    rfl
  exact ⟨hres, _, hres, rfl, rfl, by decide, by decide, by decide⟩

/-! ## C10: drawing with an explicit color restores the draw color -/

/-- In the canvas model `color_get` returns the color last set. -/
theorem color_get_color_set (can : canvas) (col : color) :
    color_get (color_set can col) = col := rfl

/-- What `draw_circle` issues does not depend on the canvas it is issued to. -/
theorem draw_circle_log (can : canvas) (center : point) (radius : Int) (f : fill) :
    draw_circle can center radius f
      = canvas.mk can.color (can.log ++
          (issued ⟨black, []⟩ (draw_circle ⟨black, []⟩ center radius f)).map
            (fun k => (can.color, k))) := by
  cases f
  · rw [issued_fill, draw_circle_fill]; simp
  · rw [issued_stroke, draw_circle_stroke]; simp

theorem issued_draw_circle (can : canvas) (center : point) (radius : Int) (f : fill) :
    issued can (draw_circle can center radius f)
      = issued ⟨black, []⟩ (draw_circle ⟨black, []⟩ center radius f) := by
  cases f
  · rw [issued_fill, issued_fill]
  · rw [issued_stroke, issued_stroke]

/-- C10: each overload of `draw_point`, `draw_line`, `draw_circle` and `draw_rect`
that takes an explicit color leaves the current draw color (`color_get`) as it was
before the call, and appends to the log exactly the commands the color-less overload
issues, each of them issued while the given color is the current color. -/
theorem draw_with_color_restores (can : canvas) (col : color) :
    (∀ p : point,
      color_get (draw_point_color can p col) = color_get can
        ∧ (draw_point_color can p col).log
            = can.log ++ (issued can (draw_point can p)).map (fun k => (col, k)))
    ∧ (∀ p0 p1 : point,
      color_get (draw_line_color can p0 p1 col) = color_get can
        ∧ (draw_line_color can p0 p1 col).log
            = can.log ++ (issued can (draw_line can p0 p1)).map (fun k => (col, k)))
    ∧ (∀ (center : point) (radius : Int) (f : fill),
      color_get (draw_circle_color can center radius col f) = color_get can
        ∧ (draw_circle_color can center radius col f).log
            = can.log ++ (issued can (draw_circle can center radius f)).map (fun k => (col, k)))
    ∧ (∀ (p : point) (v : vector) (f : fill),
      color_get (draw_rect_color can p v col f) = color_get can
        ∧ (draw_rect_color can p v col f).log
            = can.log ++ (issued can (draw_rect can p v f)).map (fun k => (col, k))) := by
  refine ⟨?_, ?_, ?_, ?_⟩
  · intro p
    simp [draw_point_color, draw_point, color_get, color_set, impl.canvas_color_get,
      impl.canvas_color_set, impl.canvas_draw_point, issued]
  · intro p0 p1
    simp [draw_line_color, draw_line, color_get, color_set, impl.canvas_color_get,
      impl.canvas_color_set, impl.canvas_draw_line, issued]
  · intro center radius f
    constructor
    · simp [draw_circle_color, color_get, color_set, impl.canvas_color_get,
        impl.canvas_color_set]
    · rw [issued_draw_circle can]
      simp only [draw_circle_color, color_get, color_set, impl.canvas_color_get,
        impl.canvas_color_set]
      rw [draw_circle_log]
  · intro p v f
    simp [draw_rect_color, draw_rect, color_get, color_set, impl.canvas_color_get,
      impl.canvas_color_set, impl.canvas_draw_rect, issued]

/-! ## C11: stroke mode and fill mode visit the same loop states -/

/-- In a concatenation of blocks of equal length `n`, the `i`-th block is found at
offset `n * i`. -/
theorem flatMap_group {α β : Type} (f : α → List β) (n : Nat) (hf : ∀ a, (f a).length = n) :
    ∀ (l : List α) (i : Nat) (h : i < l.length),
      ((l.flatMap f).drop (n * i)).take n = f (l.get ⟨i, h⟩) := by
  intro l
  induction l with
  | nil => intro i h; simp at h
  | cons a l ih =>
    intro i h
    cases i with
    | zero =>
      simp only [List.flatMap_cons, Nat.mul_zero, List.drop_zero]
      exact List.take_left' (hf a)
    | succ i =>
      have e : n * (i + 1) = (f a).length + n * i := by rw [hf a]; ring
      simp only [List.flatMap_cons, e, List.drop_append]
      exact ih i (by simpa using h)

theorem flatMap_length_const {α β : Type} (f : α → List β) (n : Nat)
    (hf : ∀ a, (f a).length = n) (l : List α) : (l.flatMap f).length = n * l.length := by
  induction l with
  | nil => simp
  | cons a l ih => simp [List.flatMap_cons, ih, hf a]; ring

theorem endpoints_span_lines (center : point) (x y : Int) :
    List.Perm (endpoints ((span_lines center x y).map (fun q => command.draw_line q.1 q.2)))
      ((octant_points center x y).map command.draw_point) := by
  rw [List.perm_iff_count]
  intro a
  simp only [span_lines, octant_points, endpoints, List.map_cons, List.map_nil, List.count_cons,
    List.count_nil]
  omega

/-- C11: for every center and every radius, stroke mode and fill mode of
`draw_circle` run through one and the same list of loop states: stroke mode issues
the eight octant points of each state and fill mode the four spans of each state, so
with `k` the number of states stroke issues `8k` point commands and fill `4k` line
commands; both ends of every span have the same `y`; and the eight ends of the
`i`-th group of four spans are, up to order, the eight points of the `i`-th group of
stroke mode. -/
theorem stroke_fill_same_states (can can' : canvas) (center : point) (radius : Int) :
    ∃ states : List circle_state,
      issued can (draw_circle can center radius fill.off)
          = (states.flatMap (fun st => octant_points center st.x st.y)).map command.draw_point
      ∧ issued can' (draw_circle can' center radius fill.on)
          = (states.flatMap (fun st => span_lines center st.x st.y)).map
              (fun q => command.draw_line q.1 q.2)
      ∧ (issued can (draw_circle can center radius fill.off)).length = 8 * states.length
      ∧ (issued can' (draw_circle can' center radius fill.on)).length = 4 * states.length
      ∧ (∀ c ∈ issued can' (draw_circle can' center radius fill.on),
          ∃ p0 p1 : point, c = command.draw_line p0 p1 ∧ p0.y = p1.y)
      ∧ ∀ i < states.length,
          List.Perm
            (endpoints (((issued can' (draw_circle can' center radius fill.on)).drop (4 * i)).take 4))
            (((issued can (draw_circle can center radius fill.off)).drop (8 * i)).take 8) := by
  refine ⟨circle_trace radius, issued_stroke can center radius, issued_fill can' center radius,
    ?_, ?_, ?_, ?_⟩
  · rw [issued_stroke, List.length_map]
    exact flatMap_length_const (fun st : circle_state => octant_points center st.x st.y) 8 (fun _ => rfl) _
  · rw [issued_fill, List.length_map]
    exact flatMap_length_const (fun st : circle_state => span_lines center st.x st.y) 4 (fun _ => rfl) _
  · intro c hc
    rw [issued_fill] at hc
    simp only [List.mem_map, List.mem_flatMap] at hc
    obtain ⟨q, ⟨s, _, hq⟩, rfl⟩ := hc
    refine ⟨q.1, q.2, rfl, ?_⟩
    simp only [span_lines, List.mem_cons, List.mem_singleton, List.not_mem_nil, or_false] at hq
    rcases hq with rfl | rfl | rfl | rfl <;> rfl
  · intro i hi
    rw [issued_stroke, issued_fill, ← List.map_drop, ← List.map_take, ← List.map_drop,
      ← List.map_take,
      flatMap_group (fun st => span_lines center st.x st.y) 4 (fun _ => rfl) _ i hi,
      flatMap_group (fun st => octant_points center st.x st.y) 8 (fun _ => rfl) _ i hi]
    exact endpoints_span_lines center _ _

/-! ## C12: the loop runs at most `radius` times -/

/-- With `0 ≤ y ≤ x` and `x` below `INT32_MAX`, one update keeps `0 ≤ y`, keeps `x`
below `INT32_MAX`, and strictly decreases `x - y`. -/
theorem circle_step_decreases (d : Int) (s : circle_state) (hy : 0 ≤ s.y) (hxy : s.y ≤ s.x)
    (hx : s.x ≤ 2147483646) :
    0 ≤ (circle_step d s).y ∧ (circle_step d s).x ≤ 2147483646
      ∧ (circle_step d s).x - (circle_step d s).y < s.x - s.y := by
  simp only [circle_step, wrap32]
  split_ifs <;> (try dsimp only) <;> omega

/-- The number of iterations is at most `x - y + 1`, whatever the fuel. -/
theorem circle_states_length (d : Int) (n : Nat) :
    ∀ (s : circle_state), 0 ≤ s.y → s.x ≤ 2147483646 →
      ((circle_states d n s).length : Int) ≤ max 0 (s.x - s.y + 1) := by
  induction n with
  | zero => intro s _ _; simp [circle_states]
  | succ n ih =>
    intro s hy hx
    rw [circle_states_succ]
    by_cases h : s.x ≥ s.y
    · obtain ⟨h1, h2, h3⟩ := circle_step_decreases d s hy h hx
      have := ih (circle_step d s) h1 h2
      simp only [h, if_true, List.length_cons, Nat.cast_add, Nat.cast_one]
      omega
    · simp [h]

/-- The states at which the body runs have `0 ≤ y ≤ x` and `x` below `INT32_MAX`. -/
theorem circle_states_range (d : Int) (n : Nat) :
    ∀ (s : circle_state), 0 ≤ s.y → s.x ≤ 2147483646 →
      ∀ t ∈ circle_states d n s, 0 ≤ t.y ∧ t.y ≤ t.x ∧ t.x ≤ 2147483646 := by
  induction n with
  | zero => intro s _ _ t ht; simp [circle_states] at ht
  | succ n ih =>
    intro s hy hx t ht
    rw [circle_states_succ] at ht
    by_cases h : s.x ≥ s.y
    · simp only [h, if_true, List.mem_cons] at ht
      rcases ht with rfl | ht
      · exact ⟨hy, h, hx⟩
      · obtain ⟨h1, h2, _⟩ := circle_step_decreases d s hy h hx
        exact ih _ h1 h2 t ht
    · simp [h] at ht

/-- C12: for every radius `1 ≤ r` (an `int32_t`, so `r ≤ 2^31 - 1`) the loop of
`draw_circle` runs at most `r` times, whatever fuel the loop is granted; at every
state at which the body runs `y ≤ x`, and the update strictly decreases `x - y`;
stroke mode issues at most `8r` commands and fill mode at most `4r`. -/
theorem draw_circle_iterations_le_radius (can : canvas) (center : point) (radius : Int)
    (hr1 : 1 ≤ radius) (hr2 : radius ≤ 2147483647) :
    (∀ fuel : Nat,
        ((circle_states (wrap32 (radius * 2)) fuel (circle_init radius)).length : Int) ≤ radius)
      ∧ (∀ s ∈ circle_trace radius,
          s.y ≤ s.x
            ∧ (circle_step (wrap32 (radius * 2)) s).x - (circle_step (wrap32 (radius * 2)) s).y
                < s.x - s.y)
      ∧ ((issued can (draw_circle can center radius fill.off)).length : Int) ≤ 8 * radius
      ∧ ((issued can (draw_circle can center radius fill.on)).length : Int) ≤ 4 * radius := by
  obtain ⟨iy, ix⟩ := circle_init_range radius hr1 hr2
  have hlen : ∀ fuel : Nat,
      ((circle_states (wrap32 (radius * 2)) fuel (circle_init radius)).length : Int) ≤ radius := by
    intro fuel
    have := circle_states_length (wrap32 (radius * 2)) fuel (circle_init radius) (by omega)
      (by omega)
    rw [iy, ix] at this
    omega
  have htr : ((circle_trace radius).length : Int) ≤ radius := hlen (circle_fuel radius)
  refine ⟨hlen, ?_, ?_, ?_⟩
  · intro s hs
    obtain ⟨h1, h2, h3⟩ := circle_states_range (wrap32 (radius * 2)) (circle_fuel radius)
      (circle_init radius) (by omega) (by omega) s hs
    exact ⟨h2, (circle_step_decreases _ s h1 h2 h3).2.2⟩
  · rw [issued_stroke, List.length_map,
      flatMap_length_const (fun st : circle_state => octant_points center st.x st.y) 8
        (fun _ => rfl)]
    push_cast
    omega
  · rw [issued_fill, List.length_map,
      flatMap_length_const (fun st : circle_state => span_lines center st.x st.y) 4
        (fun _ => rfl)]
    push_cast
    omega

/-- C12 witness: radius 3 at center (0,0). -/
theorem draw_circle_iterations_le_radius_witness :
    ((issued ⟨black, []⟩ (draw_circle ⟨black, []⟩ ⟨0, 0⟩ 3 fill.off)).length : Int) ≤ 8 * 3
      ∧ ((issued ⟨black, []⟩ (draw_circle ⟨black, []⟩ ⟨0, 0⟩ 3 fill.on)).length : Int) ≤ 4 * 3 :=
  (draw_circle_iterations_le_radius ⟨black, []⟩ ⟨0, 0⟩ 3 (by decide) (by decide)).2.2

/-! ## C13: points and vectors form an affine structure -/

/-- Adding and then subtracting in 32 bits gives back an `int32_t` value. -/
theorem wrap32_add_sub (a b : Int) (hb : int32 b) : wrap32 (wrap32 (a + b) - a) = b := by
  unfold int32 at hb; unfold wrap32; omega

theorem wrap32_add_sub_cancel (a b : Int) (hb : int32 b) : wrap32 (a + wrap32 (b - a)) = b := by
  unfold int32 at hb; unfold wrap32; omega

theorem wrap32_add_neg_cancel (a b : Int) (ha : int32 a) :
    wrap32 (wrap32 (a + b) + wrap32 (-b)) = a := by
  unfold int32 at ha; unfold wrap32; omega

theorem wrap32_add_neg (a b : Int) : wrap32 (a + wrap32 (-b)) = wrap32 (a - b) := by
  unfold wrap32; omega

/-- C13: for all points `p`, `q` and vectors `v`, `w` with `int32_t` coordinates,
`(p + v) - p = v`, `p + (q - p) = q`, `(p + v) - v = p`, `v + p = p + v`, and
`v - w` is `v + (-w)`, the component-wise 32-bit difference. -/
theorem point_vector_affine (p q : point) (v w : vector)
    (hp : int32 p.x ∧ int32 p.y) (hq : int32 q.x ∧ int32 q.y) (hv : int32 v.x ∧ int32 v.y) :
    point.sub (point.add p v) p = v
      ∧ point.add p (point.sub q p) = q
      ∧ point.sub_vector (point.add p v) v = p
      ∧ vector.add_point v p = point.add p v
      ∧ vector.sub v w = vector.add v (vector.neg w)
      ∧ vector.sub v w = ⟨wrap32 (v.x - w.x), wrap32 (v.y - w.y)⟩ := by
  obtain ⟨px, py⟩ := p
  obtain ⟨qx, qy⟩ := q
  obtain ⟨vx, vy⟩ := v
  obtain ⟨wx, wy⟩ := w
  dsimp only at hp hq hv
  refine ⟨?_, ?_, ?_, rfl, rfl, ?_⟩
  · simp only [point.sub, point.add, wrap32_add_sub _ _ hv.1, wrap32_add_sub _ _ hv.2]
  · simp only [point.sub, point.add, wrap32_add_sub_cancel _ _ hq.1,
      wrap32_add_sub_cancel _ _ hq.2]
  · simp only [point.sub_vector, point.add, vector.neg, wrap32_add_neg_cancel _ _ hp.1,
      wrap32_add_neg_cancel _ _ hp.2]
  · simp only [vector.sub, vector.add, vector.neg, wrap32_add_neg]

/-- C13 witness: `p = (3, -4)`, `q = (10, 20)`, `v = (INT32_MAX, 5)`, `w = (1, -2)`; the
sum `p + v` wraps around and the identities still hold. -/
theorem point_vector_affine_witness :
    point.sub (point.add ⟨3, -4⟩ ⟨2147483647, 5⟩) ⟨3, -4⟩ = ⟨2147483647, 5⟩
      ∧ point.add ⟨3, -4⟩ (point.sub ⟨10, 20⟩ ⟨3, -4⟩) = ⟨10, 20⟩
      ∧ point.sub_vector (point.add ⟨3, -4⟩ ⟨2147483647, 5⟩) ⟨2147483647, 5⟩ = ⟨3, -4⟩
      ∧ vector.add_point ⟨2147483647, 5⟩ ⟨3, -4⟩ = point.add ⟨3, -4⟩ ⟨2147483647, 5⟩
      ∧ vector.sub ⟨2147483647, 5⟩ ⟨1, -2⟩ = vector.add ⟨2147483647, 5⟩ (vector.neg ⟨1, -2⟩)
      ∧ vector.sub ⟨2147483647, 5⟩ ⟨1, -2⟩
          = ⟨wrap32 (2147483647 - 1), wrap32 (5 - -2)⟩ :=
  point_vector_affine ⟨3, -4⟩ ⟨10, 20⟩ ⟨2147483647, 5⟩ ⟨1, -2⟩ (by decide) (by decide) (by decide)

/-! ## C14: division of a vector by a scalar truncates toward zero -/

/-- The quotient of two `int32_t` values fits `int32_t`, except `INT32_MIN / -1`. -/
theorem tdiv_int32 (c s : Int) (hc : int32 c) (hs0 : s ≠ 0)
    (hne : ¬ (c = -2147483648 ∧ s = -1)) : int32 (Int.tdiv c s) := by
  unfold int32 at hc ⊢
  obtain ⟨h1, h2⟩ := hc
  have habs : (Int.tdiv c s).natAbs ≤ c.natAbs := by
    rw [Int.natAbs_tdiv]
    exact Nat.div_le_self _ _
  by_cases hm : c = -2147483648
  · subst hm
    have hs1 : s ≠ -1 := fun h => hne ⟨rfl, h⟩
    by_cases hs2 : s = 1
    · subst hs2; simp
    · have h2s : 2 ≤ s.natAbs := by omega
      have : (Int.tdiv (-2147483648) s).natAbs ≤ 1073741824 := by
        rw [Int.natAbs_tdiv]
        calc (-2147483648 : Int).natAbs / s.natAbs ≤ (-2147483648 : Int).natAbs / 2 :=
              Nat.div_le_div_left h2s (by norm_num)
          _ = 1073741824 := by decide
      omega
  · omega

theorem tdiv_rem_aux (A B c s : Int) (hA : 0 ≤ A) (hB : 0 < B) (hc : A = c ∨ -A = c)
    (hs : B = s ∨ -B = s) :
    ∃ rem : Int, c = Int.tdiv c s * s + rem ∧ |rem| < |s|
      ∧ (rem = 0 ∨ (0 < rem ∧ 0 < c) ∨ (rem < 0 ∧ c < 0)) := by
  have hq : A / B * B + A % B = A := Int.ediv_add_emod' A B
  have hr0 : 0 ≤ A % B := Int.emod_nonneg A (by omega)
  have hr1 : A % B < B := Int.emod_lt_of_pos A hB
  have hQ : 0 ≤ A / B * B := mul_nonneg (Int.ediv_nonneg hA hB.le) hB.le
  have hpos : A % B ≠ 0 → 0 < A % B ∧ 0 < A := fun h => ⟨by omega, by omega⟩
  have hsign : A % B = 0 ∨ (0 < A % B ∧ 0 < A) := by
    by_cases h : A % B = 0
    · exact Or.inl h
    · exact Or.inr (hpos h)
  rcases hc with rfl | rfl <;> rcases hs with rfl | rfl
  · refine ⟨A % B, ?_, ?_, ?_⟩
    · rw [Int.tdiv_eq_ediv hA hB.le]; linear_combination -hq
    · rw [abs_of_nonneg hr0, abs_of_pos hB]; exact hr1
    · rcases hsign with h | h
      · exact Or.inl h
      · exact Or.inr (Or.inl h)
  · refine ⟨A % B, ?_, ?_, ?_⟩
    · rw [Int.tdiv_neg, Int.tdiv_eq_ediv hA hB.le]; linear_combination -hq
    · rw [abs_of_nonneg hr0, abs_neg, abs_of_pos hB]; exact hr1
    · rcases hsign with h | h
      · exact Or.inl h
      · exact Or.inr (Or.inl h)
  · refine ⟨-(A % B), ?_, ?_, ?_⟩
    · rw [Int.neg_tdiv, Int.tdiv_eq_ediv hA hB.le]; linear_combination hq
    · rw [abs_neg, abs_of_nonneg hr0, abs_of_pos hB]; exact hr1
    · rcases hsign with h | h
      · exact Or.inl (by omega)
      · exact Or.inr (Or.inr ⟨by omega, by omega⟩)
  · refine ⟨-(A % B), ?_, ?_, ?_⟩
    · rw [Int.neg_tdiv_neg, Int.tdiv_eq_ediv hA hB.le]; linear_combination hq
    · rw [abs_neg, abs_of_nonneg hr0, abs_neg, abs_of_pos hB]; exact hr1
    · rcases hsign with h | h
      · exact Or.inl (by omega)
      · exact Or.inr (Or.inr ⟨by omega, by omega⟩)

/-- The remainder of truncated division: smaller than the divisor in absolute value,
and zero or of the sign of the dividend. -/
theorem tdiv_rem (c s : Int) (hs0 : s ≠ 0) :
    ∃ rem : Int, c = Int.tdiv c s * s + rem ∧ |rem| < |s|
      ∧ (rem = 0 ∨ (0 < rem ∧ 0 < c) ∨ (rem < 0 ∧ c < 0)) :=
  tdiv_rem_aux (c.natAbs : Int) (s.natAbs : Int) c s (by omega) (by omega) (by omega) (by omega)

/-- C14 (as amended): for every vector `v` with `int32_t` components and every
non-zero scalar `s`, except when a component is `INT32_MIN` and `s = -1`, `v / s` is
defined and each component `q` of the result is the quotient of the component `c`
of `v` truncated toward zero: `c = q * s + rem` with `|rem| < |s|` and `rem` zero or
of the sign of `c`. -/
theorem vector_div_truncates (v : vector) (s : Int) (hvx : int32 v.x) (hvy : int32 v.y)
    (hs0 : s ≠ 0) (hx : ¬ (v.x = -2147483648 ∧ s = -1)) (hy : ¬ (v.y = -2147483648 ∧ s = -1)) :
    vector.div v s = some ⟨Int.tdiv v.x s, Int.tdiv v.y s⟩
      ∧ ∀ q : vector, vector.div v s = some q →
          (∃ rem : Int, v.x = q.x * s + rem ∧ |rem| < |s|
              ∧ (rem = 0 ∨ (0 < rem ∧ 0 < v.x) ∨ (rem < 0 ∧ v.x < 0)))
            ∧ (∃ rem : Int, v.y = q.y * s + rem ∧ |rem| < |s|
              ∧ (rem = 0 ∨ (0 < rem ∧ 0 < v.y) ∨ (rem < 0 ∧ v.y < 0))) := by
  have e : vector.div v s = some ⟨Int.tdiv v.x s, Int.tdiv v.y s⟩ := by
    simp only [vector.div, hs0, if_false, wrap32_of_int32 _ (tdiv_int32 v.x s hvx hs0 hx),
      wrap32_of_int32 _ (tdiv_int32 v.y s hvy hs0 hy)]
  refine ⟨e, ?_⟩
  intro q hq
  rw [e] at hq
  simp only [Option.some.injEq] at hq
  subst hq
  exact ⟨tdiv_rem v.x s hs0, tdiv_rem v.y s hs0⟩

/-- C14 witness: `(-7, 7) / 2 = (-3, 3)`. -/
theorem vector_div_truncates_witness : vector.div ⟨-7, 7⟩ 2 = some ⟨-3, 3⟩ :=
  (vector_div_truncates ⟨-7, 7⟩ 2 (by decide) (by decide) (by decide) (by decide) (by decide)).1

/-- C14 counterexample: `(INT32_MIN, 7) / -1`. The exact quotient `2^31` of the first
component does not fit `int32_t`; the stored result is `INT32_MIN`, and no `int32_t`
value `q` at all satisfies `INT32_MIN = q * (-1) + rem` with `|rem| < |-1|`. -/
theorem vector_div_int_min :
    vector.div ⟨-2147483648, 7⟩ (-1) = some ⟨-2147483648, -7⟩
      ∧ ¬ int32 (Int.tdiv (-2147483648) (-1))
      ∧ ∀ q : Int, int32 q →
          ¬ ∃ rem : Int, (-2147483648 : Int) = q * (-1) + rem ∧ |rem| < |(-1 : Int)| := by
  refine ⟨by decide, by decide, ?_⟩
  rintro q ⟨h1, h2⟩ ⟨rem, h3, h4⟩
  rw [abs_lt] at h4
  simp at h4
  omega

/-! ## C15: fill mode stays inside the disc -/

/-- A pixel at horizontal offset within `±e` on the row at offset `b`, where
`e² + b² ≤ r²` and `e ≤ r - 1`, `|b| ≤ r - 1`, lies in the disc and in the square. -/
theorem pixel_in_disc (r e b dx dy : Int) (he : e ≤ r - 1)
    (hb : |b| ≤ r - 1) (hsq : e * e + b * b ≤ r * r) (h1 : -e ≤ dx) (h2 : dx ≤ e)
    (hdy : dy = b) :
    dx ^ 2 + dy ^ 2 ≤ r ^ 2 ∧ |dx| ≤ r - 1 ∧ |dy| ≤ r - 1 := by
  subst hdy
  refine ⟨?_, ?_, hb⟩
  · have : dx ^ 2 ≤ e ^ 2 := sq_le_sq' h1 h2
    nlinarith
  · rw [abs_le]; constructor <;> omega

/-- C15 (as amended): for every `int32_t` radius `r ≥ 1` and every center `c` for
which `c.x ± (r-1)` and `c.y ± (r-1)` fit `int32_t`, every pixel `p` covered by a
span issued by fill-mode `draw_circle` satisfies `(p.x-c.x)² + (p.y-c.y)² ≤ r²`,
`|p.x-c.x| ≤ r-1` and `|p.y-c.y| ≤ r-1`; the span from `c.x-(r-1)` to `c.x+(r-1)` on
the row of the center is issued, so the shape is exactly `2r-1` pixels wide. -/
theorem fill_inside_disc (can : canvas) (center : point) (radius : Int)
    (hr1 : 1 ≤ radius) (hr2 : radius ≤ 2147483647)
    (hx1 : int32 (center.x - (radius - 1))) (hx2 : int32 (center.x + (radius - 1)))
    (hy1 : int32 (center.y - (radius - 1))) (hy2 : int32 (center.y + (radius - 1))) :
    (∀ p0 p1 p : point,
        command.draw_line p0 p1 ∈ issued can (draw_circle can center radius fill.on) →
        span_covers p0 p1 p →
          (p.x - center.x) ^ 2 + (p.y - center.y) ^ 2 ≤ radius ^ 2
            ∧ |p.x - center.x| ≤ radius - 1 ∧ |p.y - center.y| ≤ radius - 1)
      ∧ command.draw_line ⟨center.x - (radius - 1), center.y⟩ ⟨center.x + (radius - 1), center.y⟩
          ∈ issued can (draw_circle can center radius fill.on) := by
  unfold int32 at hx1 hx2 hy1 hy2
  constructor
  · intro p0 p1 p hl hc
    rw [mem_issued_fill] at hl
    obtain ⟨s, hs, hl⟩ := hl
    obtain ⟨h0, h1, h2, hsq⟩ := circle_trace_in_disc radius hr1 hr2 s hs
    have wxm : wrap32 (center.x - s.x) = center.x - s.x := by unfold wrap32; omega
    have wxp : wrap32 (center.x + s.x) = center.x + s.x := by unfold wrap32; omega
    have wym : wrap32 (center.y - s.y) = center.y - s.y := by unfold wrap32; omega
    have wyp : wrap32 (center.y + s.y) = center.y + s.y := by unfold wrap32; omega
    have vxm : wrap32 (center.x - s.y) = center.x - s.y := by unfold wrap32; omega
    have vxp : wrap32 (center.x + s.y) = center.x + s.y := by unfold wrap32; omega
    have vym : wrap32 (center.y - s.x) = center.y - s.x := by unfold wrap32; omega
    have vyp : wrap32 (center.y + s.x) = center.y + s.x := by unfold wrap32; omega
    have hsq2 : s.y * s.y + s.x * s.x ≤ radius * radius := by omega
    have hsq3 : s.x * s.x + -s.y * -s.y ≤ radius * radius := by
      have : -s.y * -s.y = s.y * s.y := by ring
      omega
    have hsq4 : s.y * s.y + -s.x * -s.x ≤ radius * radius := by
      have : -s.x * -s.x = s.x * s.x := by ring
      omega
    have ay : |s.y| ≤ radius - 1 := by rw [abs_le]; constructor <;> omega
    have ax : |s.x| ≤ radius - 1 := by rw [abs_le]; constructor <;> omega
    have any : |(-s.y)| ≤ radius - 1 := by rw [abs_neg]; exact ay
    have anx : |(-s.x)| ≤ radius - 1 := by rw [abs_neg]; exact ax
    simp only [span_lines, wxm, wxp, wym, wyp, vxm, vxp, vym, vyp, List.mem_cons,
      List.mem_singleton, List.not_mem_nil, or_false, Prod.mk.injEq] at hl
    obtain ⟨c1, c2, c3, c4⟩ := hc
    rcases hl with ⟨rfl, rfl⟩ | ⟨rfl, rfl⟩ | ⟨rfl, rfl⟩ | ⟨rfl, rfl⟩ <;> dsimp only at c1 c2 c3 c4
    · exact pixel_in_disc radius s.x (-s.y) _ _ h2 any hsq3 (by omega) (by omega)
        (by omega)
    · exact pixel_in_disc radius s.x s.y _ _ h2 ay hsq (by omega) (by omega)
        (by omega)
    · exact pixel_in_disc radius s.y (-s.x) _ _ (by omega) anx hsq4 (by omega) (by omega)
        (by omega)
    · exact pixel_in_disc radius s.y s.x _ _ (by omega) ax hsq2 (by omega) (by omega)
        (by omega)
  · rw [mem_issued_fill]
    refine ⟨circle_init radius, circle_init_mem_trace radius hr1 hr2, ?_⟩
    have ix : (circle_init radius).x = radius - 1 := by
      simp only [circle_init, wrap32]; omega
    have iy : (circle_init radius).y = 0 := rfl
    have wxm : wrap32 (center.x - (radius - 1)) = center.x - (radius - 1) := by
      unfold wrap32; omega
    have wxp : wrap32 (center.x + (radius - 1)) = center.x + (radius - 1) := by
      unfold wrap32; omega
    have wy : wrap32 center.y = center.y := by unfold wrap32; omega
    simp [span_lines, ix, iy, wxm, wxp, wy]

/-- C15 witness: center (0,0), radius 5, the pixel (3, -2) on the span from (-4,-2)
to (4,-2). -/
theorem fill_inside_disc_witness :
    ((3 : Int) - 0) ^ 2 + ((-2 : Int) - 0) ^ 2 ≤ (5 : Int) ^ 2
      ∧ |(3 : Int) - 0| ≤ 5 - 1 ∧ |(-2 : Int) - 0| ≤ 5 - 1 :=
  (fill_inside_disc ⟨black, []⟩ ⟨0, 0⟩ 5 (by decide) (by decide) (by decide) (by decide)
    (by decide) (by decide)).1 ⟨-4, -2⟩ ⟨4, -2⟩ ⟨3, -2⟩ (by decide) (by decide)

/-- C15 counterexample: with center (INT32_MAX, 0) and radius 2 the coordinate
`center.x + x` of the first span wraps around: the span issued on row 0 runs from
`INT32_MAX - 1` to `INT32_MIN`, and its end `(INT32_MIN, 0)` is outside the disc and
outside the square. -/
theorem fill_span_outside_disc :
    command.draw_line ⟨2147483646, 0⟩ ⟨-2147483648, 0⟩
        ∈ issued ⟨black, []⟩ (draw_circle ⟨black, []⟩ ⟨2147483647, 0⟩ 2 fill.on)
      ∧ span_covers ⟨2147483646, 0⟩ ⟨-2147483648, 0⟩ ⟨-2147483648, 0⟩
      ∧ ¬ ((-2147483648 - 2147483647 : Int) ^ 2 + (0 - 0 : Int) ^ 2 ≤ (2 : Int) ^ 2)
      ∧ ¬ (|(-2147483648 - 2147483647 : Int)| ≤ 2 - 1) := by
  refine ⟨by decide, by decide, by decide, by decide⟩

/-! ## C16: every iteration moves to an 8-neighbour -/

/-- Under the invariant an update increases `y` by one and decreases `x` by zero or
one. -/
theorem circle_step_neighbour (r : Int) (hr1 : 1 ≤ r) (hr2 : r ≤ 1073741824) (s : circle_state)
    (h : circle_inv r s) :
    (circle_step (wrap32 (r * 2)) s).y = s.y + 1
      ∧ ((circle_step (wrap32 (r * 2)) s).x = s.x ∨ (circle_step (wrap32 (r * 2)) s).x = s.x - 1) := by
  rw [circle_step_exact r hr1 hr2 s h]
  split_ifs
  · exact ⟨rfl, Or.inr rfl⟩
  · exact ⟨rfl, Or.inl rfl⟩

/-- Successive states of the loop are related by the update. -/
theorem circle_states_chain (r : Int) (hr1 : 1 ≤ r) (hr2 : r ≤ 1073741824) (n : Nat) :
    ∀ s, circle_inv r s →
      List.Chain' (fun a b : circle_state => b = circle_step (wrap32 (r * 2)) a
          ∧ b.y = a.y + 1 ∧ (b.x = a.x ∨ b.x = a.x - 1))
        (circle_states (wrap32 (r * 2)) n s) := by
  induction n with
  | zero => intro s _; simp [circle_states]
  | succ n ih =>
    intro s hs
    have hg : s.x ≥ s.y := hs.2.1
    rw [circle_states_succ]
    simp only [hg, if_true]
    rw [List.chain'_cons']
    by_cases hstep : (circle_step (wrap32 (r * 2)) s).x ≥ (circle_step (wrap32 (r * 2)) s).y
    · refine ⟨?_, ih _ (circle_step_inv r hr1 hr2 s hs hstep)⟩
      intro y hy
      cases n with
      | zero => simp [circle_states] at hy
      | succ n =>
        rw [circle_states_succ] at hy
        simp only [hstep, if_true, List.head?_cons, Option.mem_def, Option.some.injEq] at hy
        subst hy
        exact ⟨rfl, circle_step_neighbour r hr1 hr2 s hs⟩
    · have hnil : circle_states (wrap32 (r * 2)) n (circle_step (wrap32 (r * 2)) s) = [] := by
        cases n with
        | zero => rfl
        | succ n => simp [circle_states, hstep]
      rw [hnil]
      simp

/-- C16 (as amended): for every radius `1 ≤ r ≤ 2^30`, every iteration of the loop
of `draw_circle` starts with `error ≤ 0`, its update increases `y` by exactly one and
decreases `x` by zero or one, and so each state at which the body runs is an
8-neighbour of the one before it. -/
theorem circle_iterations_adjacent (radius : Int) (hr1 : 1 ≤ radius)
    (hr2 : radius ≤ 1073741824) :
    (∀ s ∈ circle_trace radius,
        s.error ≤ 0
          ∧ (circle_step (wrap32 (radius * 2)) s).y = s.y + 1
          ∧ ((circle_step (wrap32 (radius * 2)) s).x = s.x
              ∨ (circle_step (wrap32 (radius * 2)) s).x = s.x - 1))
      ∧ List.Chain' (fun a b : circle_state => b = circle_step (wrap32 (radius * 2)) a
            ∧ b.y = a.y + 1 ∧ (b.x = a.x ∨ b.x = a.x - 1))
          (circle_trace radius) := by
  constructor
  · intro s hs
    have hinv := circle_trace_inv radius hr1 hr2 s hs
    exact ⟨hinv.2.2.2.2.2.2.2.1, circle_step_neighbour radius hr1 hr2 s hinv⟩
  · exact circle_states_chain radius hr1 hr2 _ _ (circle_inv_init radius hr1 hr2)

/-- C16 witness: radius 6 visits (5,0), (5,1), (5,2), (5,3), (4,4). -/
theorem circle_iterations_adjacent_witness :
    (circle_trace 6).map (fun s => (s.x, s.y)) = [(5, 0), (5, 1), (5, 2), (5, 3), (4, 4)]
      ∧ List.Chain' (fun a b : circle_state => b = circle_step (wrap32 (6 * 2)) a
            ∧ b.y = a.y + 1 ∧ (b.x = a.x ∨ b.x = a.x - 1))
          (circle_trace 6) :=
  ⟨by decide, (circle_iterations_adjacent 6 (by decide) (by decide)).2⟩

/-- C16 counterexample: for radius `2^30 + 1` the diameter wraps around, the loop is
entered with `error = INT32_MAX > 0`, and the first update leaves `y` at 0. -/
theorem circle_iteration_positive_error :
    circle_init 1073741825 ∈ circle_trace 1073741825
      ∧ ¬ ((circle_init 1073741825).error ≤ 0)
      ∧ ¬ ((circle_step (wrap32 (1073741825 * 2)) (circle_init 1073741825)).y
            = (circle_init 1073741825).y + 1) := by
  refine ⟨circle_init_mem_trace 1073741825 (by decide) (by decide), by decide, by decide⟩

/-! ## C17: no 32-bit overflow for radii up to `2^30 - 1` -/

/-- Under the invariant the update computes the same state over the unbounded
integers. -/
theorem circle_step_eq_unbounded (r : Int) (hr1 : 1 ≤ r) (hr2 : r ≤ 1073741824)
    (s : circle_state) (h : circle_inv r s) :
    circle_step (wrap32 (r * 2)) s = circle_step_unbounded (r * 2) s := by
  rw [circle_step_exact r hr1 hr2 s h]
  have hle : s.error ≤ 0 := h.2.2.2.2.2.2.2.1
  by_cases hp : 0 < s.error + s.ty
  · simp only [circle_step_unbounded, hle, if_true, gt_iff_lt, hp]
  · simp only [circle_step_unbounded, hle, if_true, gt_iff_lt, hp, if_false]

theorem circle_states_eq_unbounded (r : Int) (hr1 : 1 ≤ r) (hr2 : r ≤ 1073741824) (n : Nat) :
    ∀ s, circle_inv r s →
      circle_states (wrap32 (r * 2)) n s = circle_states_unbounded (r * 2) n s := by
  induction n with
  | zero => intro s _; rfl
  | succ n ih =>
    intro s hs
    have hg : s.x ≥ s.y := hs.2.1
    rw [circle_states_succ]
    simp only [circle_states_unbounded, hg, if_true]
    congr 1
    rw [← circle_step_eq_unbounded r hr1 hr2 s hs]
    by_cases hstep : (circle_step (wrap32 (r * 2)) s).x ≥ (circle_step (wrap32 (r * 2)) s).y
    · exact ih _ (circle_step_inv r hr1 hr2 s hs hstep)
    · cases n with
      | zero => rfl
      | succ n => simp [circle_states, circle_states_unbounded, hstep]

/-- The exact values computed by an update under the invariant. -/
theorem circle_step_values_eq (r : Int) (hr1 : 1 ≤ r) (hr2 : r ≤ 1073741823)
    (s : circle_state) (h : circle_inv r s) :
    circle_step_values (wrap32 (r * 2)) s
      = [s.y + 1, s.error + s.ty, s.ty + 2]
          ++ (if 0 < s.error + s.ty then
                [s.x - 1, s.tx + 2, s.tx + 2 - r * 2, s.error + s.ty + (s.tx + 2 - r * 2)]
              else []) := by
  obtain ⟨h0, h1, h2, h3, h4, h5, h6, h7, h8⟩ := h
  have e0 : wrap32 (r * 2) = r * 2 := by unfold wrap32; omega
  have e2 : wrap32 (s.error + s.ty) = s.error + s.ty := by unfold wrap32; omega
  have e5 : wrap32 (s.tx + 2) = s.tx + 2 := by unfold wrap32; omega
  have e6 : wrap32 (s.tx + 2 - r * 2) = s.tx + 2 - r * 2 := by unfold wrap32; omega
  have hle : s.error ≤ 0 := h7
  simp only [circle_step_values, hle, if_true, e0, e2, e5, e6, gt_iff_lt]

/-- C17: for every radius `1 ≤ r ≤ 2^30 - 1`, every value computed by `draw_circle`
for `diameter`, `x`, `y`, `tx`, `ty` and `error` (the results of the initialising
operations, the values held at each iteration and the results of the operations of
each update, all taken before they are stored in an `int32_t`) is at most `2r + 1`
in absolute value and fits `int32_t`; the 32-bit initial state, update and list of
visited states are those computed over the unbounded integers. For `r = 2^30` the
product `radius * 2` does not fit `int32_t`. -/
theorem circle_no_overflow (radius : Int) (hr1 : 1 ≤ radius) (hr2 : radius ≤ 1073741823) :
    (∀ v ∈ circle_init_values radius, |v| ≤ 2 * radius + 1 ∧ int32 v)
      ∧ (∀ s ∈ circle_trace radius,
          (∀ v ∈ [s.x, s.y, s.tx, s.ty, s.error], |v| ≤ 2 * radius + 1 ∧ int32 v)
            ∧ (∀ v ∈ circle_step_values (wrap32 (radius * 2)) s,
                |v| ≤ 2 * radius + 1 ∧ int32 v)
            ∧ circle_step (wrap32 (radius * 2)) s = circle_step_unbounded (radius * 2) s)
      ∧ circle_init radius = circle_init_unbounded radius
      ∧ circle_trace radius
          = circle_states_unbounded (radius * 2) (circle_fuel radius)
              (circle_init_unbounded radius)
      ∧ (∃ v ∈ circle_init_values 1073741824, ¬ int32 v) := by
  have hr3 : radius ≤ 1073741824 := by omega
  have e0 : wrap32 (radius * 2) = radius * 2 := by unfold wrap32; omega
  have hinit : circle_init radius = circle_init_unbounded radius := by
    have hx : wrap32 (radius - 1) = radius - 1 := by unfold wrap32; omega
    have he : wrap32 (1 - radius * 2) = 1 - radius * 2 := by unfold wrap32; omega
    simp only [circle_init, circle_init_unbounded, e0, hx, he]
  have key : ∀ v : Int, -(2 * radius + 1) ≤ v → v ≤ 2 * radius + 1 →
      |v| ≤ 2 * radius + 1 ∧ int32 v := by
    intro v h1 h2
    refine ⟨abs_le.mpr ⟨h1, h2⟩, ?_⟩
    unfold int32; omega
  refine ⟨?_, ?_, hinit, ?_, ⟨1073741824 * 2, by simp [circle_init_values], by decide⟩⟩
  · intro v hv
    simp only [circle_init_values, e0, List.mem_cons, List.mem_singleton, List.not_mem_nil,
      or_false] at hv
    rcases hv with rfl | rfl | rfl <;> apply key <;> omega
  · intro s hs
    have hinv := circle_trace_inv radius hr1 hr3 s hs
    refine ⟨?_, ?_, circle_step_eq_unbounded radius hr1 hr3 s hinv⟩
    · obtain ⟨h0, h1, h2, h3, h4, h5, h6, h7, h8⟩ := hinv
      intro v hv
      simp only [List.mem_cons, List.mem_singleton, List.not_mem_nil, or_false] at hv
      rcases hv with rfl | rfl | rfl | rfl | rfl <;> apply key <;> omega
    · rw [circle_step_values_eq radius hr1 hr2 s hinv]
      obtain ⟨h0, h1, h2, h3, h4, h5, h6, h7, h8⟩ := hinv
      intro v hv
      by_cases hp : 0 < s.error + s.ty
      · simp only [hp, if_true, List.mem_append, List.mem_cons, List.mem_singleton,
          List.not_mem_nil, or_false] at hv
        rcases hv with (rfl | rfl | rfl) | rfl | rfl | rfl | rfl <;> apply key <;> omega
      · simp only [hp, if_false, List.append_nil, List.mem_cons, List.mem_singleton,
          List.not_mem_nil, or_false] at hv
        rcases hv with rfl | rfl | rfl <;> apply key <;> omega
  · unfold circle_trace
    rw [circle_states_eq_unbounded radius hr1 hr3 _ _ (circle_inv_init radius hr1 hr3), hinit]

/-- C17 witness: radius 6 runs the same five states in 32-bit and in unbounded
arithmetic. -/
theorem circle_no_overflow_witness :
    circle_trace 6
        = circle_states_unbounded (6 * 2) (circle_fuel 6) (circle_init_unbounded 6)
      ∧ (circle_trace 6).length = 5 :=
  ⟨(circle_no_overflow 6 (by decide) (by decide)).2.2.2.1, by decide⟩

/-! ## C18: the order of `std::less` on points and vectors -/

theorem less_point_iff (a b : point) :
    less_point a b = true ↔ a.x < b.x ∨ (a.x = b.x ∧ a.y < b.y) := by
  simp only [less_point, Bool.or_eq_true, Bool.and_eq_true, Bool.not_eq_true',
    decide_eq_true_eq, decide_eq_false_iff_not]
  omega

theorem less_vector_iff (a b : vector) :
    less_vector a b = true ↔ a.x < b.x ∨ (a.x = b.x ∧ a.y < b.y) := by
  simp only [less_vector, Bool.or_eq_true, Bool.and_eq_true, Bool.not_eq_true',
    decide_eq_true_eq, decide_eq_false_iff_not]
  omega

theorem point_eq_iff (a b : point) : a = b ↔ a.x = b.x ∧ a.y = b.y := by
  cases a; cases b; simp

theorem vector_eq_iff (a b : vector) : a = b ↔ a.x = b.x ∧ a.y = b.y := by
  cases a; cases b; simp

/-- C18: `std::less<gfx::point>` and `std::less<gfx::vector>` are the lexicographic
order by `x` and then `y`; each is irreflexive and transitive, for any two values
exactly one of `less a b`, `less b a`, `a = b` holds, and two values are equivalent
under the order (neither is less than the other) exactly when they are equal. -/
theorem less_strict_total_order :
    (∀ a b : point, less_point a b = true ↔ a.x < b.x ∨ (a.x = b.x ∧ a.y < b.y))
      ∧ (∀ a : point, less_point a a = false)
      ∧ (∀ a b c : point, less_point a b = true → less_point b c = true → less_point a c = true)
      ∧ (∀ a b : point,
          (less_point a b = true ∧ less_point b a = false ∧ a ≠ b)
            ∨ (less_point a b = false ∧ less_point b a = true ∧ a ≠ b)
            ∨ (less_point a b = false ∧ less_point b a = false ∧ a = b))
      ∧ (∀ a b : point, (less_point a b = false ∧ less_point b a = false) ↔ a = b)
      ∧ (∀ a b : vector, less_vector a b = true ↔ a.x < b.x ∨ (a.x = b.x ∧ a.y < b.y))
      ∧ (∀ a : vector, less_vector a a = false)
      ∧ (∀ a b c : vector,
          less_vector a b = true → less_vector b c = true → less_vector a c = true)
      ∧ (∀ a b : vector,
          (less_vector a b = true ∧ less_vector b a = false ∧ a ≠ b)
            ∨ (less_vector a b = false ∧ less_vector b a = true ∧ a ≠ b)
            ∨ (less_vector a b = false ∧ less_vector b a = false ∧ a = b))
      ∧ (∀ a b : vector, (less_vector a b = false ∧ less_vector b a = false) ↔ a = b) := by
  refine ⟨less_point_iff, ?_, ?_, ?_, ?_, less_vector_iff, ?_, ?_, ?_, ?_⟩
  · intro a
    rw [← Bool.not_eq_true, less_point_iff]; omega
  · intro a b c
    rw [less_point_iff, less_point_iff, less_point_iff]; omega
  · intro a b
    rw [← Bool.not_eq_true, ← Bool.not_eq_true, less_point_iff, less_point_iff, ne_eq,
      point_eq_iff]
    omega
  · intro a b
    rw [← Bool.not_eq_true, ← Bool.not_eq_true, less_point_iff, less_point_iff, point_eq_iff]
    omega
  · intro a
    rw [← Bool.not_eq_true, less_vector_iff]; omega
  · intro a b c
    rw [less_vector_iff, less_vector_iff, less_vector_iff]; omega
  · intro a b
    rw [← Bool.not_eq_true, ← Bool.not_eq_true, less_vector_iff, less_vector_iff, ne_eq,
      vector_eq_iff]
    omega
  · intro a b
    rw [← Bool.not_eq_true, ← Bool.not_eq_true, less_vector_iff, less_vector_iff, vector_eq_iff]
    omega

end gfx
